import Mathlib

/-!
Verification of the `poisson` crate (Poisson-disk sampling à la Gamito–Maddock).

The source is shallowly embedded over an arbitrary `LinearOrderedField` with a
`FloorRing` structure (instantiated at `ℝ` for the specification-level claims):
`f64` values become field elements, `f64` vectors (`VecLike`) become lists of
field elements, fallible lookups become `Option`, and the imperative
`generate` driver becomes a small-step transition relation whose
nondeterminism stands for the random number generator.
-/

set_option linter.unusedSectionVars false
set_option linter.unusedVariables false

namespace Poisson

variable {K : Type} [LinearOrderedField K] [FloorRing K]

/-- A `D`-dimensional point or index vector (`VecLike` in the source): a list
of scalars of length `D`. -/
abbrev Vec (K : Type) := List K

/-- Componentwise vector addition (the `Add` bound of `VecLike`). -/
def vadd (v w : Vec K) : Vec K := List.zipWith (· + ·) v w

/-- Componentwise vector subtraction (the `Sub` bound of `VecLike`). -/
def vsub (v w : Vec K) : Vec K := List.zipWith (· - ·) v w

/-- Scalar multiplication `v * c` (the `Mul<f64>` bound of `VecLike`). -/
def smul (v : Vec K) (c : K) : Vec K := v.map (· * c)

/-- Squared Euclidean norm (`Norm::sqnorm` from nalgebra). -/
def sqnorm (v : Vec K) : K := (v.map (fun x => x ^ 2)).sum

/-- Truncation toward zero, the behaviour of Rust `f64 as isize` casts. -/
def trunc (x : K) : ℤ := if x < 0 then -⌊-x⌋ else ⌊x⌋

/-- The combination with counter `j` produced by `CombiIter` in
`utils/mod.rs`: axis `n` receives `choices[j / len^n % len]` (the iterator
extracts `rem = div % len; div /= len` per axis as it walks the vector). -/
def combAt (choices : List K) (D j : ℕ) : Vec K :=
  (List.range D).map (fun n => choices.getD (j / choices.length ^ n % choices.length) 0)

/-- The whole sequence produced by `each_combination(choices)`: all `len^D`
combinations, in counter order. -/
def eachCombination (choices : List K) (D : ℕ) : List (Vec K) :=
  (List.range (choices.length ^ D)).map (combAt choices D)

section CombLemmas

theorem length_eachCombination (choices : List K) (D : ℕ) :
    (eachCombination choices D).length = choices.length ^ D := by
  simp [eachCombination]

theorem length_combAt (choices : List K) (D j : ℕ) : (combAt choices D j).length = D := by
  simp [combAt]

theorem combAt_getElem (choices : List K) (D j n : ℕ) (hn : n < D) :
    (combAt choices D j).get ⟨n, by simpa [length_combAt] using hn⟩ =
      choices.getD (j / choices.length ^ n % choices.length) 0 := by
  simp [combAt]

theorem eachCombination_getElem (choices : List K) (D j : ℕ)
    (hj : j < choices.length ^ D) :
    (eachCombination choices D).get ⟨j, by
      simpa [length_eachCombination] using hj⟩ = combAt choices D j := by
  simp [eachCombination]

theorem mem_eachCombination (choices : List K) (D j : ℕ)
    (hj : j < choices.length ^ D) : combAt choices D j ∈ eachCombination choices D := by
  rw [← eachCombination_getElem choices D j hj]
  exact List.get_mem _ _ _

theorem mem_eachCombination_elim {choices : List K} {D : ℕ} {v : Vec K}
    (hv : v ∈ eachCombination choices D) :
    v.length = D ∧ ∀ n, ∀ h : n < v.length, v.get ⟨n, h⟩ ∈ choices ∨ v.get ⟨n, h⟩ = 0 := by
  simp only [eachCombination, List.mem_map, List.mem_range] at hv
  obtain ⟨j, _, rfl⟩ := hv
  refine ⟨length_combAt choices D j, ?_⟩
  intro n hn
  rw [combAt_getElem choices D j n (by simpa [length_combAt] using hn)]
  rcases Nat.lt_or_ge (j / choices.length ^ n % choices.length) choices.length with h | h
  · rw [List.getD_eq_getElem _ _ h]
    exact Or.inl (List.getElem_mem _)
  · right
    rw [List.getD_eq_default]
    omega

end CombLemmas

/-- Mixed-radix accumulation of a digit list, most significant digit first.
This is the value that `encode` computes: the loop does
`index = (index + cur) * side` per axis and divides by `side` at the end,
which is exactly `natEncode` of the digits. -/
def natEncode (c : List ℕ) (side : ℕ) : ℕ := c.foldl (fun a x => a * side + x) 0

/-- One axis of `encode` in `src/lib.rs`: in periodic mode the coordinate is
cast to `isize` (truncation) and wrapped with the `modulo` crate's true
modulo; otherwise coordinates outside `[0, side)` abort with `None` and the
in-range coordinate is cast to `usize` (truncation, here equal to the floor
since the value is nonnegative). -/
def encodeStep (side : ℕ) (periodicity : Bool) (acc : Option ℕ) (x : K) : Option ℕ :=
  acc.bind fun index =>
    if periodicity then some ((index + ((trunc x).emod side).toNat) * side)
    else if x < 0 ∨ (side : K) ≤ x then none
    else some ((index + (trunc x).toNat) * side)

/-- The `encode` function of `src/lib.rs`: fold the axes with `encodeStep`
and divide the accumulated mixed-radix index by `side` once at the end. -/
def encode (v : Vec K) (side : ℕ) (periodicity : Bool) : Option ℕ :=
  (v.foldl (encodeStep side periodicity) (some 0)).map (· / side)

/-- The `decode` function of `src/lib.rs`: reject indices outside the data
array, then peel base-`side` digits from the least significant end, writing
the vector back to front; axis `n` therefore receives digit
`index / side^(D-1-n) % side`. -/
def decode (D : ℕ) (index side : ℕ) : Option (Vec K) :=
  if side ^ D ≤ index then none
  else some ((List.range D).map (fun n => ((index / side ^ (D - 1 - n) % side : ℕ) : K)))

/-- The free `get_parent` function of `src/lib.rs`: floor-divide every
component by `2^level`. The source's out-of-area rejection
(`return None` for components `>= top_lvl_side`) is commented out, so the
function returns `Some` of the floored vector unconditionally; the
`top_lvl_side` parameter is kept but unused, as in the source. -/
def get_parent (index : Vec K) (level : ℕ) (topLvlSide : ℕ) : Option (Vec K) :=
  some (index.map (fun x => ((⌊x / (2 ^ level : K)⌋ : ℤ) : K)))

/-- The parent projection without the (always-`some`) `Option` wrapper;
`Grid::get_parent` unwraps `get_parent`, which yields exactly this. -/
def parentVec (index : Vec K) (level : ℕ) : Vec K :=
  index.map (fun x => ((⌊x / (2 ^ level : K)⌋ : ℤ) : K))

theorem get_parent_eq (index : Vec K) (level topLvlSide : ℕ) :
    get_parent index level topLvlSide = some (parentVec index level) := rfl

section Digits

/-- Little-endian evaluation of a digit stream, used to build the counter of
a prescribed combination. -/
def digitsVal (L : ℕ) (d : ℕ → ℕ) : ℕ → ℕ
  | 0 => 0
  | D + 1 => digitsVal L d D + d D * L ^ D

theorem digitsVal_lt {L : ℕ} {d : ℕ → ℕ} {D : ℕ}
    (hd : ∀ n, n < D → d n < L) : digitsVal L d D < L ^ D := by
  induction D with
  | zero => simp [digitsVal]
  | succ D ih =>
    have h1 : digitsVal L d D < L ^ D := ih (fun n hn => Nat.lt_succ_of_lt hn |> hd n)
    have h2 : d D < L := hd D (Nat.lt_succ_self D)
    calc digitsVal L d (D + 1) < L ^ D + d D * L ^ D := by
          simp only [digitsVal]; omega
      _ = (d D + 1) * L ^ D := by ring
      _ ≤ L * L ^ D := Nat.mul_le_mul_right _ (Nat.succ_le_of_lt h2)
      _ = L ^ (D + 1) := by ring

theorem digitsVal_digit {L : ℕ} {d : ℕ → ℕ} {D n : ℕ}
    (hd : ∀ m, m < D → d m < L) (hn : n < D) :
    digitsVal L d D / L ^ n % L = d n := by
  have hL : 0 < L := Nat.pos_of_ne_zero (by intro h; exact absurd (hd n hn) (by omega))
  induction D with
  | zero => omega
  | succ D ih =>
    rcases Nat.lt_or_ge n D with h | h
    · have hdig := ih (fun m hm => hd m (Nat.lt_succ_of_lt hm)) h
      have hdvd : d D * L ^ D / L ^ n = d D * L ^ (D - n) := by
        rw [Nat.mul_div_assoc _ (pow_dvd_pow L (le_of_lt h)), Nat.pow_div (le_of_lt h) hL]
      have hsplit : digitsVal L d (D + 1) / L ^ n =
          digitsVal L d D / L ^ n + d D * L ^ (D - n) := by
        simp only [digitsVal]
        rw [Nat.add_div_of_dvd_left (Dvd.dvd.mul_left (pow_dvd_pow L (le_of_lt h)) _), hdvd]
      have hmul : d D * L ^ (D - n) = d D * L ^ (D - n - 1) * L := by
        obtain ⟨k, hk⟩ : ∃ k, D - n = k + 1 := ⟨D - n - 1, by omega⟩
        rw [hk, Nat.add_sub_cancel, pow_succ]
        ring
      rw [hsplit, hmul, Nat.add_mul_mod_self_right, hdig]
    · have : n = D := by omega
      subst this
      have h0 : digitsVal L d n / L ^ n = 0 :=
        Nat.div_eq_of_lt (digitsVal_lt (fun m hm => hd m (Nat.lt_succ_of_lt hm)))
      simp only [digitsVal]
      rw [Nat.add_mul_div_right _ _ (pow_pos hL n), h0, Nat.zero_add,
        Nat.mod_eq_of_lt (hd n (Nat.lt_succ_self n))]

end Digits

/-- Completeness of `each_combination`: any vector whose components are all
drawn from `choices` occurs in the produced sequence. -/
theorem mem_eachCombination_intro {choices : List K} {D : ℕ} {v : Vec K}
    (hlen : v.length = D) (d : ℕ → ℕ) (hdlt : ∀ n, n < D → d n < choices.length)
    (hv : ∀ n, ∀ h : n < D, v.get ⟨n, by omega⟩ = choices.getD (d n) 0) :
    v ∈ eachCombination choices D := by
  have hj : digitsVal choices.length d D < choices.length ^ D := digitsVal_lt hdlt
  have hveq : v = combAt choices D (digitsVal choices.length d D) := by
    apply List.ext_get (by rw [hlen, length_combAt])
    intro n h1 h2
    have hn : n < D := by omega
    rw [combAt_getElem choices D _ n hn, hv n hn, digitsVal_digit hdlt hn]
  rw [hveq]
  exact mem_eachCombination choices D _ hj

section NatEncode

theorem natEncode_foldl (c : List ℕ) (s a : ℕ) :
    c.foldl (fun x y => x * s + y) a = a * s ^ c.length + natEncode c s := by
  induction c generalizing a with
  | nil => simp [natEncode]
  | cons x c ih =>
    have hx : natEncode (x :: c) s = x * s ^ c.length + natEncode c s := by
      show List.foldl _ (0 * s + x) c = _
      rw [ih]; ring_nf
    simp only [List.foldl_cons, hx, List.length_cons]
    rw [ih]; ring

theorem natEncode_cons (x : ℕ) (c : List ℕ) (s : ℕ) :
    natEncode (x :: c) s = x * s ^ c.length + natEncode c s := by
  show List.foldl _ (0 * s + x) c = _
  rw [natEncode_foldl]; ring_nf

theorem natEncode_lt {c : List ℕ} {s : ℕ} (hs : 0 < s) (h : ∀ m ∈ c, m < s) :
    natEncode c s < s ^ c.length := by
  induction c with
  | nil => simp [natEncode]
  | cons x c ih =>
    have h1 : natEncode c s < s ^ c.length := ih (fun m hm => h m (List.mem_cons_of_mem _ hm))
    have h2 : x < s := h x (List.mem_cons_self _ _)
    calc natEncode (x :: c) s < x * s ^ c.length + s ^ c.length := by
          rw [natEncode_cons]; omega
      _ = (x + 1) * s ^ c.length := by ring
      _ ≤ s * s ^ c.length := Nat.mul_le_mul_right _ (Nat.succ_le_of_lt h2)
      _ = s ^ (x :: c).length := by simp [List.length_cons]; ring

theorem natEncode_digit {c : List ℕ} {s n : ℕ} (h : ∀ m ∈ c, m < s)
    (hn : n < c.length) :
    natEncode c s / s ^ (c.length - 1 - n) % s = c.get ⟨n, hn⟩ := by
  induction c generalizing n with
  | nil => simp at hn
  | cons x c ih =>
    have hs : 0 < s := Nat.pos_of_ne_zero (by
      intro hz; exact absurd (h x (List.mem_cons_self _ _)) (by omega))
    have htail : ∀ m ∈ c, m < s := fun m hm => h m (List.mem_cons_of_mem _ hm)
    rcases n with _ | n
    · have hexp : (x :: c).length - 1 - 0 = c.length := by simp
      rw [hexp, natEncode_cons, Nat.mul_comm, Nat.mul_add_div (pow_pos hs _),
        Nat.div_eq_of_lt (natEncode_lt hs htail), Nat.add_zero,
        Nat.mod_eq_of_lt (h x (List.mem_cons_self _ _))]
      rfl
    · have hn' : n < c.length := by simpa using hn
      have hexp : (x :: c).length - 1 - (n + 1) = c.length - 1 - n := by
        simp only [List.length_cons]; omega
      have hle : c.length - 1 - n ≤ c.length := by omega
      have hdvd : x * s ^ c.length / s ^ (c.length - 1 - n) =
          x * s ^ (c.length - (c.length - 1 - n)) := by
        rw [Nat.mul_div_assoc _ (pow_dvd_pow s hle), Nat.pow_div hle hs]
      have hsub : c.length - (c.length - 1 - n) = n + 1 := by omega
      rw [hexp, natEncode_cons,
        Nat.add_div_of_dvd_right (Dvd.dvd.mul_left (pow_dvd_pow s hle) _), hdvd, hsub]
      have hpow : x * s ^ (n + 1) = x * s ^ n * s := by ring
      rw [hpow, Nat.add_comm, Nat.add_mul_mod_self_right]
      exact ih htail hn'

end NatEncode

section Trunc

theorem trunc_intCast (z : ℤ) : trunc ((z : K)) = z := by
  unfold trunc
  by_cases hz : (z : K) < 0
  · rw [if_pos hz]
    rw [show (-(z : K)) = ((-z : ℤ) : K) by push_cast; ring, Int.floor_intCast]
    ring
  · rw [if_neg hz, Int.floor_intCast]

theorem trunc_natCast (m : ℕ) : trunc ((m : K)) = m := by
  have : ((m : ℤ) : K) = (m : K) := by push_cast; ring
  rw [← this, trunc_intCast]

end Trunc

section CastVec

/-- A natural-number coordinate vector viewed as a `K`-vector. -/
def cvec (c : List ℕ) : Vec K := c.map (fun m : ℕ => (m : K))

/-- An integer coordinate vector viewed as a `K`-vector. -/
def zvec (c : List ℤ) : Vec K := c.map (fun z : ℤ => (z : K))

@[simp] theorem cvec_nil : cvec (K := K) [] = [] := rfl

@[simp] theorem cvec_cons (m : ℕ) (c : List ℕ) :
    cvec (K := K) (m :: c) = (m : K) :: cvec c := rfl

@[simp] theorem length_cvec (c : List ℕ) : (cvec (K := K) c).length = c.length := by
  simp [cvec]

@[simp] theorem zvec_nil : zvec (K := K) [] = [] := rfl

@[simp] theorem zvec_cons (z : ℤ) (c : List ℤ) :
    zvec (K := K) (z :: c) = (z : K) :: zvec c := rfl

@[simp] theorem length_zvec (c : List ℤ) : (zvec (K := K) c).length = c.length := by
  simp [zvec]

theorem get_cvec (c : List ℕ) (n : ℕ) (h : n < c.length) :
    (cvec (K := K) c).get ⟨n, by simpa using h⟩ = ((c.get ⟨n, h⟩ : ℕ) : K) := by
  simp [cvec]

end CastVec

section EncodeLemmas

theorem encode_foldl_nonper {c : List ℕ} {s : ℕ} (h : ∀ m ∈ c, m < s) (a : ℕ) :
    (cvec (K := K) c).foldl (encodeStep s false) (some a) =
      some (a * s ^ c.length + natEncode c s * s) := by
  induction c generalizing a with
  | nil => simp [natEncode]
  | cons x c ih =>
    have hx : x < s := h x (List.mem_cons_self _ _)
    have htail : ∀ m ∈ c, m < s := fun m hm => h m (List.mem_cons_of_mem _ hm)
    have hnotout : ¬((x : K) < 0 ∨ (s : K) ≤ (x : K)) := by
      push_neg
      constructor
      · exact_mod_cast Nat.zero_le x
      · exact_mod_cast hx
    have hstep : encodeStep s false (some a) ((x : K)) = some ((a + x) * s) := by
      simp only [encodeStep, Option.some_bind, if_neg hnotout, Bool.false_eq_true,
        if_false, trunc_natCast, Int.toNat_natCast]
    rw [cvec_cons, List.foldl_cons, hstep, ih htail, natEncode_cons]
    congr 1
    simp only [List.length_cons]
    ring

theorem encode_cvec {c : List ℕ} {s : ℕ} (h : ∀ m ∈ c, m < s) :
    encode (cvec (K := K) c) s false = some (natEncode c s) := by
  unfold encode
  rw [encode_foldl_nonper h 0]
  rcases Nat.eq_zero_or_pos s with hs | hs
  · subst hs
    have : c = [] := by
      cases c with
      | nil => rfl
      | cons x c => exact absurd (h x (List.mem_cons_self _ _)) (by omega)
    subst this
    simp [natEncode]
  · simp [Nat.mul_div_cancel _ hs]

theorem encode_foldl_none (v : Vec K) (s : ℕ) (p : Bool) :
    v.foldl (encodeStep s p) none = none := by
  induction v with
  | nil => rfl
  | cons x v ih => simpa [encodeStep] using ih

theorem encode_none_iff (v : Vec K) (s : ℕ) :
    encode v s false = none ↔ ∃ x ∈ v, x < 0 ∨ (s : K) ≤ x := by
  have main : ∀ (w : Vec K) (a : ℕ),
      w.foldl (encodeStep s false) (some a) = none ↔ ∃ x ∈ w, x < 0 ∨ (s : K) ≤ x := by
    intro w
    induction w with
    | nil => simp
    | cons x w ih =>
      intro a
      by_cases hout : x < 0 ∨ (s : K) ≤ x
      · have hstep : encodeStep s false (some a) x = none := by
          simp [encodeStep, hout]
        rw [List.foldl_cons, hstep, encode_foldl_none]
        simp only [true_iff]
        exact ⟨x, List.mem_cons_self _ _, hout⟩
      · have hstep : encodeStep s false (some a) x = some ((a + (trunc x).toNat) * s) := by
          simp [encodeStep, hout]
        rw [List.foldl_cons, hstep, ih]
        constructor
        · rintro ⟨y, hy, hout2⟩
          exact ⟨y, List.mem_cons_of_mem _ hy, hout2⟩
        · rintro ⟨y, hy, hout2⟩
          rcases List.mem_cons.mp hy with rfl | hy
          · exact absurd hout2 hout
          · exact ⟨y, hy, hout2⟩
  unfold encode
  rcases hfe : v.foldl (encodeStep s false) (some 0) with _ | i
  · simpa [hfe] using (main v 0).mp hfe
  · have : ¬∃ x ∈ v, x < 0 ∨ (s : K) ≤ x := by
      intro hex
      rw [(main v 0).mpr hex] at hfe
      exact Option.noConfusion hfe
    constructor
    · intro hc
      rw [show Option.map (fun x : ℕ => x / s) (some i) = some (i / s) from rfl] at hc
      exact Option.noConfusion hc
    · intro hex; exact absurd hex this

theorem encode_foldl_per (v : Vec K) (s : ℕ) (a : ℕ) :
    v.foldl (encodeStep s true) (some a) =
      some (a * s ^ v.length +
        natEncode (v.map (fun x => ((trunc x).emod s).toNat)) s * s) := by
  induction v generalizing a with
  | nil => simp [natEncode]
  | cons x v ih =>
    have hstep : encodeStep s true (some a) x =
        some ((a + ((trunc x).emod s).toNat) * s) := by
      simp [encodeStep]
    rw [List.foldl_cons, hstep, ih, List.map_cons, natEncode_cons]
    congr 1
    simp only [List.length_cons, List.length_map]
    ring

theorem encode_per_eq (v : Vec K) {s : ℕ} (hs : 0 < s) :
    encode v s true =
      some (natEncode (v.map (fun x => ((trunc x).emod s).toNat)) s) := by
  unfold encode
  rw [encode_foldl_per v s 0]
  simp [Nat.mul_div_cancel _ hs]

theorem encode_per_lt (v : Vec K) {s : ℕ} (hs : 0 < s) :
    ∃ i, encode v s true = some i ∧ i < s ^ v.length := by
  refine ⟨_, encode_per_eq v hs, ?_⟩
  have hdig : ∀ m ∈ v.map (fun x => ((trunc x).emod s).toNat), m < s := by
    intro m hm
    simp only [List.mem_map] at hm
    obtain ⟨x, _, rfl⟩ := hm
    have h1 : (0 : ℤ) ≤ (trunc x).emod s := Int.emod_nonneg _ (by exact_mod_cast hs.ne')
    have h2 : (trunc x).emod s < s := Int.emod_lt_of_pos _ (by exact_mod_cast hs)
    omega
  have := natEncode_lt hs hdig
  simpa using this

theorem decode_natEncode {c : List ℕ} {s : ℕ} (hs : 0 < s) (h : ∀ m ∈ c, m < s) :
    decode (K := K) c.length (natEncode c s) s = some (cvec c) := by
  unfold decode
  rw [if_neg (by push_neg; exact natEncode_lt hs h)]
  congr 1
  apply List.ext_get (by simp [cvec])
  intro n h1 h2
  have hn : n < c.length := by simpa using h1
  have hd := natEncode_digit (c := c) (s := s) h hn
  simp only [List.get_eq_getElem, List.getElem_map, List.getElem_range, cvec]
  rw [hd]
  simp [List.get_eq_getElem]

end EncodeLemmas

/-- The `sqdist` function of `src/lib.rs`. In periodic mode the source folds
`min` over the squared norms of the `3^D` translated difference vectors with
accumulator starting at `f64::MAX`; the zero translation occurs among the
combinations and every squared norm is dominated by that starting
accumulator, so the fold equals the same fold started at the zero
translation's squared norm, which is the form used here. -/
def sqdist (v1 v2 : Vec K) (periodicity : Bool) : K :=
  let diff := vsub v2 v1
  if periodicity then
    ((eachCombination ([-1, 0, 1] : List K) diff.length).map
      (fun t => sqnorm (vadd diff t))).foldl min (sqnorm diff)
  else sqnorm diff

/-- The position and disk radius pair handed to the output collection. -/
structure Sample (K : Type) where
  pos : Vec K
  radius : K

/-- The grid of `src/lib.rs`: a flat `side^D` array of occupancy slots
(at most one accepted sample each), the cell width, and the addressing mode. -/
structure Grid (K : Type) where
  data : List (Option (Vec K))
  side : ℕ
  cell : K
  periodicity : Bool

/-- `Grid::get`: address a cell through `encode`; `None` when `encode`
rejects. The source indexes `self.data[t]` directly, which cannot be out of
bounds because `encode` only produces indices below `side^D = data.len()`;
the embedding uses `getD` with a default of an empty slot. -/
def Grid.get (g : Grid K) (index : Vec K) : Option (Option (Vec K)) :=
  (encode index g.side g.periodicity).map (fun t => g.data.getD t none)

/-- `Grid::get_mut` addresses the same slot as `Grid.get`; a write through it
is modelled by `Grid.set` at the encoded index. -/
def Grid.set (g : Grid K) (e : ℕ) (v : Option (Vec K)) : Grid K :=
  ⟨g.data.set e v, g.side, g.cell, g.periodicity⟩

/-- `Grid::cells`. -/
def Grid.cells (g : Grid K) : ℕ := g.data.length

/-- `Grid::get_parent`: unwrap of the free `get_parent`, which always
succeeds. -/
def Grid.get_parent (g : Grid K) (index : Vec K) (level : ℕ) : Vec K :=
  (Poisson.get_parent index level g.side).getD []

theorem Grid.get_parent_unwrap (g : Grid K) (index : Vec K) (level : ℕ) :
    g.get_parent index level = parentVec index level := rfl

/-- `Grid::into_extended_samples`: append every occupied slot, wrapped into a
`Sample` carrying the run's radius, to the caller's collection. -/
def Grid.into_extended_samples (g : Grid K) (samples : List (Sample K)) (radius : K) :
    List (Sample K) :=
  samples ++ (g.data.filterMap id).map (fun v => ⟨v, radius⟩)

/-- `choose_random_sample`: the per-axis random draws in `[0,1)` are made
explicit as the vector `place`; the source computes `index * spacing` and
then adds `place[n] * spacing` on each axis. -/
def chooseRandomSample (cell : K) (index : Vec K) (level : ℕ) (place : Vec K) : Vec K :=
  vadd (smul index (cell / ((2 ^ level : ℕ) : K))) (smul place (cell / ((2 ^ level : ℕ) : K)))

/-- `PoissonGen::is_disk_free`: all samples stored in the `5^D` neighbour
ring of the candidate's top-level parent cell must lie at squared distance at
least `(2 * radius)^2` from the proposed point `c`. The generator's
periodicity flag always equals the grid's, so the grid's is used for
`sqdist`. -/
def is_disk_free (D : ℕ) (radius : K) (g : Grid K) (index : Vec K) (level : ℕ)
    (c : Vec K) : Bool :=
  (eachCombination ([-2, -1, 0, 1, 2] : List K) D).all
    (fun t => match (g.get (vadd (parentVec index level) t)).bind id with
      | some v => decide ((2 * radius) ^ 2 ≤ sqdist v c g.periodicity)
      | none => true)

/-- `PoissonGen::is_cell_covered`: every one of the `2^D` corner points of
the cell `index` at refinement `level` lies strictly within disk range of the
existing sample `v`. -/
def is_cell_covered (D : ℕ) (radius : K) (periodicity : Bool) (cell : K) (v index : Vec K)
    (level : ℕ) : Bool :=
  (eachCombination ([0, 1] : List K) D).all
    (fun t => decide (sqdist (smul (vadd index t) (cell / ((2 ^ level : ℕ) : K))) v
      periodicity < (2 * radius) ^ 2))

/-- `PoissonGen::covered`: some sample in the `5^D` neighbour ring of the
cell's top-level parent covers the whole cell. -/
def covered (D : ℕ) (radius : K) (g : Grid K) (index : Vec K) (level : ℕ) : Bool :=
  (eachCombination ([-2, -1, 0, 1, 2] : List K) D).any
    (fun t => match (g.get (vadd (parentVec index level) t)).bind id with
      | some v => is_cell_covered D radius g.periodicity g.cell v index level
      | none => false)

/-- `Vec::swap_remove(i)`: overwrite position `i` with the last element and
pop the last element. The source panics on an empty vector; the embedding
returns the empty list, and every use keeps the index in bounds. -/
def swapRemove {α : Type _} (l : List α) (i : ℕ) : List α :=
  match l.getLast? with
  | none => []
  | some x => (l.set i x).dropLast

/-- The closure `subdivide` passes to `flat_map_inplace`: the `2^D` children
`t + i * 2` of candidate `i`, keeping those that are not `covered` at
`level + 1`. -/
def subdivChildren (D : ℕ) (radius : K) (g : Grid K) (level : ℕ) (i : Vec K) :
    List (Vec K) :=
  ((eachCombination ([0, 1] : List K) D).map (fun n => vadd n (smul i 2))).filter
    (fun c => !(covered D radius g c (level + 1)))

/-- `flat_map_inplace` from `utils/mod.rs`: walk the positions from
`len - 1` down to `0`; at each position swap-remove the element there and
push all of its images onto the end. -/
def flatMapInplaceAux {α : Type _} (f : α → List α) : ℕ → List α → List α
  | 0, v => v
  | i + 1, v =>
    match v[i]? with
    | some x => flatMapInplaceAux f i (swapRemove v i ++ f x)
    | none => flatMapInplaceAux f i v

/-- `Vec::flat_map_inplace` (the `Inplace` trait). -/
def flatMapInplace {α : Type _} (v : List α) (f : α → List α) : List α :=
  flatMapInplaceAux f v.length v

/-- `PoissonGen::subdivide`: replace every candidate by its non-covered
children, in place. -/
def subdivideList (D : ℕ) (radius : K) (g : Grid K) (level : ℕ) (idx : List (Vec K)) :
    List (Vec K) :=
  flatMapInplace idx (subdivChildren D radius g level)

/-- The throw budget of one `throw_samples` pass:
`(a * indices.len() as f64).ceil() as usize` with `a = 0.3`, the constant
`generate` passes. -/
def throwsFor (len : ℕ) : ℕ := ⌈(3 / 10 : K) * (len : K)⌉₊

/-- `f64::MANTISSA_DIGITS`, the level bound of the `generate` loop. -/
def mantissaDigits : ℕ := 53

/-- A `generate` run's configuration: dimension and radius of `PoissonGen`,
the periodicity flag, and the `cell` and `side` values its `Grid::new`
computes from them. -/
structure Cfg (K : Type) where
  D : ℕ
  radius : K
  cell : K
  side : ℕ
  periodic : Bool

/-- The grid `generate` allocates: `side^D` empty slots. -/
def initGrid (cfg : Cfg K) : Grid K :=
  ⟨List.replicate (cfg.side ^ cfg.D) none, cfg.side, cfg.cell, cfg.periodic⟩

/-- The initial candidate list of `generate`: `each_combination` over the
choices `(0..side)` cast to floats. -/
def initIndices (cfg : Cfg K) : List (Vec K) :=
  eachCombination ((List.range cfg.side).map (fun i : ℕ => (i : K))) cfg.D

/-- The mutable state of the `generate` loop: the grid, the candidate list,
the current level, and the number of throws remaining in the current
`throw_samples` pass. -/
structure St (K : Type) where
  grid : Grid K
  indices : List (Vec K)
  level : ℕ
  throws : ℕ

/-- The state right after `generate` allocates its grid and candidate list
and the first `throw_samples` pass computes its throw budget. -/
def initSt (cfg : Cfg K) : St K :=
  ⟨initGrid cfg, initIndices cfg, 0, throwsFor (K := K) (initIndices cfg).length⟩

/-- One step of the `generate` driver. The three `throw` constructors are
the outcomes of one loop iteration of `throw_samples` (top-level parent cell
already occupied, candidate accepted, candidate rejected); `subdivideStep`
is the `subdivide` call together with `level += 1` and the next pass's throw
budget (zero when the loop condition `level < f64::MANTISSA_DIGITS` fails,
in which case no further pass runs). The random index draw and the random
in-cell point are universally quantified step data, standing for the
generator's RNG. A state whose candidate list went empty admits no step,
matching `throw_samples` returning `false` and the loop condition failing. -/
inductive Step (cfg : Cfg K) : St K → St K → Prop
  | throwDead (s : St K) (i : ℕ) (hi : i < s.indices.length) (ht : 0 < s.throws)
      (v : Vec K)
      (hocc : s.grid.get (parentVec (s.indices.get ⟨i, hi⟩) s.level) = some (some v)) :
      Step cfg s ⟨s.grid, swapRemove s.indices i, s.level, s.throws - 1⟩
  | throwPlace (s : St K) (i : ℕ) (hi : i < s.indices.length) (ht : 0 < s.throws)
      (place : Vec K) (hpl : place.length = cfg.D)
      (hp : ∀ x ∈ place, 0 ≤ x ∧ x < 1)
      (hfree : s.grid.get (parentVec (s.indices.get ⟨i, hi⟩) s.level) = some none)
      (hdf : is_disk_free cfg.D cfg.radius s.grid (s.indices.get ⟨i, hi⟩) s.level
        (chooseRandomSample s.grid.cell (s.indices.get ⟨i, hi⟩) s.level place) = true)
      (e : ℕ)
      (henc : encode (parentVec (s.indices.get ⟨i, hi⟩) s.level) s.grid.side
        s.grid.periodicity = some e) :
      Step cfg s ⟨s.grid.set e
          (some (chooseRandomSample s.grid.cell (s.indices.get ⟨i, hi⟩) s.level place)),
        swapRemove s.indices i, s.level, s.throws - 1⟩
  | throwReject (s : St K) (i : ℕ) (hi : i < s.indices.length) (ht : 0 < s.throws)
      (place : Vec K) (hpl : place.length = cfg.D)
      (hp : ∀ x ∈ place, 0 ≤ x ∧ x < 1)
      (hfree : s.grid.get (parentVec (s.indices.get ⟨i, hi⟩) s.level) = some none)
      (hdf : is_disk_free cfg.D cfg.radius s.grid (s.indices.get ⟨i, hi⟩) s.level
        (chooseRandomSample s.grid.cell (s.indices.get ⟨i, hi⟩) s.level place) = false) :
      Step cfg s ⟨s.grid, s.indices, s.level, s.throws - 1⟩
  | subdivideStep (s : St K) (ht : s.throws = 0) (hne : s.indices ≠ [])
      (hlvl : s.level < mantissaDigits) :
      Step cfg s ⟨s.grid, subdivideList cfg.D cfg.radius s.grid s.level s.indices,
        s.level + 1,
        if s.level + 1 < mantissaDigits then
          throwsFor (K := K) (subdivideList cfg.D cfg.radius s.grid s.level s.indices).length
        else 0⟩

/-- States a `generate` run can be in. -/
def Reachable (cfg : Cfg K) (s : St K) : Prop :=
  Relation.ReflTransGen (Step cfg) (initSt cfg) s

section FloorLemmas

theorem floor_div_natCast (m n : ℕ) (hn : 0 < n) :
    ⌊((m : K)) / (n : K)⌋ = ((m / n : ℕ) : ℤ) := by
  have hnK : (0 : K) < n := by exact_mod_cast hn
  have hmod := Nat.div_add_mod m n
  have hlt : m % n < n := Nat.mod_lt _ hn
  have hsum : (n : K) * ((m / n : ℕ) : K) + ((m % n : ℕ) : K) = (m : K) := by
    exact_mod_cast hmod
  have hnn : (0 : K) ≤ ((m % n : ℕ) : K) := by positivity
  have hltK : ((m % n : ℕ) : K) < (n : K) := by exact_mod_cast hlt
  have hc : (((m / n : ℕ) : ℤ) : K) = ((m / n : ℕ) : K) := Int.cast_natCast _
  rw [Int.floor_eq_iff]
  constructor
  · rw [le_div_iff₀ hnK, hc]
    nlinarith
  · rw [div_lt_iff₀ hnK, hc]
    nlinarith

theorem floor_scale_compose (x : K) (a b : ℕ) (ha : 0 < a) (hb : 0 < b) :
    ⌊((⌊x / (a : K)⌋ : ℤ) : K) / (b : K)⌋ = ⌊x / ((a * b : ℕ) : K)⌋ := by
  have haK : (0 : K) < a := by exact_mod_cast ha
  have hbK : (0 : K) < b := by exact_mod_cast hb
  have habK : (0 : K) < (a * b : ℕ) := by exact_mod_cast Nat.mul_pos ha hb
  set z := ⌊x / ((a * b : ℕ) : K)⌋ with hz
  have h1 : (z : K) ≤ x / ((a * b : ℕ) : K) := Int.floor_le _
  have h2 : x / ((a * b : ℕ) : K) < z + 1 := Int.lt_floor_add_one _
  have h1m : (z : K) * ((a * b : ℕ) : K) ≤ x := (le_div_iff₀ habK).mp h1
  have h2m : x < ((z : K) + 1) * ((a * b : ℕ) : K) := (div_lt_iff₀ habK).mp h2
  have hcast : ((a * b : ℕ) : K) = (a : K) * (b : K) := by push_cast; ring
  have h3 : (z : K) * b ≤ x / a := by
    rw [le_div_iff₀ haK]
    rw [hcast] at h1m
    nlinarith
  have h4 : x / a < ((z : K) + 1) * b := by
    rw [div_lt_iff₀ haK]
    rw [hcast] at h2m
    nlinarith
  have h5 : z * b ≤ ⌊x / (a : K)⌋ := Int.le_floor.mpr (by push_cast; exact h3)
  have h6 : ⌊x / (a : K)⌋ < (z + 1) * b := Int.floor_lt.mpr (by push_cast; exact h4)
  rw [Int.floor_eq_iff]
  constructor
  · rw [le_div_iff₀ hbK]
    exact_mod_cast h5
  · rw [div_lt_iff₀ hbK]
    exact_mod_cast h6

theorem parentVec_comp (c : Vec K) (k1 k2 : ℕ) :
    parentVec (parentVec c k1) k2 = parentVec c (k1 + k2) := by
  unfold parentVec
  rw [List.map_map]
  apply List.map_congr_left
  intro x hx
  show ((⌊((⌊x / (2 ^ k1 : K)⌋ : ℤ) : K) / (2 ^ k2 : K)⌋ : ℤ) : K) = _
  have e1 : ((2 : K) ^ k1) = ((2 ^ k1 : ℕ) : K) := by push_cast; ring
  have e2 : ((2 : K) ^ k2) = ((2 ^ k2 : ℕ) : K) := by push_cast; ring
  have e3 : ((2 : K) ^ (k1 + k2)) = ((2 ^ k1 * 2 ^ k2 : ℕ) : K) := by
    push_cast
    ring
  rw [e1, e2, e3, floor_scale_compose x (2 ^ k1) (2 ^ k2) (pow_pos (by norm_num) _)
    (pow_pos (by norm_num) _)]

end FloorLemmas

section RealLayer

/-- `Grid::new` at the real-number idealisation of `f64`:
`cell = 2 * radius / sqrt(D)`, `side = (1 / cell) as usize` (truncation of a
nonnegative value, i.e. the natural floor), and `side^D` empty slots. -/
noncomputable def Grid.new (D : ℕ) (radius : ℝ) (periodicity : Bool) : Grid ℝ :=
  ⟨List.replicate ((⌊1 / ((2 * radius) / Real.sqrt D)⌋₊) ^ D) none,
    ⌊1 / ((2 * radius) / Real.sqrt D)⌋₊, (2 * radius) / Real.sqrt D, periodicity⟩

/-- The configuration of a `generate` run of a `PoissonGen` with the given
dimension, radius and periodicity: `generate` builds its grid with
`Grid::new(self.radius, self.periodicity)`. -/
noncomputable def cfgOf (D : ℕ) (radius : ℝ) (periodicity : Bool) : Cfg ℝ :=
  ⟨D, radius, (Grid.new D radius periodicity).cell, (Grid.new D radius periodicity).side,
    periodicity⟩

theorem initGrid_cfgOf (D : ℕ) (radius : ℝ) (periodicity : Bool) :
    initGrid (cfgOf D radius periodicity) = Grid.new D radius periodicity := rfl

/-- The generator state built by the `PoissonDisk` builders: the dimension of
the phantom vector type, the disk radius, and the periodicity flag (the RNG
is kept outside the model). -/
structure PoissonGen where
  D : ℕ
  radius : ℝ
  periodicity : Bool

/-- `PoissonDisk::build_relative_radius`: asserts `0 < radius` and
`radius <= 1`, then scales by `sqrt(2)/2`. An assertion failure (Rust panic)
is `none`: no generator state is constructed. -/
noncomputable def build_relative_radius (periodicity : Bool) (D : ℕ) (radius : ℝ) :
    Option PoissonGen :=
  if 0 < radius ∧ radius ≤ 1 then some ⟨D, radius * (Real.sqrt 2 / 2), periodicity⟩
  else none

/-- `PoissonDisk::build_radius`: asserts `0 < radius` and
`radius <= sqrt(2)/2`. -/
noncomputable def build_radius (periodicity : Bool) (D : ℕ) (radius : ℝ) :
    Option PoissonGen :=
  if 0 < radius ∧ radius ≤ Real.sqrt 2 / 2 then some ⟨D, radius, periodicity⟩
  else none

/-- `PoissonGen::set_radius`: asserts the same bounds as `build_radius`. -/
noncomputable def set_radius (g : PoissonGen) (radius : ℝ) : Option PoissonGen :=
  if 0 < radius ∧ radius ≤ Real.sqrt 2 / 2 then some ⟨g.D, radius, g.periodicity⟩
  else none

/-- `PoissonDisk::build_samples`: asserts `periodicity || dim < 5`,
`samples > 0`, `0 <= relative_radius` and `relative_radius <= 1`. The radius
it then stores comes from `math::calc_radius`, which the specification
treats as an external collaborator (the `math` module is not part of the
core); its value is passed in here as `calcRadius`. -/
noncomputable def build_samples (periodicity : Bool) (D : ℕ) (samples : ℕ)
    (relativeRadius : ℝ) (calcRadius : ℝ) : Option PoissonGen :=
  if (periodicity = true ∨ D < 5) ∧ 0 < samples ∧ 0 ≤ relativeRadius ∧ relativeRadius ≤ 1
  then some ⟨D, calcRadius, periodicity⟩
  else none

end RealLayer

section PredicateLemmas

theorem is_disk_free_iff {D : ℕ} {radius : K} {g : Grid K} {index : Vec K} {level : ℕ}
    {c : Vec K} :
    is_disk_free D radius g index level c = true ↔
      ∀ t ∈ eachCombination ([-2, -1, 0, 1, 2] : List K) D, ∀ v,
        (g.get (vadd (parentVec index level) t)).bind id = some v →
        (2 * radius) ^ 2 ≤ sqdist v c g.periodicity := by
  rw [is_disk_free, List.all_eq_true]
  constructor
  · intro h t ht v hv
    have := h t ht
    rw [hv] at this
    exact of_decide_eq_true this
  · intro h t ht
    rcases hx : (g.get (vadd (parentVec index level) t)).bind id with _ | v
    · simp [hx]
    · simp only [hx]
      exact decide_eq_true (h t ht v hx)

theorem is_cell_covered_iff {D : ℕ} {radius : K} {p : Bool} {cell : K} {v index : Vec K}
    {level : ℕ} :
    is_cell_covered D radius p cell v index level = true ↔
      ∀ t ∈ eachCombination ([0, 1] : List K) D,
        sqdist (smul (vadd index t) (cell / ((2 ^ level : ℕ) : K))) v p
          < (2 * radius) ^ 2 := by
  rw [is_cell_covered, List.all_eq_true]
  constructor
  · intro h t ht
    exact of_decide_eq_true (h t ht)
  · intro h t ht
    exact decide_eq_true (h t ht)

theorem covered_iff {D : ℕ} {radius : K} {g : Grid K} {index : Vec K} {level : ℕ} :
    covered D radius g index level = true ↔
      ∃ t ∈ eachCombination ([-2, -1, 0, 1, 2] : List K) D, ∃ v,
        (g.get (vadd (parentVec index level) t)).bind id = some v ∧
        is_cell_covered D radius g.periodicity g.cell v index level = true := by
  rw [covered, List.any_eq_true]
  constructor
  · rintro ⟨t, ht, htrue⟩
    rcases hx : (g.get (vadd (parentVec index level) t)).bind id with _ | v
    · rw [hx] at htrue; exact absurd htrue (by simp)
    · rw [hx] at htrue
      exact ⟨t, ht, v, hx, htrue⟩
  · rintro ⟨t, ht, v, hv, hcov⟩
    refine ⟨t, ht, ?_⟩
    rw [hv]
    exact hcov

end PredicateLemmas

section SwapRemoveLemmas

theorem swapRemove_nil {α : Type _} (i : ℕ) : swapRemove ([] : List α) i = [] := rfl

theorem swapRemove_eq {α : Type _} (l : List α) (i : ℕ) (h : l ≠ []) :
    swapRemove l i = (l.set i (l.getLast h)).dropLast := by
  rw [swapRemove, List.getLast?_eq_getLast l h]

theorem length_swapRemove {α : Type _} (l : List α) (i : ℕ) (h : l ≠ []) :
    (swapRemove l i).length = l.length - 1 := by
  rw [swapRemove_eq l i h, List.length_dropLast, List.length_set]

theorem take_set_of_le {α : Type _} (l : List α) (i k : ℕ) (a : α) (h : k ≤ i) :
    (l.set i a).take k = l.take k := by
  apply List.ext_getElem (by simp)
  intro n h1 h2
  have hn : n < k := by
    rw [List.length_take] at h1
    exact (lt_min_iff.mp h1).1
  simp only [List.getElem_take]
  rw [List.getElem_set_ne (by omega)]

theorem drop_set_of_lt {α : Type _} (l : List α) (i k : ℕ) (a : α) (h : i < k) :
    (l.set i a).drop k = l.drop k := by
  apply List.ext_getElem (by simp)
  intro n h1 h2
  simp only [List.getElem_drop]
  rw [List.getElem_set_ne (by omega)]

theorem take_swapRemove {α : Type _} (l : List α) (i : ℕ) (hi : i < l.length) :
    (swapRemove l i).take i = l.take i := by
  have hne : l ≠ [] := List.ne_nil_of_length_pos (by omega)
  rw [swapRemove_eq l i hne, List.dropLast_eq_take, List.take_take, List.length_set,
    min_eq_left (by omega), take_set_of_le _ _ _ _ (le_refl i)]

theorem drop_swapRemove_perm {α : Type _} (l : List α) (i : ℕ) (hi : i < l.length) :
    List.Perm ((swapRemove l i).drop i) (l.drop (i + 1)) := by
  have hne : l ≠ [] := List.ne_nil_of_length_pos (by omega)
  rw [swapRemove_eq l i hne, List.dropLast_eq_take, List.drop_take]
  rcases Nat.lt_or_ge i (l.length - 1) with hlt | hge
  · have hilen : i < (l.set i (l.getLast hne)).length := by simpa using hi
    rw [List.drop_eq_getElem_cons hilen, List.getElem_set_self (by simpa using hi),
      drop_set_of_lt _ _ _ _ (Nat.lt_succ_self i)]
    have hlen2 : (l.set i (l.getLast hne)).length - 1 - i = (l.drop (i + 1)).length - 1 + 1 := by
      simp only [List.length_set, List.length_drop]
      omega
    rw [hlen2, List.take_succ_cons]
    have hdropne : l.drop (i + 1) ≠ [] :=
      List.ne_nil_of_length_pos (by simp only [List.length_drop]; omega)
    have htake_dropLast : (l.drop (i + 1)).take ((l.drop (i + 1)).length - 1) =
        (l.drop (i + 1)).dropLast := (List.dropLast_eq_take _).symm
    rw [htake_dropLast]
    have hlast : l.getLast hne = (l.drop (i + 1)).getLast hdropne := by
      rw [List.getLast_eq_getElem, List.getLast_eq_getElem, List.getElem_drop]
      congr 1
      simp only [List.length_drop]
      omega
    have hstep1 : List.Perm (l.getLast hne :: (l.drop (i + 1)).dropLast)
        ((l.drop (i + 1)).dropLast ++ [l.getLast hne]) :=
      (List.perm_append_singleton _ _).symm
    have hstep2 : (l.drop (i + 1)).dropLast ++ [l.getLast hne] = l.drop (i + 1) := by
      rw [hlast]
      exact List.dropLast_append_getLast hdropne
    refine hstep1.trans ?_
    rw [hstep2]
  · have h1 : i = l.length - 1 := by omega
    have h2 : (l.set i (l.getLast hne)).length - 1 - i = 0 := by
      simp only [List.length_set]; omega
    rw [h2, List.take_zero]
    have h3 : l.drop (i + 1) = [] := List.drop_eq_nil_of_le (by omega)
    rw [h3]

theorem mem_swapRemove_subset {α : Type _} {l : List α} {i : ℕ} {x : α}
    (hx : x ∈ swapRemove l i) : x ∈ l := by
  rcases List.eq_nil_or_concat l with rfl | _
  · simpa [swapRemove_nil] using hx
  · have hne : l ≠ [] := by
      intro h
      rw [h] at hx
      simpa [swapRemove_nil] using hx
    rw [swapRemove_eq l i hne] at hx
    have hx2 : x ∈ l.set i (l.getLast hne) := (List.dropLast_sublist _).mem hx
    rcases List.mem_or_eq_of_mem_set hx2 with h | rfl
    · exact h
    · exact List.getLast_mem hne

end SwapRemoveLemmas

section FlatMapInplaceLemmas

theorem flatMapInplaceAux_perm {α : Type _} (f : α → List α) :
    ∀ (i : ℕ) (v : List α), i ≤ v.length →
      List.Perm (flatMapInplaceAux f i v) ((v.take i).flatMap f ++ v.drop i) := by
  intro i
  induction i with
  | zero => intro v _; simp [flatMapInplaceAux]
  | succ i ih =>
    intro v hv
    have hi : i < v.length := by omega
    have hx : v[i]? = some v[i] := List.getElem?_eq_getElem hi
    rw [flatMapInplaceAux, hx]
    have hne : v ≠ [] := List.ne_nil_of_length_pos (by omega)
    have hwlen : i ≤ (swapRemove v i ++ f v[i]).length := by
      rw [List.length_append, length_swapRemove v i hne]
      omega
    refine (ih _ hwlen).trans ?_
    have htake : (swapRemove v i ++ f v[i]).take i = v.take i := by
      rw [List.take_append_of_le_length (by rw [length_swapRemove v i hne]; omega),
        take_swapRemove v i hi]
    have hdrop : (swapRemove v i ++ f v[i]).drop i = (swapRemove v i).drop i ++ f v[i] := by
      rw [List.drop_append_of_le_length (by rw [length_swapRemove v i hne]; omega)]
    rw [htake, hdrop]
    have hdperm : List.Perm ((swapRemove v i).drop i ++ f v[i])
        (f v[i] ++ v.drop (i + 1)) :=
      ((drop_swapRemove_perm v i hi).append_right _).trans List.perm_append_comm
    refine ((hdperm.append_left _).trans ?_)
    rw [List.take_succ, hx]
    simp only [Option.toList_some, List.flatMap_append, List.flatMap_cons,
      List.flatMap_nil, List.append_nil, List.append_assoc]
    exact List.Perm.refl _

theorem flatMapInplace_perm {α : Type _} (v : List α) (f : α → List α) :
    List.Perm (flatMapInplace v f) (v.flatMap f) := by
  have := flatMapInplaceAux_perm f v.length v (le_refl _)
  simpa [flatMapInplace] using this

theorem subdivideList_perm (D : ℕ) (radius : K) (g : Grid K) (level : ℕ)
    (idx : List (Vec K)) :
    List.Perm (subdivideList D radius g level idx)
      (idx.flatMap (subdivChildren D radius g level)) :=
  flatMapInplace_perm idx (subdivChildren D radius g level)

end FlatMapInplaceLemmas

section VecLemmas

theorem length_vadd (v w : Vec K) : (vadd v w).length = min v.length w.length := by
  simp [vadd]

theorem length_vsub (v w : Vec K) : (vsub v w).length = min v.length w.length := by
  simp [vsub]

theorem length_smul (v : Vec K) (c : K) : (smul v c).length = v.length := by
  simp [smul]

theorem getElem_vadd (v w : Vec K) (n : ℕ) (h : n < (vadd v w).length)
    (hv : n < v.length) (hw : n < w.length) :
    (vadd v w).get ⟨n, h⟩ = v.get ⟨n, hv⟩ + w.get ⟨n, hw⟩ := by
  simp [vadd]

theorem getElem_vsub (v w : Vec K) (n : ℕ) (h : n < (vsub v w).length)
    (hv : n < v.length) (hw : n < w.length) :
    (vsub v w).get ⟨n, h⟩ = v.get ⟨n, hv⟩ - w.get ⟨n, hw⟩ := by
  simp [vsub]

theorem getElem_smul (v : Vec K) (c : K) (n : ℕ) (h : n < (smul v c).length)
    (hv : n < v.length) :
    (smul v c).get ⟨n, h⟩ = v.get ⟨n, hv⟩ * c := by
  simp [smul]

theorem sqnorm_nonneg (v : Vec K) : 0 ≤ sqnorm v := by
  unfold sqnorm
  apply List.sum_nonneg
  intro x hx
  obtain ⟨y, _, rfl⟩ := List.mem_map.mp hx
  positivity

theorem sq_getElem_le_sqnorm (v : Vec K) (n : ℕ) (h : n < v.length) :
    v.get ⟨n, h⟩ ^ 2 ≤ sqnorm v := by
  unfold sqnorm
  apply List.single_le_sum
  · intro x hx
    obtain ⟨y, _, rfl⟩ := List.mem_map.mp hx
    positivity
  · exact List.mem_map.mpr ⟨v.get ⟨n, h⟩, List.get_mem _ _ _, rfl⟩

theorem le_foldl_min {b init : K} {l : List K} (hinit : b ≤ init)
    (hl : ∀ x ∈ l, b ≤ x) : b ≤ l.foldl min init := by
  induction l generalizing init with
  | nil => exact hinit
  | cons x l ih =>
    exact ih (le_min hinit (hl x (List.mem_cons_self _ _)))
      (fun y hy => hl y (List.mem_cons_of_mem _ hy))

theorem foldl_min_le_init (l : List K) : ∀ init : K, l.foldl min init ≤ init := by
  induction l with
  | nil => intro init; exact le_refl _
  | cons x l ih => intro init; exact (ih _).trans (min_le_left _ _)

theorem foldl_min_le_mem {init : K} {l : List K} {x : K} (hx : x ∈ l) :
    l.foldl min init ≤ x := by
  induction l generalizing init with
  | nil => simp at hx
  | cons y l ih =>
    rcases List.mem_cons.mp hx with rfl | hx
    · exact (foldl_min_le_init l _).trans (min_le_right _ _)
    · exact ih hx

theorem le_sqdist_iff {v w : Vec K} {b : K} :
    b ≤ sqdist v w true ↔ b ≤ sqnorm (vsub w v) ∧
      ∀ t ∈ eachCombination ([-1, 0, 1] : List K) (vsub w v).length,
        b ≤ sqnorm (vadd (vsub w v) t) := by
  unfold sqdist
  simp only [if_pos rfl]
  constructor
  · intro h
    constructor
    · exact h.trans (foldl_min_le_init _ _)
    · intro t ht
      exact h.trans (foldl_min_le_mem (List.mem_map.mpr ⟨t, ht, rfl⟩))
  · rintro ⟨h1, h2⟩
    apply le_foldl_min h1
    intro x hx
    obtain ⟨t, ht, rfl⟩ := List.mem_map.mp hx
    exact h2 t ht

theorem sqdist_nonper (v w : Vec K) : sqdist v w false = sqnorm (vsub w v) := rfl

end VecLemmas

section Geometry

/-- A sample position lies inside the physical extent of the top-level cell
with integer coordinates `q`. -/
def InCell (cell : K) (v : Vec K) (q : List ℕ) : Prop :=
  v.length = q.length ∧ ∀ n, ∀ h1 : n < v.length, ∀ h2 : n < q.length,
    ((q.get ⟨n, h2⟩ : ℕ) : K) * cell ≤ v.get ⟨n, h1⟩ ∧
    v.get ⟨n, h1⟩ < (((q.get ⟨n, h2⟩ : ℕ) : K) + 1) * cell

theorem sq_ge_of_two_cell {c x : K} (hc : 0 ≤ c) (h : 2 * c ≤ x ∨ x ≤ -(2 * c)) :
    4 * c ^ 2 ≤ x ^ 2 := by
  rcases h with h | h
  · nlinarith
  · nlinarith

/-- The single-axis quantitative bound behind ring sufficiency: two points
lying in top-level cells whose coordinates in some axis differ by at least 3,
both plainly and modulo `side`, are at per-axis distance at least `2 * cell`
in every toroidal image. -/
theorem axis_gap_bound {c A B S va wb : K} (hc : 0 ≤ c) (hS : S * c ≤ 1)
    (hv1 : A * c ≤ va) (hv2 : va < (A + 1) * c)
    (hw1 : B * c ≤ wb) (hw2 : wb < (B + 1) * c)
    (hgap : A + 3 ≤ B ∨ B + 3 ≤ A) (h1 : B + 3 ≤ S + A) (h2 : A + 3 ≤ S + B)
    {e : K} (he : e = -1 ∨ e = 0 ∨ e = 1) :
    4 * c ^ 2 ≤ (wb - va + e) ^ 2 := by
  apply sq_ge_of_two_cell hc
  have hd1 : (B - A - 1) * c ≤ wb - va := by nlinarith
  have hd2 : wb - va ≤ (B - A + 1) * c := by nlinarith
  rcases hgap with hg | hg
  · have hlow : 2 * c ≤ wb - va := by nlinarith
    rcases he with rfl | rfl | rfl
    · right
      have hup : wb - va ≤ (S - 2) * c := by nlinarith
      nlinarith
    · left; linarith
    · left
      have : (0 : K) ≤ 2 * c := by linarith
      linarith
  · have hup : wb - va ≤ -(2 * c) := by nlinarith
    rcases he with rfl | rfl | rfl
    · right
      have : (0 : K) ≤ 2 * c := by linarith
      linarith
    · right; linarith
    · left
      have hlow : -((S - 2) * c) ≤ wb - va := by nlinarith
      nlinarith

end Geometry

section CombMembership

/-- Membership in `each_combination` from per-component membership given as
existentials (the digit function is extracted by choice). -/
theorem mem_eachCombination_intro2 {choices : List K} {D : ℕ} {v : Vec K}
    (hlen : v.length = D)
    (hv : ∀ n, ∀ h : n < D, ∃ i, ∃ hi : i < choices.length,
      v.get ⟨n, by omega⟩ = choices.get ⟨i, hi⟩) :
    v ∈ eachCombination choices D := by
  classical
  have hd : ∀ n, ∃ i, n < D → ∃ hi : i < choices.length,
      v.get? n = some (choices.get ⟨i, hi⟩) := by
    intro n
    by_cases h : n < D
    · obtain ⟨i, hi, hval⟩ := hv n h
      refine ⟨i, fun _ => ⟨hi, ?_⟩⟩
      rw [List.get?_eq_get (by omega), hval]
    · exact ⟨0, fun hc => absurd hc h⟩
  choose d hdspec using hd
  apply mem_eachCombination_intro hlen d
  · intro n hn
    exact (hdspec n hn).1
  · intro n hn
    obtain ⟨hi, hval⟩ := hdspec n hn
    rw [List.get?_eq_get (by omega)] at hval
    have := Option.some.inj hval
    rw [this, List.getD_eq_getElem _ _ hi]
    rfl

theorem mem_comb01 {D : ℕ} {t : Vec K} (ht : t ∈ eachCombination ([0, 1] : List K) D) :
    t.length = D ∧ ∀ n, ∀ h : n < t.length, t.get ⟨n, h⟩ = 0 ∨ t.get ⟨n, h⟩ = 1 := by
  obtain ⟨hlen, hmem⟩ := mem_eachCombination_elim ht
  refine ⟨hlen, fun n h => ?_⟩
  rcases hmem n h with hin | h0
  · simpa using hin
  · exact Or.inl h0

theorem mem_comb101 {D : ℕ} {t : Vec K}
    (ht : t ∈ eachCombination ([-1, 0, 1] : List K) D) :
    t.length = D ∧ ∀ n, ∀ h : n < t.length,
      t.get ⟨n, h⟩ = -1 ∨ t.get ⟨n, h⟩ = 0 ∨ t.get ⟨n, h⟩ = 1 := by
  obtain ⟨hlen, hmem⟩ := mem_eachCombination_elim ht
  refine ⟨hlen, fun n h => ?_⟩
  rcases hmem n h with hin | h0
  · simpa using hin
  · exact Or.inr (Or.inl h0)

theorem mem_comb5 {D : ℕ} {t : Vec K}
    (ht : t ∈ eachCombination ([-2, -1, 0, 1, 2] : List K) D) :
    t.length = D ∧ ∀ n, ∀ h : n < t.length, ∃ z : ℤ,
      t.get ⟨n, h⟩ = (z : K) ∧ -2 ≤ z ∧ z ≤ 2 := by
  obtain ⟨hlen, hmem⟩ := mem_eachCombination_elim ht
  refine ⟨hlen, fun n h => ?_⟩
  rcases hmem n h with hin | h0
  · simp only [List.mem_cons, List.not_mem_nil, or_false] at hin
    rcases hin with h | h | h | h | h <;>
      [exact ⟨-2, by rw [h]; norm_num⟩; exact ⟨-1, by rw [h]; norm_num⟩;
       exact ⟨0, by rw [h]; norm_num⟩; exact ⟨1, by rw [h]; norm_num⟩;
       exact ⟨2, by rw [h]; norm_num⟩]
  · exact ⟨0, by rw [h0]; norm_num⟩

/-- Negation of a vector (used only to transport toroidal images). -/
def vneg (v : Vec K) : Vec K := v.map (fun x => -x)

theorem vneg_mem_comb101 {D : ℕ} {t : Vec K}
    (ht : t ∈ eachCombination ([-1, 0, 1] : List K) D) :
    vneg t ∈ eachCombination ([-1, 0, 1] : List K) D := by
  obtain ⟨hlen, hcomp⟩ := mem_comb101 ht
  have hlen2 : (vneg t).length = D := by
    simp only [vneg, List.length_map]
    omega
  apply mem_eachCombination_intro2 hlen2
  intro n hn
  have hnt : n < t.length := by omega
  have hget : (vneg t).get ⟨n, by omega⟩ = -(t.get ⟨n, hnt⟩) := by
    simp [vneg, List.get_eq_getElem]
  rcases hcomp n hnt with h | h | h
  · refine ⟨2, by norm_num, ?_⟩
    rw [hget, h]
    norm_num
  · refine ⟨1, by norm_num, ?_⟩
    rw [hget, h]
    norm_num
  · refine ⟨0, by norm_num, ?_⟩
    rw [hget, h]
    norm_num

end CombMembership

section SqdistComm

theorem foldl_min_attained (l : List K) : ∀ init : K,
    l.foldl min init = init ∨ ∃ x ∈ l, l.foldl min init = x := by
  induction l with
  | nil => intro init; exact Or.inl rfl
  | cons y l ih =>
    intro init
    rcases ih (min init y) with h | ⟨x, hx, hfx⟩
    · rcases min_cases init y with ⟨hmin, _⟩ | ⟨hmin, _⟩
      · left; rw [List.foldl_cons, h, hmin]
      · right
        exact ⟨y, List.mem_cons_self _ _, by rw [List.foldl_cons, h, hmin]⟩
    · right
      exact ⟨x, List.mem_cons_of_mem _ hx, by rw [List.foldl_cons, hfx]⟩

theorem sqnorm_vsub_comm (v w : Vec K) : sqnorm (vsub w v) = sqnorm (vsub v w) := by
  unfold sqnorm
  congr 1
  apply List.ext_getElem (by simp [vsub, Nat.min_comm])
  intro n h1 h2
  simp only [List.getElem_map, vsub, List.getElem_zipWith]
  ring

theorem sqnorm_image_neg (a b t : Vec K) (hab : a.length = b.length)
    (ht : t.length = (vsub a b).length) :
    sqnorm (vadd (vsub b a) (vneg t)) = sqnorm (vadd (vsub a b) t) := by
  unfold sqnorm
  congr 1
  apply List.ext_getElem (by simp [vadd, vsub, vneg, Nat.min_comm])
  intro n h1 h2
  simp only [List.getElem_map, vadd, vsub, vneg, List.getElem_zipWith]
  ring

theorem sqdist_le_image {v w : Vec K} {t : Vec K}
    (ht : t ∈ eachCombination ([-1, 0, 1] : List K) (vsub w v).length) :
    sqdist v w true ≤ sqnorm (vadd (vsub w v) t) := by
  unfold sqdist
  simp only [if_pos rfl]
  exact foldl_min_le_mem (List.mem_map.mpr ⟨t, ht, rfl⟩)

theorem sqdist_le_plain (v w : Vec K) : sqdist v w true ≤ sqnorm (vsub w v) := by
  unfold sqdist
  simp only [if_pos rfl]
  exact foldl_min_le_init _ _

theorem sqdist_comm (v w : Vec K) (p : Bool) (hlen : v.length = w.length) :
    sqdist v w p = sqdist w v p := by
  cases p
  · rw [sqdist_nonper, sqdist_nonper, sqnorm_vsub_comm]
  · have key : ∀ a b : Vec K, a.length = b.length →
        sqdist a b true ≤ sqdist b a true := by
      intro a b hab
      unfold sqdist
      simp only [if_pos rfl]
      rcases foldl_min_attained
          ((eachCombination ([-1, 0, 1] : List K) (vsub a b).length).map
            (fun t => sqnorm (vadd (vsub a b) t))) (sqnorm (vsub a b)) with h | ⟨x, hx, hfx⟩
      · rw [h, ← sqnorm_vsub_comm]
        exact foldl_min_le_init _ _
      · rw [hfx]
        obtain ⟨t, ht, rfl⟩ := List.mem_map.mp hx
        have hlent : t.length = (vsub a b).length := (mem_comb101 ht).1
        have hlen2 : (vsub a b).length = (vsub b a).length := by
          simp [vsub, Nat.min_comm]
        have hmem : vneg t ∈ eachCombination ([-1, 0, 1] : List K) (vsub b a).length := by
          rw [← hlen2]
          exact vneg_mem_comb101 ht
        refine le_trans ?_ (le_of_eq (sqnorm_image_neg a b t hab hlent))
        exact foldl_min_le_mem (List.mem_map.mpr ⟨vneg t, hmem, rfl⟩)
    exact le_antisymm (key v w hlen) (key w v hlen.symm)

end SqdistComm

section EncodeParent

/-- Extraction of the natural-number value of each component of an
integer-valued vector. -/
def natVec (v : Vec K) : List ℕ := v.map (fun x => (⌊x⌋).toNat)

theorem natVec_spec {v : Vec K}
    (hint : ∀ n, ∀ h : n < v.length, ∃ m : ℕ, v.get ⟨n, h⟩ = (m : K)) :
    cvec (natVec v) = v ∧
    ∀ n, ∀ h1 : n < v.length, ∀ h2 : n < (natVec v).length,
      (((natVec v).get ⟨n, h2⟩ : ℕ) : K) = v.get ⟨n, h1⟩ := by
  have hcomp : ∀ n, ∀ h1 : n < v.length, ∀ h2 : n < (natVec v).length,
      (((natVec v).get ⟨n, h2⟩ : ℕ) : K) = v.get ⟨n, h1⟩ := by
    intro n h1 h2
    obtain ⟨m, hm⟩ := hint n h1
    simp only [natVec, List.get_eq_getElem, List.getElem_map]
    have : v[n] = (m : K) := hm
    rw [this]
    rw [show ((m : K)) = (((m : ℤ) : K)) by push_cast; ring, Int.floor_intCast]
    simp
  refine ⟨?_, hcomp⟩
  apply List.ext_get (by simp [cvec, natVec])
  intro n hn1 hn2
  have hv : n < v.length := hn2
  have hnv : n < (natVec v).length := by simpa [natVec] using hv
  have := hcomp n hv hnv
  rw [← this]
  simp [cvec, List.get_eq_getElem]

theorem parentVec_cvec (c : List ℕ) (L : ℕ) :
    parentVec (cvec (K := K) c) L = cvec (c.map (fun m => m / 2 ^ L)) := by
  unfold parentVec cvec
  rw [List.map_map, List.map_map]
  apply List.map_congr_left
  intro m hm
  simp only [Function.comp_apply]
  have e1 : ((2 : K) ^ L) = ((2 ^ L : ℕ) : K) := by push_cast; ring
  rw [e1, floor_div_natCast m (2 ^ L) (pow_pos (by norm_num) L), Int.cast_natCast]

theorem encode_nil_any (s : ℕ) (p : Bool) : encode ([] : Vec K) s p = some 0 := by
  unfold encode
  simp

theorem encode_cvec_per {c : List ℕ} {s : ℕ} (h : ∀ m ∈ c, m < s) :
    encode (cvec (K := K) c) s true = some (natEncode c s) := by
  rcases c with _ | ⟨m, c⟩
  · rw [cvec_nil, encode_nil_any]
    rfl
  · have hs : 0 < s := Nat.pos_of_ne_zero (by
      intro hz
      exact absurd (h m (List.mem_cons_self _ _)) (by omega))
    rw [encode_per_eq _ hs]
    congr 1
    have hdig : (cvec (K := K) (m :: c)).map (fun x => ((trunc x).emod s).toNat) = m :: c := by
      unfold cvec
      rw [List.map_map]
      have : ∀ x ∈ m :: c, (((trunc ((x : ℕ) : K)).emod s).toNat) = x := by
        intro x hx
        rw [trunc_natCast]
        have hxs : (x : ℤ) < s := by exact_mod_cast h x hx
        show (((x : ℤ) % (s : ℤ))).toNat = x
        rw [Int.emod_eq_of_lt (by positivity) hxs]
        simp
      calc ((m :: c).map (fun x => ((trunc ((x : ℕ) : K)).emod s).toNat))
          = (m :: c).map id := List.map_congr_left (fun x hx => this x hx)
        _ = m :: c := List.map_id _
    rw [hdig]

theorem encode_cvec_mode {c : List ℕ} {s : ℕ} (p : Bool) (h : ∀ m ∈ c, m < s) :
    encode (cvec (K := K) c) s p = some (natEncode c s) := by
  cases p
  · exact encode_cvec h
  · exact encode_cvec_per h

theorem encode_zvec_per {c : List ℤ} {s : ℕ} (hs : 0 < s) :
    encode (zvec (K := K) c) s true =
      some (natEncode (c.map (fun z => (z.emod s).toNat)) s) := by
  rw [encode_per_eq _ hs]
  congr 2
  rw [zvec, List.map_map]
  apply List.map_congr_left
  intro z hz
  simp only [Function.comp_apply, trunc_intCast]

theorem natEncode_lt_pow {c : List ℕ} {s D : ℕ} (hlen : c.length = D)
    (h : ∀ m ∈ c, m < s) : natEncode c s < s ^ D := by
  rcases c with _ | ⟨m, c⟩
  · simp only [List.length_nil] at hlen
    subst hlen
    simp [natEncode]
  · have hs : 0 < s := Nat.pos_of_ne_zero (by
      intro hz
      exact absurd (h m (List.mem_cons_self _ _)) (by omega))
    rw [← hlen]
    exact natEncode_lt hs h

theorem get_ring5 {z : ℤ} (h1 : -2 ≤ z) (h2 : z ≤ 2) :
    ∃ i, ∃ hi : i < ([-2, -1, 0, 1, 2] : List K).length,
      ([-2, -1, 0, 1, 2] : List K).get ⟨i, hi⟩ = (z : K) := by
  interval_cases z
  · exact ⟨0, by norm_num, by norm_num⟩
  · exact ⟨1, by norm_num, by norm_num⟩
  · exact ⟨2, by norm_num, by norm_num⟩
  · exact ⟨3, by norm_num, by norm_num⟩
  · exact ⟨4, by norm_num, by norm_num⟩

/-- The representative in `[-2, 2]` of the wrapped axis offset `d` modulo
`side`, defined when the wrapped distance is at most 2. -/
def tRep (side : ℕ) (d : ℤ) : ℤ :=
  if d.natAbs ≤ 2 then d else if 0 < d then d - side else d + side

theorem tRep_spec {side : ℕ} {d : ℤ} (hd : d.natAbs < side)
    (hwrap : d.natAbs ≤ 2 ∨ (side : ℤ) - d.natAbs ≤ 2) :
    (tRep side d).natAbs ≤ 2 ∧ (tRep side d) % (side : ℤ) = d % (side : ℤ) := by
  unfold tRep
  by_cases h : d.natAbs ≤ 2
  · rw [if_pos h]
    exact ⟨h, rfl⟩
  · rw [if_neg h]
    have hw : (side : ℤ) - d.natAbs ≤ 2 := by
      rcases hwrap with hw | hw
      · exact absurd hw h
      · exact hw
    by_cases hpos : 0 < d
    · rw [if_pos hpos]
      refine ⟨by omega, ?_⟩
      show (d - (side : ℤ)) % (side : ℤ) = d % (side : ℤ)
      rw [Int.sub_emod, Int.emod_self, sub_zero, Int.emod_emod_of_dvd _ dvd_rfl]
    · rw [if_neg hpos]
      refine ⟨by omega, ?_⟩
      show (d + (side : ℤ)) % (side : ℤ) = d % (side : ℤ)
      rw [Int.add_emod, Int.emod_self, add_zero, Int.emod_emod_of_dvd _ dvd_rfl]

end EncodeParent

section Invariant

/-- Structural invariant of a `generate` run: the grid keeps the
configuration's geometry, candidate vectors are integer-valued floats in
range for the current level, and the level respects the precision bound. -/
structure InvBase (cfg : Cfg K) (s : St K) : Prop where
  glen : s.grid.data.length = cfg.side ^ cfg.D
  gside : s.grid.side = cfg.side
  gcell : s.grid.cell = cfg.cell
  gper : s.grid.periodicity = cfg.periodic
  ilen : ∀ v ∈ s.indices, v.length = cfg.D
  irange : ∀ v ∈ s.indices, ∀ n, ∀ h : n < v.length,
    ∃ m : ℕ, v.get ⟨n, h⟩ = (m : K) ∧ m < cfg.side * 2 ^ s.level
  lvl : s.level ≤ mantissaDigits

theorem invBase_init (cfg : Cfg K) : InvBase cfg (initSt cfg) := by
  refine ⟨by simp [initSt, initGrid], rfl, rfl, rfl, ?_, ?_, by simp [initSt, mantissaDigits]⟩
  · intro v hv
    exact (mem_eachCombination_elim hv).1.trans (by simp)
  · intro v hv n h
    obtain ⟨hlen, hcomp⟩ := mem_eachCombination_elim hv
    have hD : 0 < cfg.D := by omega
    rcases hcomp n h with hin | h0
    · obtain ⟨i, hi, heq⟩ := List.mem_map.mp hin
      have his : i < cfg.side := List.mem_range.mp hi
      refine ⟨i, heq.symm, ?_⟩
      show i < cfg.side * 2 ^ (initSt cfg).level
      simpa [initSt] using his
    · have hside : 0 < cfg.side := by
        by_contra hz
        have hz0 : cfg.side = 0 := by omega
        have hv2 : v ∈ eachCombination
            ((List.range cfg.side).map (fun i : ℕ => (i : K))) cfg.D := hv
        rw [hz0] at hv2
        rw [eachCombination] at hv2
        simp only [List.range_zero, List.map_nil, List.length_nil] at hv2
        rw [Nat.zero_pow hD] at hv2
        simp at hv2
      refine ⟨0, by simpa using h0, ?_⟩
      show 0 < cfg.side * 2 ^ (initSt cfg).level
      simpa [initSt] using hside

theorem invBase_step {cfg : Cfg K} {s s' : St K} (hstep : Step cfg s s')
    (hb : InvBase cfg s) : InvBase cfg s' := by
  cases hstep with
  | throwDead i hi ht v hocc =>
    exact ⟨hb.glen, hb.gside, hb.gcell, hb.gper,
      fun w hw => hb.ilen w (mem_swapRemove_subset hw),
      fun w hw => hb.irange w (mem_swapRemove_subset hw), hb.lvl⟩
  | throwPlace i hi ht place hpl hp hfree hdf e henc =>
    refine ⟨?_, hb.gside, hb.gcell, hb.gper,
      fun w hw => hb.ilen w (mem_swapRemove_subset hw),
      fun w hw => hb.irange w (mem_swapRemove_subset hw), hb.lvl⟩
    simpa [Grid.set] using hb.glen
  | throwReject i hi ht place hpl hp hfree hdf =>
    exact ⟨hb.glen, hb.gside, hb.gcell, hb.gper, hb.ilen, hb.irange, hb.lvl⟩
  | subdivideStep ht hne hlvl =>
    have hmem : ∀ w, w ∈ subdivideList cfg.D cfg.radius s.grid s.level s.indices →
        ∃ i ∈ s.indices, ∃ t ∈ eachCombination ([0, 1] : List K) cfg.D,
          w = vadd t (smul i 2) := by
      intro w hw
      have := (subdivideList_perm cfg.D cfg.radius s.grid s.level s.indices).mem_iff.mp hw
      obtain ⟨i, hi, hwi⟩ := List.mem_flatMap.mp this
      obtain ⟨hwf, _⟩ := List.mem_filter.mp hwi
      obtain ⟨t, ht2, rfl⟩ := List.mem_map.mp hwf
      exact ⟨i, hi, t, ht2, rfl⟩
    constructor
    · exact hb.glen
    · exact hb.gside
    · exact hb.gcell
    · exact hb.gper
    · intro w hw
      obtain ⟨i, hi, t, ht2, rfl⟩ := hmem w hw
      obtain ⟨hlt, _⟩ := mem_comb01 ht2
      rw [length_vadd, length_smul, hlt, hb.ilen i hi]
      simp
    · intro w hw n h
      obtain ⟨i, hi, t, ht2, rfl⟩ := hmem w hw
      obtain ⟨hlt, hct⟩ := mem_comb01 ht2
      have hleni : i.length = cfg.D := hb.ilen i hi
      have hn : n < cfg.D := by
        rw [length_vadd, length_smul, hlt, hleni] at h
        simpa using h
      have hni : n < i.length := by omega
      have hnt : n < t.length := by omega
      have hval : (vadd t (smul i 2)).get ⟨n, h⟩ =
          t.get ⟨n, hnt⟩ + i.get ⟨n, hni⟩ * 2 := by
        rw [getElem_vadd t (smul i 2) n h hnt (by rw [length_smul]; omega),
          getElem_smul i 2 n _ hni]
      obtain ⟨m, hm, hmlt⟩ := hb.irange i hi n hni
      rcases hct n hnt with h0 | h1
      · refine ⟨2 * m, ?_, by
          show 2 * m < cfg.side * 2 ^ (s.level + 1)
          rw [pow_succ,
            show cfg.side * (2 ^ s.level * 2) = 2 * (cfg.side * 2 ^ s.level) from by ring]
          omega⟩
        rw [hval, h0, hm]
        push_cast
        ring
      · refine ⟨2 * m + 1, ?_, by
          show 2 * m + 1 < cfg.side * 2 ^ (s.level + 1)
          rw [pow_succ,
            show cfg.side * (2 ^ s.level * 2) = 2 * (cfg.side * 2 ^ s.level) from by ring]
          omega⟩
        rw [hval, h1, hm]
        push_cast
        ring
    · show s.level + 1 ≤ mantissaDigits
      omega

theorem invBase_reachable {cfg : Cfg K} {s : St K} (h : Reachable cfg s) :
    InvBase cfg s := by
  induction h with
  | refl => exact invBase_init cfg
  | tail hr hstep ih => exact invBase_step hstep ih

theorem candidate_parent {cfg : Cfg K} {s : St K} (hb : InvBase cfg s) {cur : Vec K}
    (hcur : cur ∈ s.indices) :
    ∃ p : List ℕ, parentVec cur s.level = cvec p ∧ p.length = cfg.D ∧
      (∀ m ∈ p, m < cfg.side) ∧
      (∀ mode : Bool, encode (parentVec cur s.level) cfg.side mode =
        some (natEncode p cfg.side)) ∧
      natEncode p cfg.side < cfg.side ^ cfg.D ∧
      cvec (natVec cur) = cur ∧
      p = (natVec cur).map (fun m => m / 2 ^ s.level) := by
  have hint : ∀ n, ∀ h : n < cur.length, ∃ m : ℕ, cur.get ⟨n, h⟩ = (m : K) :=
    fun n h => ⟨(hb.irange cur hcur n h).choose, (hb.irange cur hcur n h).choose_spec.1⟩
  obtain ⟨hcv, hcomp⟩ := natVec_spec hint
  have hlen : (natVec cur).length = cur.length := by simp [natVec]
  have hbound : ∀ m ∈ natVec cur, m < cfg.side * 2 ^ s.level := by
    intro m hm
    obtain ⟨⟨n, hn⟩, rfl⟩ := List.mem_iff_get.mp hm
    have hnc : n < cur.length := by omega
    obtain ⟨m', hm', hm'lt⟩ := hb.irange cur hcur n hnc
    have : (((natVec cur).get ⟨n, hn⟩ : ℕ) : K) = ((m' : ℕ) : K) := by
      rw [hcomp n hnc hn, hm']
    have heq : (natVec cur).get ⟨n, hn⟩ = m' := Nat.cast_injective this
    rw [heq]
    exact hm'lt
  refine ⟨(natVec cur).map (fun m => m / 2 ^ s.level), ?_, ?_, ?_, ?_, ?_, hcv, rfl⟩
  · conv_lhs => rw [← hcv]
    rw [parentVec_cvec]
  · rw [List.length_map, hlen, hb.ilen cur hcur]
  · intro m hm
    obtain ⟨m0, hm0, rfl⟩ := List.mem_map.mp hm
    have := hbound m0 hm0
    rw [Nat.div_lt_iff_lt_mul (pow_pos (by norm_num) _)]
    omega
  · intro mode
    conv_lhs => rw [← hcv]
    rw [parentVec_cvec]
    apply encode_cvec_mode
    intro m hm
    obtain ⟨m0, hm0, rfl⟩ := List.mem_map.mp hm
    have := hbound m0 hm0
    rw [Nat.div_lt_iff_lt_mul (pow_pos (by norm_num) _)]
    omega
  · apply natEncode_lt_pow
    · rw [List.length_map, hlen, hb.ilen cur hcur]
    · intro m hm
      obtain ⟨m0, hm0, rfl⟩ := List.mem_map.mp hm
      have := hbound m0 hm0
      rw [Nat.div_lt_iff_lt_mul (pow_pos (by norm_num) _)]
      omega

end Invariant

section GapAssembly

theorem axis_gap_plain {c A B va wb : K} (hc : 0 ≤ c)
    (hv1 : A * c ≤ va) (hv2 : va < (A + 1) * c)
    (hw1 : B * c ≤ wb) (hw2 : wb < (B + 1) * c)
    (hgap : A + 3 ≤ B ∨ B + 3 ≤ A) :
    4 * c ^ 2 ≤ (wb - va) ^ 2 := by
  apply sq_ge_of_two_cell hc
  rcases hgap with hg | hg
  · left; nlinarith
  · right; nlinarith

theorem sep_of_gap_nonper {cell : K} (hc : 0 ≤ cell) {v w : Vec K} {q p : List ℕ}
    (hv : InCell cell v q) (hw : InCell cell w p)
    {n : ℕ} (hnv : n < v.length) (hnw : n < w.length) (hnq : n < q.length)
    (hnp : n < p.length)
    (hgap : q.get ⟨n, hnq⟩ + 3 ≤ p.get ⟨n, hnp⟩ ∨
      p.get ⟨n, hnp⟩ + 3 ≤ q.get ⟨n, hnq⟩) :
    4 * cell ^ 2 ≤ sqdist v w false := by
  rw [sqdist_nonper]
  have hnd : n < (vsub w v).length := by rw [length_vsub]; omega
  refine le_trans ?_ (sq_getElem_le_sqnorm (vsub w v) n hnd)
  rw [getElem_vsub w v n hnd hnw hnv]
  obtain ⟨h1, h2⟩ := hv.2 n hnv hnq
  obtain ⟨h3, h4⟩ := hw.2 n hnw hnp
  apply axis_gap_plain hc h1 h2 h3 h4
  rcases hgap with hg | hg
  · left; exact_mod_cast hg
  · right; exact_mod_cast hg

theorem sep_of_gap_per {cell : K} {side : ℕ} (hc : 0 ≤ cell)
    (hsc : (side : K) * cell ≤ 1) {v w : Vec K} {q p : List ℕ}
    (hv : InCell cell v q) (hw : InCell cell w p)
    {n : ℕ} (hnv : n < v.length) (hnw : n < w.length) (hnq : n < q.length)
    (hnp : n < p.length)
    (hgap : q.get ⟨n, hnq⟩ + 3 ≤ p.get ⟨n, hnp⟩ ∨
      p.get ⟨n, hnp⟩ + 3 ≤ q.get ⟨n, hnq⟩)
    (hs1 : p.get ⟨n, hnp⟩ + 3 ≤ side + q.get ⟨n, hnq⟩)
    (hs2 : q.get ⟨n, hnq⟩ + 3 ≤ side + p.get ⟨n, hnp⟩) :
    4 * cell ^ 2 ≤ sqdist v w true := by
  obtain ⟨h1, h2⟩ := hv.2 n hnv hnq
  obtain ⟨h3, h4⟩ := hw.2 n hnw hnp
  have hgapK : ((q.get ⟨n, hnq⟩ : ℕ) : K) + 3 ≤ ((p.get ⟨n, hnp⟩ : ℕ) : K) ∨
      ((p.get ⟨n, hnp⟩ : ℕ) : K) + 3 ≤ ((q.get ⟨n, hnq⟩ : ℕ) : K) := by
    rcases hgap with hg | hg
    · left; exact_mod_cast hg
    · right; exact_mod_cast hg
  have hs1K : ((p.get ⟨n, hnp⟩ : ℕ) : K) + 3 ≤
      (side : K) + ((q.get ⟨n, hnq⟩ : ℕ) : K) := by exact_mod_cast hs1
  have hs2K : ((q.get ⟨n, hnq⟩ : ℕ) : K) + 3 ≤
      (side : K) + ((p.get ⟨n, hnp⟩ : ℕ) : K) := by exact_mod_cast hs2
  refine le_sqdist_iff.mpr ⟨?_, ?_⟩
  · have hnd : n < (vsub w v).length := by rw [length_vsub]; omega
    refine le_trans ?_ (sq_getElem_le_sqnorm (vsub w v) n hnd)
    rw [getElem_vsub w v n hnd hnw hnv]
    have := axis_gap_bound hc hsc h1 h2 h3 h4 hgapK hs1K hs2K
      (Or.inr (Or.inl rfl) : (0 : K) = -1 ∨ (0 : K) = 0 ∨ (0 : K) = 1)
    simpa using this
  · intro t ht
    obtain ⟨hlt, hcompt⟩ := mem_comb101 ht
    have hnd : n < (vsub w v).length := by rw [length_vsub]; omega
    have hnt : n < t.length := by omega
    have hnim : n < (vadd (vsub w v) t).length := by
      rw [length_vadd]
      omega
    refine le_trans ?_ (sq_getElem_le_sqnorm _ n hnim)
    rw [getElem_vadd _ _ n hnim hnd hnt, getElem_vsub w v n hnd hnw hnv]
    exact axis_gap_bound hc hsc h1 h2 h3 h4 hgapK hs1K hs2K (hcompt n hnt)

theorem sample_in_cell {cell : K} (hc : 0 < cell) {L : ℕ} {cur place : Vec K}
    {M : List ℕ} (hM : cvec M = cur) (hlen : place.length = cur.length)
    (hp : ∀ x ∈ place, 0 ≤ x ∧ x < 1) :
    InCell cell (chooseRandomSample cell cur L place)
      (M.map (fun m => m / 2 ^ L)) := by
  subst hM
  have hMlen : M.length = (cvec (K := K) M).length := by simp [cvec]
  set X : K := ((2 ^ L : ℕ) : K) with hX
  have hXpos : (0 : K) < X := by
    rw [hX]
    exact_mod_cast pow_pos (by norm_num : (0:ℕ) < 2) L
  set sp : K := cell / X with hsp
  have hsppos : (0 : K) < sp := by
    rw [hsp]
    positivity
  have hXsp : X * sp = cell := by
    rw [hsp]
    field_simp
  constructor
  · unfold chooseRandomSample
    rw [length_vadd, length_smul, length_smul, hlen, List.length_map]
    omega
  · intro n hn1 hn2
    have hnc : n < (cvec (K := K) M).length := by
      unfold chooseRandomSample at hn1
      rw [length_vadd, length_smul, length_smul, hlen] at hn1
      omega
    have hnp : n < place.length := by omega
    have hnM : n < M.length := by omega
    have hval : (chooseRandomSample cell (cvec (K := K) M) L place).get ⟨n, hn1⟩ =
        (cvec (K := K) M).get ⟨n, hnc⟩ * sp + place.get ⟨n, hnp⟩ * sp := by
      unfold chooseRandomSample
      rw [getElem_vadd _ _ n hn1 (by rw [length_smul]; omega) (by rw [length_smul]; omega),
        getElem_smul (cvec M) _ n _ hnc, getElem_smul place _ n _ hnp]
    have hcurn : (cvec (K := K) M).get ⟨n, hnc⟩ = ((M.get ⟨n, hnM⟩ : ℕ) : K) :=
      get_cvec M n hnM
    set m := M.get ⟨n, hnM⟩ with hm
    have hqget : (M.map (fun m => m / 2 ^ L)).get ⟨n, hn2⟩ = m / 2 ^ L := by
      simp [List.get_eq_getElem, hm]
    obtain ⟨hpl0, hpl1⟩ := hp (place.get ⟨n, hnp⟩) (List.get_mem _ _ _)
    have hdiv := Nat.div_add_mod m (2 ^ L)
    have hmod : m % 2 ^ L < 2 ^ L := Nat.mod_lt _ (pow_pos (by norm_num) _)
    have hm1 : ((m / 2 ^ L * 2 ^ L : ℕ) : K) ≤ (m : K) := by
      exact_mod_cast Nat.div_mul_le_self m (2 ^ L)
    have hm2 : (m : K) + 1 ≤ (((m / 2 ^ L + 1) * 2 ^ L : ℕ) : K) := by
      have : m + 1 ≤ (m / 2 ^ L + 1) * 2 ^ L := by nlinarith [hmod, hdiv]
      exact_mod_cast this
    have hcast1 : ((m / 2 ^ L * 2 ^ L : ℕ) : K) = ((m / 2 ^ L : ℕ) : K) * X := by
      rw [hX]
      push_cast
      ring
    have hcast2 : (((m / 2 ^ L + 1) * 2 ^ L : ℕ) : K) =
        (((m / 2 ^ L : ℕ) : K) + 1) * X := by
      rw [hX]
      push_cast
      ring
    rw [hval, hcurn, hqget]
    constructor
    · calc ((m / 2 ^ L : ℕ) : K) * cell = ((m / 2 ^ L : ℕ) : K) * X * sp := by
            rw [mul_assoc, hXsp]
        _ = ((m / 2 ^ L * 2 ^ L : ℕ) : K) * sp := by rw [hcast1]
        _ ≤ (m : K) * sp := mul_le_mul_of_nonneg_right hm1 (le_of_lt hsppos)
        _ ≤ (m : K) * sp + place.get ⟨n, hnp⟩ * sp := by
            have := mul_nonneg hpl0 (le_of_lt hsppos)
            linarith
    · calc (m : K) * sp + place.get ⟨n, hnp⟩ * sp < (m : K) * sp + 1 * sp := by
            have := mul_lt_mul_of_pos_right hpl1 hsppos
            linarith
        _ = ((m : K) + 1) * sp := by ring
        _ ≤ (((m / 2 ^ L + 1) * 2 ^ L : ℕ) : K) * sp :=
            mul_le_mul_of_nonneg_right hm2 (le_of_lt hsppos)
        _ = (((m / 2 ^ L : ℕ) : K) + 1) * X * sp := by rw [hcast2]
        _ = (((m / 2 ^ L : ℕ) : K) + 1) * cell := by rw [mul_assoc, hXsp]

end GapAssembly

section SamplesInvariant

theorem get_zvec (c : List ℤ) (n : ℕ) (h : n < c.length) :
    (zvec (K := K) c).get ⟨n, by simpa using h⟩ = ((c.get ⟨n, h⟩ : ℤ) : K) := by
  simp [zvec]

/-- Sample bookkeeping invariant: every occupied slot holds a sample of the
configured dimension lying inside the top-level cell addressing the slot, and
samples in distinct slots respect the minimum separation. -/
structure InvSamples (cfg : Cfg K) (s : St K) : Prop where
  cells : ∀ e, ∀ he : e < s.grid.data.length, ∀ v, s.grid.data.get ⟨e, he⟩ = some v →
    v.length = cfg.D ∧ ∃ q : List ℕ, q.length = cfg.D ∧ (∀ m ∈ q, m < cfg.side) ∧
      natEncode q cfg.side = e ∧ InCell cfg.cell v q
  sep : ∀ e1 e2, ∀ h1 : e1 < s.grid.data.length, ∀ h2 : e2 < s.grid.data.length,
    e1 ≠ e2 → ∀ v1 v2, s.grid.data.get ⟨e1, h1⟩ = some v1 →
      s.grid.data.get ⟨e2, h2⟩ = some v2 →
      (2 * cfg.radius) ^ 2 ≤ sqdist v1 v2 cfg.periodic

theorem invSamples_init (cfg : Cfg K) : InvSamples cfg (initSt cfg) := by
  have hrep : ∀ e, ∀ he : e < (initSt cfg).grid.data.length,
      (initSt cfg).grid.data.get ⟨e, he⟩ = none := by
    intro e he
    show (List.replicate (cfg.side ^ cfg.D) (none : Option (Vec K))).get ⟨e, he⟩ = none
    simp [List.get_replicate]
  constructor
  · intro e he v hv
    rw [hrep e he] at hv
    exact Option.noConfusion hv
  · intro e1 e2 h1 h2 hne v1 v2 hv1 hv2
    rw [hrep e1 h1] at hv1
    exact Option.noConfusion hv1

theorem get_zipWith2 {A B C : Type _} (f : A → B → C) (a : List A) (b : List B)
    (n : ℕ) (h : n < (List.zipWith f a b).length) (h1 : n < a.length)
    (h2 : n < b.length) :
    (List.zipWith f a b).get ⟨n, h⟩ = f (a.get ⟨n, h1⟩) (b.get ⟨n, h2⟩) := by
  simp [List.get_eq_getElem, List.getElem_zipWith]

/-- Separation of a newly accepted sample against every previously stored
sample: if the old sample's cell is within the scanned `5^D` ring of the
parent (plainly or modulo `side`), `is_disk_free` checked the pair directly;
otherwise the two cells are at least three cells apart on some axis, and the
cell sizing makes the distance at least `2 * cell ≥ 2 * radius`. -/
theorem place_separation {cfg : Cfg K} {s : St K}
    (hc : 0 < cfg.cell) (hr0 : 0 ≤ cfg.radius) (hrc : cfg.radius ≤ cfg.cell)
    (hsc : (cfg.side : K) * cfg.cell ≤ 1)
    (hb : InvBase cfg s) (hsm : InvSamples cfg s)
    {cur : Vec K} {sample : Vec K}
    (hdf : is_disk_free cfg.D cfg.radius s.grid cur s.level sample = true)
    {p : List ℕ}
    (hpv : parentVec cur s.level = cvec p)
    (hplen : p.length = cfg.D) (hpb : ∀ m ∈ p, m < cfg.side)
    (hslen : sample.length = cfg.D)
    (hscell : InCell cfg.cell sample p)
    {e' : ℕ} (he' : e' < s.grid.data.length) {v' : Vec K}
    (hne : e' ≠ natEncode p cfg.side)
    (hv' : s.grid.data.get ⟨e', he'⟩ = some v') :
    (2 * cfg.radius) ^ 2 ≤ sqdist v' sample cfg.periodic := by
  obtain ⟨hv'len, q', hq'len, hq'b, hq'enc, hv'cell⟩ := hsm.cells e' he' v' hv'
  have hrad_cell : (2 * cfg.radius) ^ 2 ≤ 4 * cfg.cell ^ 2 := by nlinarith
  have hdfu := is_disk_free_iff.mp hdf
  have huse : ∀ t ∈ eachCombination ([-2, -1, 0, 1, 2] : List K) cfg.D,
      encode (vadd (parentVec cur s.level) t) cfg.side cfg.periodic = some e' →
      (2 * cfg.radius) ^ 2 ≤ sqdist v' sample cfg.periodic := by
    intro t ht henc2
    have hget : (s.grid.get (vadd (parentVec cur s.level) t)).bind id = some v' := by
      unfold Grid.get
      rw [hb.gside, hb.gper, henc2]
      have hgd : s.grid.data.getD e' none = some v' := by
        rw [List.getD_eq_getElem _ _ he']
        rw [List.get_eq_getElem] at hv'
        exact hv'
      rw [show (Option.map (fun t => s.grid.data.getD t none) (some e')).bind id =
        s.grid.data.getD e' none from rfl, hgd]
    have := hdfu t ht v' hget
    rwa [hb.gper] at this
  rcases Bool.eq_false_or_eq_true cfg.periodic with hper | hper
  swap
  · -- non-periodic mode
    by_cases hnear : ∀ n, ∀ h1 : n < q'.length, ∀ h2 : n < p.length,
        q'.get ⟨n, h1⟩ ≤ p.get ⟨n, h2⟩ + 2 ∧ p.get ⟨n, h2⟩ ≤ q'.get ⟨n, h1⟩ + 2
    · have hdzlen : (List.zipWith (fun (a : ℕ) (b : ℕ) => (a : ℤ) - b) q' p).length =
          cfg.D := by
        rw [List.length_zipWith]
        omega
      have ht : zvec (K := K) (List.zipWith (fun (a : ℕ) (b : ℕ) => (a : ℤ) - b) q' p) ∈
          eachCombination ([-2, -1, 0, 1, 2] : List K) cfg.D := by
        apply mem_eachCombination_intro2 (by simpa using hdzlen)
        intro n hn
        have hndz : n < (List.zipWith (fun (a : ℕ) (b : ℕ) => (a : ℤ) - b) q' p).length := by
          omega
        have h1 : n < q'.length := by omega
        have h2 : n < p.length := by omega
        have hzval := get_zipWith2 (fun (a : ℕ) (b : ℕ) => (a : ℤ) - b) q' p n hndz h1 h2
        obtain ⟨hn1, hn2⟩ := hnear n h1 h2
        obtain ⟨i, hi, hval⟩ := get_ring5 (K := K)
          (z := (List.zipWith (fun (a : ℕ) (b : ℕ) => (a : ℤ) - b) q' p).get ⟨n, hndz⟩)
          (by rw [hzval]; omega) (by rw [hzval]; omega)
        refine ⟨i, hi, ?_⟩
        rw [hval]
        exact get_zvec _ n hndz
      have hvadd : vadd (parentVec cur s.level)
          (zvec (List.zipWith (fun (a : ℕ) (b : ℕ) => (a : ℤ) - b) q' p)) = cvec q' := by
        rw [hpv]
        apply List.ext_get
        · rw [length_vadd]
          simp only [length_cvec, length_zvec, List.length_zipWith]
          omega
        · intro n hn1 hn2
          have h1 : n < q'.length := by simpa using hn2
          have h2 : n < p.length := by
            rw [length_vadd] at hn1
            simp only [length_cvec, length_zvec, List.length_zipWith] at hn1
            omega
          have hndz : n < (List.zipWith (fun (a : ℕ) (b : ℕ) => (a : ℤ) - b) q' p).length := by
            rw [List.length_zipWith]
            omega
          rw [getElem_vadd _ _ n hn1 (by simpa using h2) (by simpa using hndz)]
          rw [get_cvec p n h2, get_zvec _ n hndz, get_cvec q' n h1,
            get_zipWith2 (fun (a : ℕ) (b : ℕ) => (a : ℤ) - b) q' p n hndz h1 h2]
          push_cast
          ring
      apply huse _ ht
      rw [hvadd, hper, encode_cvec_mode false hq'b, hq'enc]
    · push_neg at hnear
      obtain ⟨n, h1, h2, hgap'⟩ := hnear
      have hgap : q'.get ⟨n, h1⟩ + 3 ≤ p.get ⟨n, h2⟩ ∨
          p.get ⟨n, h2⟩ + 3 ≤ q'.get ⟨n, h1⟩ := by omega
      rw [hper]
      refine le_trans hrad_cell ?_
      exact sep_of_gap_nonper (le_of_lt hc) hv'cell hscell (by omega) (by omega) h1 h2 hgap
  · -- periodic mode
    have hside : 0 < cfg.side := by
      by_contra h0
      have hz : cfg.side = 0 := by omega
      rcases Nat.eq_zero_or_pos cfg.D with hD | hD
      · apply hne
        have hq'nil : q' = [] := List.eq_nil_of_length_eq_zero (by omega)
        have hpnil : p = [] := List.eq_nil_of_length_eq_zero (by omega)
        rw [← hq'enc, hq'nil, hpnil]
      · rw [hb.glen, hz, Nat.zero_pow hD] at he'
        omega
    by_cases hnear : ∀ n, ∀ h1 : n < q'.length, ∀ h2 : n < p.length,
        ((q'.get ⟨n, h1⟩ : ℤ) - (p.get ⟨n, h2⟩ : ℤ)).natAbs ≤ 2 ∨
        (cfg.side : ℤ) - ((q'.get ⟨n, h1⟩ : ℤ) - (p.get ⟨n, h2⟩ : ℤ)).natAbs ≤ 2
    · have htzlen : (List.zipWith (fun (a : ℕ) (b : ℕ) =>
          tRep cfg.side ((a : ℤ) - b)) q' p).length = cfg.D := by
        rw [List.length_zipWith]
        omega
      have hspec : ∀ n, ∀ h1 : n < q'.length, ∀ h2 : n < p.length,
          (tRep cfg.side ((q'.get ⟨n, h1⟩ : ℤ) - (p.get ⟨n, h2⟩ : ℤ))).natAbs ≤ 2 ∧
          (tRep cfg.side ((q'.get ⟨n, h1⟩ : ℤ) - (p.get ⟨n, h2⟩ : ℤ))) % (cfg.side : ℤ) =
            ((q'.get ⟨n, h1⟩ : ℤ) - (p.get ⟨n, h2⟩ : ℤ)) % (cfg.side : ℤ) := by
        intro n h1 h2
        apply tRep_spec
        · have hq : q'.get ⟨n, h1⟩ < cfg.side := hq'b _ (List.get_mem _ _ _)
          have hpn : p.get ⟨n, h2⟩ < cfg.side := hpb _ (List.get_mem _ _ _)
          omega
        · exact hnear n h1 h2
      have ht : zvec (K := K) (List.zipWith (fun (a : ℕ) (b : ℕ) =>
          tRep cfg.side ((a : ℤ) - b)) q' p) ∈
          eachCombination ([-2, -1, 0, 1, 2] : List K) cfg.D := by
        apply mem_eachCombination_intro2 (by simpa using htzlen)
        intro n hn
        have hntz : n < (List.zipWith (fun (a : ℕ) (b : ℕ) =>
            tRep cfg.side ((a : ℤ) - b)) q' p).length := by omega
        have h1 : n < q'.length := by omega
        have h2 : n < p.length := by omega
        have hzval := get_zipWith2 (fun (a : ℕ) (b : ℕ) =>
          tRep cfg.side ((a : ℤ) - b)) q' p n hntz h1 h2
        have hs := (hspec n h1 h2).1
        obtain ⟨i, hi, hval⟩ := get_ring5 (K := K)
          (z := (List.zipWith (fun (a : ℕ) (b : ℕ) =>
            tRep cfg.side ((a : ℤ) - b)) q' p).get ⟨n, hntz⟩)
          (by rw [hzval]; omega) (by rw [hzval]; omega)
        refine ⟨i, hi, ?_⟩
        rw [hval]
        exact get_zvec _ n hntz
      have hvadd : vadd (parentVec cur s.level)
          (zvec (List.zipWith (fun (a : ℕ) (b : ℕ) => tRep cfg.side ((a : ℤ) - b)) q' p)) =
          zvec (List.zipWith (fun (a : ℕ) (b : ℕ) =>
            (a : ℤ) + tRep cfg.side ((b : ℤ) - a)) p q') := by
        rw [hpv]
        apply List.ext_get
        · rw [length_vadd]
          simp only [length_cvec, length_zvec, List.length_zipWith]
          omega
        · intro n hn1 hn2
          have h2 : n < p.length := by
            rw [length_vadd] at hn1
            simp only [length_cvec, length_zvec, List.length_zipWith] at hn1
            omega
          have h1 : n < q'.length := by omega
          have hntz : n < (List.zipWith (fun (a : ℕ) (b : ℕ) =>
              tRep cfg.side ((a : ℤ) - b)) q' p).length := by
            rw [List.length_zipWith]
            omega
          have hnu : n < (List.zipWith (fun (a : ℕ) (b : ℕ) =>
              (a : ℤ) + tRep cfg.side ((b : ℤ) - a)) p q').length := by
            rw [List.length_zipWith]
            omega
          rw [getElem_vadd _ _ n hn1 (by simpa using h2) (by simpa using hntz)]
          rw [get_cvec p n h2, get_zvec _ n hntz, get_zvec _ n hnu,
            get_zipWith2 (fun (a : ℕ) (b : ℕ) => tRep cfg.side ((a : ℤ) - b)) q' p n
              hntz h1 h2,
            get_zipWith2 (fun (a : ℕ) (b : ℕ) => (a : ℤ) + tRep cfg.side ((b : ℤ) - a))
              p q' n hnu h2 h1]
          push_cast
          ring
      have hdig : (List.zipWith (fun (a : ℕ) (b : ℕ) =>
          (a : ℤ) + tRep cfg.side ((b : ℤ) - a)) p q').map
            (fun z => (z.emod cfg.side).toNat) = q' := by
        apply List.ext_get (by rw [List.length_map, List.length_zipWith]; omega)
        intro n hn1 hn2
        have hnu : n < (List.zipWith (fun (a : ℕ) (b : ℕ) =>
            (a : ℤ) + tRep cfg.side ((b : ℤ) - a)) p q').length := by simpa using hn1
        have h1 : n < q'.length := by omega
        have h2 : n < p.length := by omega
        have hq : q'.get ⟨n, h1⟩ < cfg.side := hq'b _ (List.get_mem _ _ _)
        have hmodeq := (hspec n h1 h2).2
        have hval := get_zipWith2 (fun (a : ℕ) (b : ℕ) =>
          (a : ℤ) + tRep cfg.side ((b : ℤ) - a)) p q' n hnu h2 h1
        have hemod : ((List.zipWith (fun (a : ℕ) (b : ℕ) =>
            (a : ℤ) + tRep cfg.side ((b : ℤ) - a)) p q').get ⟨n, hnu⟩).emod cfg.side =
            (q'.get ⟨n, h1⟩ : ℤ) := by
          rw [hval]
          show ((p.get ⟨n, h2⟩ : ℤ) +
            tRep cfg.side ((q'.get ⟨n, h1⟩ : ℤ) - (p.get ⟨n, h2⟩ : ℤ))) % (cfg.side : ℤ) = _
          rw [Int.add_emod, hmodeq, ← Int.add_emod]
          have harith : (p.get ⟨n, h2⟩ : ℤ) +
              ((q'.get ⟨n, h1⟩ : ℤ) - (p.get ⟨n, h2⟩ : ℤ)) = (q'.get ⟨n, h1⟩ : ℤ) := by
            ring
          rw [harith, Int.emod_eq_of_lt (by positivity) (by exact_mod_cast hq)]
        have hgetmap : ((List.zipWith (fun (a : ℕ) (b : ℕ) =>
            (a : ℤ) + tRep cfg.side ((b : ℤ) - a)) p q').map
              (fun z => (z.emod cfg.side).toNat)).get ⟨n, hn1⟩ =
            (((List.zipWith (fun (a : ℕ) (b : ℕ) =>
              (a : ℤ) + tRep cfg.side ((b : ℤ) - a)) p q').get ⟨n, hnu⟩).emod
                cfg.side).toNat := by
          simp [List.get_eq_getElem]
        rw [hgetmap, hemod]
        simp [List.get_eq_getElem]
      apply huse _ ht
      rw [hvadd, hper, encode_zvec_per hside, hdig, hq'enc]
    · push_neg at hnear
      obtain ⟨n, h1, h2, hgap'⟩ := hnear
      have hq : q'.get ⟨n, h1⟩ < cfg.side := hq'b _ (List.get_mem _ _ _)
      have hpn : p.get ⟨n, h2⟩ < cfg.side := hpb _ (List.get_mem _ _ _)
      have hgap : q'.get ⟨n, h1⟩ + 3 ≤ p.get ⟨n, h2⟩ ∨
          p.get ⟨n, h2⟩ + 3 ≤ q'.get ⟨n, h1⟩ := by omega
      have hs1 : p.get ⟨n, h2⟩ + 3 ≤ cfg.side + q'.get ⟨n, h1⟩ := by omega
      have hs2 : q'.get ⟨n, h1⟩ + 3 ≤ cfg.side + p.get ⟨n, h2⟩ := by omega
      rw [hper]
      refine le_trans hrad_cell ?_
      exact sep_of_gap_per (le_of_lt hc) hsc hv'cell hscell (by omega) (by omega)
        h1 h2 hgap hs1 hs2

theorem invSamples_step {cfg : Cfg K}
    (hc : 0 < cfg.cell) (hr0 : 0 ≤ cfg.radius) (hrc : cfg.radius ≤ cfg.cell)
    (hsc : (cfg.side : K) * cfg.cell ≤ 1)
    {s s' : St K} (hstep : Step cfg s s') (hb : InvBase cfg s)
    (hsm : InvSamples cfg s) : InvSamples cfg s' := by
  cases hstep with
  | throwDead i hi ht v hocc => exact ⟨hsm.cells, hsm.sep⟩
  | throwReject i hi ht place hpl hp hfree hdf => exact ⟨hsm.cells, hsm.sep⟩
  | subdivideStep ht hne hlvl => exact ⟨hsm.cells, hsm.sep⟩
  | throwPlace i hi ht place hpl hp hfree hdf e henc =>
    have hcur : s.indices.get ⟨i, hi⟩ ∈ s.indices := List.get_mem _ _ _
    obtain ⟨p, hpv, hplen, hpb, hpenc, hplt, hcv, hpdef⟩ := candidate_parent hb hcur
    have he : e = natEncode p cfg.side := by
      have h2 := hpenc cfg.periodic
      rw [hb.gside, hb.gper] at henc
      rw [henc] at h2
      exact Option.some.inj h2
    have helt : e < s.grid.data.length := by
      rw [hb.glen, he]
      exact hplt
    have hsample_cell : InCell cfg.cell
        (chooseRandomSample s.grid.cell (s.indices.get ⟨i, hi⟩) s.level place) p := by
      rw [hb.gcell, hpdef]
      exact sample_in_cell hc hcv (by rw [hpl]; exact (hb.ilen _ hcur).symm) hp
    have hslen2 : (chooseRandomSample s.grid.cell (s.indices.get ⟨i, hi⟩)
        s.level place).length = cfg.D := by
      unfold chooseRandomSample
      rw [length_vadd, length_smul, length_smul, hpl, hb.ilen _ hcur]
      simp
    have hdata : ∀ e1, ∀ he1 : e1 < (s.grid.set e
        (some (chooseRandomSample s.grid.cell (s.indices.get ⟨i, hi⟩) s.level
          place))).data.length, e1 ≠ e →
        ∀ he1' : e1 < s.grid.data.length,
        (s.grid.set e (some (chooseRandomSample s.grid.cell (s.indices.get ⟨i, hi⟩)
          s.level place))).data.get ⟨e1, he1⟩ = s.grid.data.get ⟨e1, he1'⟩ := by
      intro e1 he1 hne1 he1'
      show (s.grid.data.set e _).get ⟨e1, he1⟩ = _
      rw [List.get_set_of_ne (by omega) _ he1]
    have hdata_e : ∀ he1 : e < (s.grid.set e
        (some (chooseRandomSample s.grid.cell (s.indices.get ⟨i, hi⟩) s.level
          place))).data.length,
        (s.grid.set e (some (chooseRandomSample s.grid.cell (s.indices.get ⟨i, hi⟩)
          s.level place))).data.get ⟨e, he1⟩ =
          some (chooseRandomSample s.grid.cell (s.indices.get ⟨i, hi⟩) s.level place) := by
      intro he1
      show (s.grid.data.set e _).get ⟨e, he1⟩ = _
      rw [List.get_eq_getElem]
      exact List.getElem_set_self he1
    constructor
    · intro e1 he1 v1 hv1
      by_cases h1 : e1 = e
      · subst h1
        rw [hdata_e he1] at hv1
        have hv1' := Option.some.inj hv1
        refine ⟨by rw [← hv1']; exact hslen2, p, hplen, hpb, he.symm, ?_⟩
        rw [← hv1']
        exact hsample_cell
      · have he1' : e1 < s.grid.data.length := by
          simpa [Grid.set] using he1
        rw [hdata e1 he1 h1 he1'] at hv1
        exact hsm.cells e1 he1' v1 hv1
    · intro e1 e2 h1 h2 hne12 v1 v2 hv1 hv2
      have h1' : e1 < s.grid.data.length := by simpa [Grid.set] using h1
      have h2' : e2 < s.grid.data.length := by simpa [Grid.set] using h2
      by_cases hc1 : e1 = e
      · subst hc1
        by_cases hc2 : e2 = e1
        · exact absurd hc2.symm hne12
        · rw [hdata_e h1] at hv1
          rw [hdata e2 h2 hc2 h2'] at hv2
          have hv1' := Option.some.inj hv1
          have hb2 := place_separation hc hr0 hrc hsc hb hsm hdf hpv hplen hpb
            hslen2 hsample_cell h2' (by rw [← he]; exact hc2) hv2
          rw [← hv1']
          have hlen12 : v2.length =
              (chooseRandomSample s.grid.cell (s.indices.get ⟨i, hi⟩) s.level
                place).length := by
            rw [hslen2, (hsm.cells e2 h2' v2 hv2).1]
          rw [sqdist_comm _ _ _ (hlen12.symm ▸ hslen2 ▸ rfl : _ = _)]
          exact hb2
      · by_cases hc2 : e2 = e
        · subst hc2
          rw [hdata_e h2] at hv2
          rw [hdata e1 h1 hc1 h1'] at hv1
          have hv2' := Option.some.inj hv2
          have hb2 := place_separation hc hr0 hrc hsc hb hsm hdf hpv hplen hpb
            hslen2 hsample_cell h1' (by rw [← he]; exact hc1) hv1
          rw [← hv2']
          exact hb2
        · rw [hdata e1 h1 hc1 h1'] at hv1
          rw [hdata e2 h2 hc2 h2'] at hv2
          exact hsm.sep e1 e2 h1' h2' hne12 v1 v2 hv1 hv2

theorem invSamples_reachable {cfg : Cfg K}
    (hc : 0 < cfg.cell) (hr0 : 0 ≤ cfg.radius) (hrc : cfg.radius ≤ cfg.cell)
    (hsc : (cfg.side : K) * cfg.cell ≤ 1)
    {s : St K} (h : Reachable cfg s) : InvSamples cfg s := by
  induction h with
  | refl => exact invSamples_init cfg
  | tail hr hstep ih =>
    exact invSamples_step hc hr0 hrc hsc hstep (invBase_reachable hr) ih

end SamplesInvariant

section Termination

/-- Every step of the driver decreases the lexicographic measure
`(mantissaDigits - level, throws)`: a throw consumes one unit of the current
pass's budget, and a subdivision advances the level (which is capped). -/
theorem step_measure {cfg : Cfg K} {s s' : St K} (hstep : Step cfg s s') :
    Prod.Lex (· < ·) (· < ·)
      (mantissaDigits - s'.level, s'.throws)
      (mantissaDigits - s.level, s.throws) := by
  cases hstep with
  | throwDead i hi ht v hocc =>
    exact Prod.Lex.right _ (show s.throws - 1 < s.throws by omega)
  | throwPlace i hi ht place hpl hp hfree hdf e henc =>
    exact Prod.Lex.right _ (show s.throws - 1 < s.throws by omega)
  | throwReject i hi ht place hpl hp hfree hdf =>
    exact Prod.Lex.right _ (show s.throws - 1 < s.throws by omega)
  | subdivideStep ht hne hlvl =>
    apply Prod.Lex.left
    show mantissaDigits - (s.level + 1) < mantissaDigits - s.level
    omega

theorem step_acc (cfg : Cfg K) (s : St K) : Acc (fun a b : St K => Step cfg b a) s := by
  have hwf : WellFounded (Prod.Lex ((· < ·) : ℕ → ℕ → Prop) ((· < ·) : ℕ → ℕ → Prop)) :=
    WellFounded.prod_lex (Nat.lt_wfRel.wf) (Nat.lt_wfRel.wf)
  have hinv : WellFounded (InvImage
      (Prod.Lex ((· < ·) : ℕ → ℕ → Prop) ((· < ·) : ℕ → ℕ → Prop))
      (fun s : St K => (mantissaDigits - s.level, s.throws))) := InvImage.wf _ hwf
  have hsub : WellFounded (fun a b : St K => Step cfg b a) := by
    apply Subrelation.wf ?_ hinv
    intro a b hab
    exact step_measure hab
  exact hsub.apply s

end Termination

section TraceSupport

theorem choices_getD (side j : ℕ) (hj : j < side) :
    ((List.range side).map (fun i : ℕ => (i : K))).getD j 0 = (j : K) := by
  rw [List.getD_eq_getElem _ _ (by simpa using hj)]
  simp

theorem combAt_range (side D j : ℕ) (hs : 0 < side) :
    combAt ((List.range side).map (fun i : ℕ => (i : K))) D j =
      cvec ((List.range D).map (fun n => j / side ^ n % side)) := by
  rw [combAt, cvec, List.map_map]
  apply List.map_congr_left
  intro n hn
  have hlen : ((List.range side).map (fun i : ℕ => (i : K))).length = side := by simp
  simp only [hlen, Function.comp_apply]
  exact choices_getD side _ (Nat.mod_lt _ hs)

theorem initIndices_getElem (cfg : Cfg K) (hs : 0 < cfg.side) (j : ℕ)
    (h : j < (initIndices cfg).length) :
    (initIndices cfg).get ⟨j, h⟩ =
      cvec ((List.range cfg.D).map (fun n => j / cfg.side ^ n % cfg.side)) := by
  rw [List.get_eq_getElem, ← combAt_range cfg.side cfg.D j hs]
  simp only [initIndices, eachCombination, List.getElem_map, List.getElem_range]

theorem get_swapRemove_ne {α : Type _} (l : List α) (i j : ℕ)
    (hj : j < (swapRemove l i).length) (hne : l ≠ []) (hij : j ≠ i)
    (hjl : j < l.length) :
    (swapRemove l i).get ⟨j, hj⟩ = l.get ⟨j, hjl⟩ := by
  simp only [List.get_eq_getElem]
  revert hj
  rw [swapRemove_eq l i hne]
  intro hj2
  rw [List.getElem_dropLast, List.getElem_set_ne (by omega)]

theorem get_swapRemove_self {α : Type _} (l : List α) (i : ℕ) (hne : l ≠ [])
    (hi : i < (swapRemove l i).length) :
    (swapRemove l i).get ⟨i, hi⟩ = l.getLast hne := by
  have hlen : (swapRemove l i).length = l.length - 1 := length_swapRemove l i hne
  have hil : i < l.length := by omega
  simp only [List.get_eq_getElem]
  revert hi
  rw [swapRemove_eq l i hne]
  intro hi2
  rw [List.getElem_dropLast, List.getElem_set_self (by simpa using hil)]

theorem getD_replicate_none {α : Type _} (N t : ℕ) :
    (List.replicate N (none : Option α)).getD t none = none := by
  rcases Nat.lt_or_ge t N with h | h
  · rw [List.getD_eq_getElem _ _ (by simpa using h)]
    simp
  · rw [List.getD_eq_default _ _ (by simpa using h)]

theorem getD_set_replicate {α : Type _} (N e0 t : ℕ) (w : α) :
    ((List.replicate N (none : Option α)).set e0 (some w)).getD t none =
      if t = e0 ∧ e0 < N then some w else none := by
  by_cases h1 : t < N
  · rw [List.getD_eq_getElem _ _ (by simpa using h1)]
    by_cases h2 : t = e0
    · subst h2
      rw [if_pos ⟨rfl, h1⟩, List.getElem_set_self (by simpa using h1)]
    · rw [if_neg (by tauto), List.getElem_set_ne (by omega)]
      simp
  · rw [List.getD_eq_default _ _ (by simpa using h1),
      if_neg (by rintro ⟨rfl, h2⟩; omega)]

theorem grid_get_all_none {g : Grid K} (h : ∀ o ∈ g.data, o = none) (x : Vec K) :
    (g.get x).bind id = none := by
  rw [Grid.get]
  rcases he : encode x g.side g.periodicity with _ | t
  · rfl
  · show (some (g.data.getD t none)).bind id = none
    rcases Nat.lt_or_ge t g.data.length with hlt | hge
    · rw [List.getD_eq_getElem _ _ hlt]
      have := h (g.data.get ⟨t, hlt⟩) (List.get_mem _ _ _)
      simp only [List.get_eq_getElem] at this
      simp [this]
    · rw [List.getD_eq_default _ _ hge]
      rfl

theorem is_disk_free_all_none {D : ℕ} {radius : K} {g : Grid K}
    (h : ∀ o ∈ g.data, o = none) (index : Vec K) (level : ℕ) (c : Vec K) :
    is_disk_free D radius g index level c = true := by
  apply is_disk_free_iff.mpr
  intro t ht v hv
  rw [grid_get_all_none h] at hv
  exact absurd hv (by simp)

theorem is_disk_free_eq_false {D : ℕ} {radius : K} {g : Grid K} {index : Vec K}
    {level : ℕ} {c : Vec K} {t v : Vec K}
    (ht : t ∈ eachCombination ([-2, -1, 0, 1, 2] : List K) D)
    (hv : (g.get (vadd (parentVec index level) t)).bind id = some v)
    (hlt : sqdist v c g.periodicity < (2 * radius) ^ 2) :
    is_disk_free D radius g index level c = false := by
  rcases Bool.eq_false_or_eq_true (is_disk_free D radius g index level c) with h | h
  · exact absurd (is_disk_free_iff.mp h t ht v hv) (not_le.mpr hlt)
  · exact h

theorem grid_get_single {g : Grid K} {N e0 : ℕ} {w : Vec K}
    (hdata : g.data = (List.replicate N (none : Option (Vec K))).set e0 (some w))
    {x : Vec K} {v : Vec K}
    (hv : (g.get x).bind id = some v) :
    v = w ∧ encode x g.side g.periodicity = some e0 ∧ e0 < N := by
  rw [Grid.get] at hv
  rcases he : encode x g.side g.periodicity with _ | t
  · rw [he] at hv
    exact absurd hv (by simp)
  · rw [he] at hv
    have hv2 : g.data.getD t none = some v := by simpa using hv
    rw [hdata, getD_set_replicate] at hv2
    by_cases hc : t = e0 ∧ e0 < N
    · rw [if_pos hc] at hv2
      obtain ⟨rfl, hN⟩ := hc
      exact ⟨(Option.some.inj hv2).symm, rfl, hN⟩
    · rw [if_neg hc] at hv2
      exact absurd hv2 (by simp)

theorem encode_foldl_ge {s : ℕ} (v : Vec K) : ∀ a F : ℕ,
    v.foldl (encodeStep s false) (some a) = some F → a * s ^ v.length ≤ F := by
  induction v with
  | nil =>
    intro a F h
    simp only [List.foldl_nil, Option.some.injEq] at h
    rw [← h]
    simp
  | cons x rest ih =>
    intro a F h
    rw [List.foldl_cons] at h
    rcases hstep : encodeStep s false (some a) x with _ | a1
    · rw [hstep, encode_foldl_none] at h
      exact absurd h (by simp)
    · rw [hstep] at h
      have hbound := ih a1 F h
      have ha1 : a * s ≤ a1 := by
        by_cases hout : x < 0 ∨ (s : K) ≤ x
        · rw [encodeStep] at hstep
          simp only [Option.some_bind, Bool.false_eq_true, if_false, if_pos hout] at hstep
          exact absurd hstep (by simp)
        · rw [encodeStep] at hstep
          simp only [Option.some_bind, Bool.false_eq_true, if_false, if_neg hout] at hstep
          rw [← Option.some.inj hstep]
          exact Nat.mul_le_mul_right s (Nat.le_add_right _ _)
      calc a * s ^ (x :: rest).length = a * s * s ^ rest.length := by
            rw [List.length_cons, pow_succ]
            ring
        _ ≤ a1 * s ^ rest.length := Nat.mul_le_mul_right _ ha1
        _ ≤ F := hbound

theorem encode_cons_zero_first {x : K} {rest : Vec K} {s : ℕ} (hs : 0 < s)
    (h : encode (x :: rest) s false = some 0) : 0 ≤ x ∧ x < 1 := by
  rw [encode] at h
  rcases hF : (x :: rest).foldl (encodeStep s false) (some 0) with _ | F
  · rw [hF] at h
    exact absurd h (by simp)
  · rw [hF] at h
    simp only [Option.map_some', Option.some.injEq] at h
    have hFs : F < s := by
      rcases Nat.lt_or_ge F s with h1 | h1
      · exact h1
      · have h2 : 1 ≤ F / s := (Nat.one_le_div_iff hs).mpr h1
        omega
    rw [List.foldl_cons] at hF
    rcases hstep : encodeStep s false (some 0) x with _ | a1
    · rw [hstep, encode_foldl_none] at hF
      exact absurd hF (by simp)
    · rw [hstep] at hF
      have hge := encode_foldl_ge rest a1 F hF
      by_cases hout : x < 0 ∨ (s : K) ≤ x
      · rw [encodeStep] at hstep
        simp only [Option.some_bind, Bool.false_eq_true, if_false, if_pos hout] at hstep
        exact absurd hstep (by simp)
      · rw [encodeStep] at hstep
        simp only [Option.some_bind, Bool.false_eq_true, if_false, if_neg hout] at hstep
        push_neg at hout
        obtain ⟨hx0q, hxsq⟩ := hout
        have hx0 : 0 ≤ x := hx0q
        have ha1 : a1 = (trunc x).toNat * s := by
          rw [← Option.some.inj hstep, zero_add]
        have hsl : 1 ≤ s ^ rest.length := Nat.one_le_pow _ _ hs
        have htx : (trunc x).toNat = 0 := by
          by_contra hne2
          have h1 : 1 ≤ (trunc x).toNat := by omega
          have hcalc : s ≤ a1 * s ^ rest.length := by
            calc s = 1 * s * 1 := by ring
              _ ≤ (trunc x).toNat * s * s ^ rest.length :=
                  Nat.mul_le_mul (Nat.mul_le_mul h1 (le_refl s)) hsl
              _ = a1 * s ^ rest.length := by rw [ha1]
          omega
        refine ⟨hx0, ?_⟩
        have hfl : trunc x = ⌊x⌋ := by rw [trunc, if_neg (not_lt.mpr hx0)]
        have h0 : ⌊x⌋ ≤ 0 := Int.toNat_eq_zero.mp (hfl ▸ htx)
        have hlt1 := Int.lt_floor_add_one x
        have hc0 : ((⌊x⌋ : ℤ) : K) ≤ 0 := by exact_mod_cast h0
        linarith

@[simp] theorem vadd_cons (a b : K) (as bs : Vec K) :
    vadd (a :: as) (b :: bs) = (a + b) :: vadd as bs := rfl

@[simp] theorem vsub_cons (a b : K) (as bs : Vec K) :
    vsub (a :: as) (b :: bs) = (a - b) :: vsub as bs := rfl

@[simp] theorem smul_cons (a c : K) (as : Vec K) :
    smul (a :: as) c = (a * c) :: smul as c := rfl

theorem cvec_replicate (n m : ℕ) :
    cvec (K := K) (List.replicate n m) = List.replicate n (m : K) := by
  simp [cvec, List.map_replicate]

theorem smul_replicate (n : ℕ) (a c : K) :
    smul (List.replicate n a) c = List.replicate n (a * c) := by
  simp [smul, List.map_replicate]

theorem vadd_replicate_zero (n : ℕ) (l : Vec K) (hl : l.length = n) :
    vadd (List.replicate n (0 : K)) l = l := by
  induction l generalizing n with
  | nil =>
    subst hl
    rfl
  | cons x xs ih =>
    subst hl
    rw [List.length_cons, List.replicate_succ, vadd_cons, zero_add, ih xs.length rfl]

theorem vadd_replicate_zero_right (n : ℕ) (l : Vec K) (hl : l.length = n) :
    vadd l (List.replicate n (0 : K)) = l := by
  induction l generalizing n with
  | nil =>
    subst hl
    rfl
  | cons x xs ih =>
    subst hl
    rw [List.length_cons, List.replicate_succ, vadd_cons, add_zero, ih xs.length rfl]

theorem vsub_replicate (n : ℕ) (a b : K) :
    vsub (List.replicate n a) (List.replicate n b) = List.replicate n (a - b) := by
  induction n with
  | zero => rfl
  | succ n ih => rw [List.replicate_succ, List.replicate_succ, vsub_cons, ih,
      List.replicate_succ]

@[simp] theorem sqnorm_cons (x : K) (xs : Vec K) :
    sqnorm (x :: xs) = x ^ 2 + sqnorm xs := by
  simp [sqnorm]

theorem sqnorm_replicate_zero (n : ℕ) :
    sqnorm (List.replicate n (0 : K)) = 0 := by
  induction n with
  | zero => rfl
  | succ n ih => rw [List.replicate_succ, sqnorm_cons, ih]; ring

theorem sqnorm_ge_of_comp {v : Vec K} {b : K} :
    (∀ n, ∀ hn : n < v.length, b ≤ v.get ⟨n, hn⟩ ^ 2) →
    (v.length : K) * b ≤ sqnorm v := by
  induction v with
  | nil =>
    intro h
    simp [sqnorm]
  | cons x rest ih =>
    intro h
    have hx : b ≤ x ^ 2 := h 0 (by simp)
    have hr := ih (fun n hn => h (n + 1) (by simpa using hn))
    rw [sqnorm_cons, List.length_cons]
    push_cast
    linarith

theorem parentVec_cvec_zero (c : List ℕ) : parentVec (cvec (K := K) c) 0 = cvec c := by
  rw [parentVec_cvec]
  simp

theorem length_flatMap_le {α β : Type _} (l : List α) (f : α → List β) (b : ℕ)
    (h : ∀ a ∈ l, (f a).length ≤ b) : (l.flatMap f).length ≤ b * l.length := by
  induction l with
  | nil => simp
  | cons x xs ih =>
    rw [List.flatMap_cons, List.length_append, List.length_cons]
    have h1 := h x (List.mem_cons_self _ _)
    have h2 := ih (fun a ha => h a (List.mem_cons_of_mem _ ha))
    calc (f x).length + (xs.flatMap f).length ≤ b + b * xs.length := by omega
      _ = b * (xs.length + 1) := by ring

theorem le_length_flatMap_of_mem {α β : Type _} {l : List α} {a : α} (ha : a ∈ l)
    (f : α → List β) : (f a).length ≤ (l.flatMap f).length := by
  obtain ⟨s1, t1, rfl⟩ := List.append_of_mem ha
  rw [List.flatMap_append, List.flatMap_cons]
  simp only [List.length_append]
  omega

theorem pairwise_filterMap_slots {R : Vec K → Vec K → Prop}
    (l : List (Option (Vec K)))
    (h : ∀ e1 e2, ∀ h1 : e1 < l.length, ∀ h2 : e2 < l.length, e1 < e2 →
      ∀ v1 v2, l.get ⟨e1, h1⟩ = some v1 → l.get ⟨e2, h2⟩ = some v2 → R v1 v2) :
    List.Pairwise R (l.filterMap id) := by
  induction l with
  | nil => simp
  | cons o tl ih =>
    have htl : List.Pairwise R (tl.filterMap id) := by
      apply ih
      intro e1 e2 h1 h2 hlt v1 v2 hv1 hv2
      exact h (e1 + 1) (e2 + 1) (by simpa using h1) (by simpa using h2) (by omega)
        v1 v2 (by simpa using hv1) (by simpa using hv2)
    cases o with
    | none => simpa using htl
    | some a =>
      rw [List.filterMap_cons]
      simp only [id]
      refine List.Pairwise.cons ?_ htl
      intro b hb
      obtain ⟨ob, hob, hobb⟩ := List.mem_filterMap.mp hb
      obtain ⟨⟨j, hj⟩, hget⟩ := List.mem_iff_get.mp hob
      have hob2 : ob = some b := hobb
      apply h 0 (j + 1) (by simp) (by simpa using hj) (by omega) a b rfl
      show tl.get ⟨j, hj⟩ = some b
      rw [hget, hob2]

end TraceSupport

section ShrinkageTrace

/-- The configuration of a run at `D = 4`, `r = 1/2`, non-periodic:
`cell = 2*(1/2)/sqrt(4) = 1/2` and `side = 2`, so `16` top-level cells. -/
noncomputable def cfg4 : Cfg ℝ := cfgOf 4 (1 / 2) false

/-- The sample the first throw accepts into cell `(0,0,0,0)`: random point
`(0.1, 0.1, 0.1, 0.1)` scaled by `cell = 1/2`. -/
noncomputable def c6sample1 : Vec ℝ := [1 / 20, 1 / 20, 1 / 20, 1 / 20]

noncomputable def c6place1 : Vec ℝ := [1 / 10, 1 / 10, 1 / 10, 1 / 10]

noncomputable def c6place2 : Vec ℝ := [0, 0, 0, 0]

noncomputable def c6grid1 : Grid ℝ := (initSt cfg4).grid.set 0 (some c6sample1)

noncomputable def c6indices1 : List (Vec ℝ) := swapRemove (initSt cfg4).indices 0

theorem c6_cell : cfg4.cell = 1 / 2 := by
  show 2 * (1 / 2 : ℝ) / Real.sqrt ((4 : ℕ) : ℝ) = 1 / 2
  rw [show ((4 : ℕ) : ℝ) = 2 ^ 2 by norm_num,
    Real.sqrt_sq (by norm_num : (0 : ℝ) ≤ 2)]
  norm_num

theorem c6_side : cfg4.side = 2 := by
  show ⌊1 / (2 * (1 / 2 : ℝ) / Real.sqrt ((4 : ℕ) : ℝ))⌋₊ = 2
  rw [show ((4 : ℕ) : ℝ) = 2 ^ 2 by norm_num,
    Real.sqrt_sq (by norm_num : (0 : ℝ) ≤ 2),
    show 2 * (1 / 2 : ℝ) / 2 = 1 / 2 by norm_num]
  rw [show (1 : ℝ) / (1 / 2) = 2 by norm_num]
  exact_mod_cast Nat.floor_natCast 2

theorem c6_len0 : (initIndices cfg4).length = 16 := by
  rw [initIndices, length_eachCombination, List.length_map, List.length_range, c6_side]
  show (2 : ℕ) ^ 4 = 16
  norm_num

theorem c6_ne0 : (initSt cfg4).indices ≠ [] := by
  apply List.ne_nil_of_length_pos
  show 0 < (initIndices cfg4).length
  rw [c6_len0]
  norm_num

theorem c6_len1 : c6indices1.length = 15 := by
  show (swapRemove (initSt cfg4).indices 0).length = 15
  rw [length_swapRemove _ _ c6_ne0]
  show (initIndices cfg4).length - 1 = 15
  rw [c6_len0]

theorem c6_ne1 : c6indices1 ≠ [] :=
  List.ne_nil_of_length_pos (by rw [c6_len1]; norm_num)

theorem c6_throws : (initSt cfg4).throws = 5 := by
  show throwsFor (K := ℝ) (initIndices cfg4).length = 5
  rw [c6_len0, throwsFor, Nat.ceil_eq_iff (by norm_num : (5 : ℕ) ≠ 0)]
  constructor <;> norm_num

theorem c6_Npos : 0 < cfg4.side ^ cfg4.D := by
  rw [c6_side]
  positivity

theorem c6_cur0 (hi : 0 < (initSt cfg4).indices.length) :
    (initSt cfg4).indices.get ⟨0, hi⟩ = cvec [0, 0, 0, 0] := by
  show (initIndices cfg4).get ⟨0, hi⟩ = _
  rw [initIndices_getElem cfg4 (by rw [c6_side]; norm_num) 0 hi]
  refine congrArg cvec ?_
  rw [c6_side]
  show (List.range 4).map (fun n => 0 / 2 ^ n % 2) = [0, 0, 0, 0]
  decide

theorem c6_cur1 (hi : 1 < c6indices1.length) :
    c6indices1.get ⟨1, hi⟩ = cvec [1, 0, 0, 0] := by
  have hi0 : 1 < (initSt cfg4).indices.length := by
    show 1 < (initIndices cfg4).length
    rw [c6_len0]
    norm_num
  have h1 : c6indices1.get ⟨1, hi⟩ = (initSt cfg4).indices.get ⟨1, hi0⟩ :=
    get_swapRemove_ne (initSt cfg4).indices 0 1 hi c6_ne0 (by norm_num) hi0
  rw [h1]
  show (initIndices cfg4).get ⟨1, hi0⟩ = _
  rw [initIndices_getElem cfg4 (by rw [c6_side]; norm_num) 1 hi0]
  refine congrArg cvec ?_
  rw [c6_side]
  show (List.range 4).map (fun n => 1 / 2 ^ n % 2) = [1, 0, 0, 0]
  decide

theorem c6_last (hi : 0 < c6indices1.length) :
    c6indices1.get ⟨0, hi⟩ = cvec [1, 1, 1, 1] := by
  have h1 : c6indices1.get ⟨0, hi⟩ = (initSt cfg4).indices.getLast c6_ne0 :=
    get_swapRemove_self (initSt cfg4).indices 0 c6_ne0 hi
  rw [h1, List.getLast_eq_getElem]
  have hlt : (initSt cfg4).indices.length - 1 < (initIndices cfg4).length := by
    rw [c6_len0]
    show (initIndices cfg4).length - 1 < 16
    rw [c6_len0]
    norm_num
  show (initIndices cfg4).get ⟨(initSt cfg4).indices.length - 1, hlt⟩ = _
  rw [initIndices_getElem cfg4 (by rw [c6_side]; norm_num) _ hlt]
  refine congrArg cvec ?_
  rw [show (initSt cfg4).indices.length = 16 from c6_len0, c6_side]
  show (List.range 4).map (fun n => (16 - 1) / 2 ^ n % 2) = [1, 1, 1, 1]
  decide

theorem c6_mem15 : cvec [1, 1, 1, 1] ∈ c6indices1 := by
  have hi : 0 < c6indices1.length := by rw [c6_len1]; norm_num
  rw [← c6_last hi]
  exact List.get_mem _ _ _

theorem c6_data1 : c6grid1.data =
    (List.replicate (cfg4.side ^ cfg4.D) (none : Option (Vec ℝ))).set 0
      (some c6sample1) := rfl

theorem c6_get_single {x v : Vec ℝ} (hv : (c6grid1.get x).bind id = some v) :
    v = c6sample1 :=
  (grid_get_single c6_data1 hv).1

theorem c6_sample1_eq (hi : 0 < (initSt cfg4).indices.length) :
    chooseRandomSample (initSt cfg4).grid.cell ((initSt cfg4).indices.get ⟨0, hi⟩)
      (initSt cfg4).level c6place1 = c6sample1 := by
  rw [c6_cur0 hi, show (initSt cfg4).grid.cell = (1 / 2 : ℝ) from c6_cell]
  show chooseRandomSample (1 / 2 : ℝ) (cvec [0, 0, 0, 0]) 0 c6place1 = c6sample1
  rw [chooseRandomSample, c6place1, c6sample1]
  norm_num [cvec, smul, vadd]

theorem c6_free1 (hi : 0 < (initSt cfg4).indices.length) :
    (initSt cfg4).grid.get (parentVec ((initSt cfg4).indices.get ⟨0, hi⟩)
      (initSt cfg4).level) = some none := by
  rw [c6_cur0 hi]
  show (initGrid cfg4).get (parentVec (cvec [0, 0, 0, 0]) 0) = some none
  rw [parentVec_cvec_zero, Grid.get]
  show (encode (cvec [0, 0, 0, 0]) cfg4.side false).map
    (fun t => (initGrid cfg4).data.getD t none) = some none
  rw [c6_side, encode_cvec (by decide)]
  show some ((List.replicate (cfg4.side ^ cfg4.D) (none : Option (Vec ℝ))).getD
    (natEncode [0, 0, 0, 0] 2) none) = some none
  rw [getD_replicate_none]

theorem c6_enc1 (hi : 0 < (initSt cfg4).indices.length) :
    encode (parentVec ((initSt cfg4).indices.get ⟨0, hi⟩) (initSt cfg4).level)
      (initSt cfg4).grid.side (initSt cfg4).grid.periodicity = some 0 := by
  rw [c6_cur0 hi]
  show encode (parentVec (cvec [0, 0, 0, 0]) 0) cfg4.side false = some 0
  rw [parentVec_cvec_zero, c6_side, encode_cvec (by decide)]
  rfl

theorem c6_df1 (hi : 0 < (initSt cfg4).indices.length) (c : Vec ℝ) :
    is_disk_free cfg4.D cfg4.radius (initSt cfg4).grid
      ((initSt cfg4).indices.get ⟨0, hi⟩) (initSt cfg4).level c = true := by
  apply is_disk_free_all_none
  intro o ho
  exact List.eq_of_mem_replicate
    (show o ∈ List.replicate (cfg4.side ^ cfg4.D) (none : Option (Vec ℝ)) from ho)

theorem c6_step1 : Step cfg4 (initSt cfg4) ⟨c6grid1, c6indices1, 0, 4⟩ := by
  have hi : 0 < (initSt cfg4).indices.length := by
    show 0 < (initIndices cfg4).length
    rw [c6_len0]
    norm_num
  have ht : 0 < (initSt cfg4).throws := by rw [c6_throws]; norm_num
  have hp : ∀ x ∈ c6place1, 0 ≤ x ∧ x < 1 := by
    intro x hx
    rw [c6place1] at hx
    simp only [List.mem_cons, List.not_mem_nil, or_false] at hx
    rcases hx with rfl | rfl | rfl | rfl <;> norm_num
  have h := Step.throwPlace (initSt cfg4) 0 hi ht c6place1 rfl hp
    (c6_free1 hi) (c6_df1 hi _) 0 (c6_enc1 hi)
  rw [c6_sample1_eq hi, c6_throws] at h
  exact h

theorem c6_sample2_eq :
    chooseRandomSample c6grid1.cell (cvec [1, 0, 0, 0]) 0 c6place2 =
      [1 / 2, 0, 0, 0] := by
  rw [show c6grid1.cell = (1 / 2 : ℝ) from c6_cell]
  rw [chooseRandomSample, c6place2]
  norm_num [cvec, smul, vadd]

theorem c6_free2 : c6grid1.get (parentVec (cvec [1, 0, 0, 0]) 0) = some none := by
  rw [parentVec_cvec_zero, Grid.get]
  show (encode (cvec [1, 0, 0, 0]) cfg4.side false).map
    (fun t => c6grid1.data.getD t none) = some none
  rw [c6_side, encode_cvec (by decide)]
  show some (c6grid1.data.getD (natEncode [1, 0, 0, 0] 2) none) = some none
  rw [c6_data1, getD_set_replicate,
    if_neg (by rintro ⟨h2, -⟩; revert h2; decide)]

theorem c6_comb311 : combAt ([-2, -1, 0, 1, 2] : List ℝ) cfg4.D 311 =
    ([-1, 0, 0, 0] : Vec ℝ) := by
  show combAt ([-2, -1, 0, 1, 2] : List ℝ) 4 311 = _
  rw [combAt]
  norm_num [List.range_succ]

theorem c6_hit : (c6grid1.get (vadd (parentVec (cvec [1, 0, 0, 0]) 0)
    (combAt ([-2, -1, 0, 1, 2] : List ℝ) cfg4.D 311))).bind id = some c6sample1 := by
  rw [parentVec_cvec_zero, c6_comb311,
    show vadd (cvec [1, 0, 0, 0]) ([-1, 0, 0, 0] : Vec ℝ) = cvec [0, 0, 0, 0] from by
      norm_num [cvec, vadd]]
  rw [Grid.get]
  show ((encode (cvec [0, 0, 0, 0]) cfg4.side false).map
    (fun t => c6grid1.data.getD t none)).bind id = some c6sample1
  rw [c6_side, encode_cvec (by decide)]
  show (some (c6grid1.data.getD (natEncode [0, 0, 0, 0] 2) none)).bind id =
    some c6sample1
  rw [c6_data1, getD_set_replicate, if_pos ⟨by decide, c6_Npos⟩]
  rfl

theorem c6_df2 :
    is_disk_free cfg4.D cfg4.radius c6grid1 (cvec [1, 0, 0, 0]) 0
      (chooseRandomSample c6grid1.cell (cvec [1, 0, 0, 0]) 0 c6place2) = false := by
  rw [c6_sample2_eq]
  apply is_disk_free_eq_false (t := combAt ([-2, -1, 0, 1, 2] : List ℝ) cfg4.D 311)
    (v := c6sample1)
  · exact mem_eachCombination _ cfg4.D 311 (by show (311 : ℕ) < 5 ^ 4; norm_num)
  · exact c6_hit
  · show sqdist c6sample1 [1 / 2, 0, 0, 0] false < (2 * (1 / 2 : ℝ)) ^ 2
    rw [sqdist_nonper, c6sample1]
    norm_num [vsub, sqnorm]

theorem c6_reject (t : ℕ) (ht : 0 < t) :
    Step cfg4 (⟨c6grid1, c6indices1, 0, t⟩ : St ℝ) ⟨c6grid1, c6indices1, 0, t - 1⟩ := by
  have hi : 1 < c6indices1.length := by rw [c6_len1]; norm_num
  have hfree : c6grid1.get (parentVec (c6indices1.get ⟨1, hi⟩) 0) = some none := by
    rw [c6_cur1 hi]
    exact c6_free2
  have hdf : is_disk_free cfg4.D cfg4.radius c6grid1 (c6indices1.get ⟨1, hi⟩) 0
      (chooseRandomSample c6grid1.cell (c6indices1.get ⟨1, hi⟩) 0 c6place2) = false := by
    rw [c6_cur1 hi]
    exact c6_df2
  have hp : ∀ x ∈ c6place2, 0 ≤ x ∧ x < 1 := by
    intro x hx
    rw [c6place2] at hx
    simp only [List.mem_cons, List.not_mem_nil, or_false] at hx
    rcases hx with rfl | rfl | rfl | rfl <;> norm_num
  exact Step.throwReject _ 1 hi ht c6place2 rfl hp hfree hdf

theorem c6_reach5 : Reachable cfg4 (⟨c6grid1, c6indices1, 0, 0⟩ : St ℝ) := by
  have h1 : Reachable cfg4 (⟨c6grid1, c6indices1, 0, 4⟩ : St ℝ) :=
    Relation.ReflTransGen.tail Relation.ReflTransGen.refl c6_step1
  have h2 := Relation.ReflTransGen.tail h1 (c6_reject 4 (by norm_num))
  have h3 := Relation.ReflTransGen.tail h2 (c6_reject 3 (by norm_num))
  have h4 := Relation.ReflTransGen.tail h3 (c6_reject 2 (by norm_num))
  exact Relation.ReflTransGen.tail h4 (c6_reject 1 (by norm_num))

theorem c6_corner15 : combAt ([0, 1] : List ℝ) cfg4.D 15 = ([1, 1, 1, 1] : Vec ℝ) := by
  show combAt ([0, 1] : List ℝ) 4 15 = _
  rw [combAt]
  norm_num [List.range_succ]

theorem c6_children16 :
    (subdivChildren cfg4.D cfg4.radius c6grid1 0 (cvec [1, 1, 1, 1])).length = 16 := by
  have hall : ∀ c ∈ (eachCombination ([0, 1] : List ℝ) cfg4.D).map
      (fun n => vadd n (smul (cvec [1, 1, 1, 1]) 2)),
      (!(covered cfg4.D cfg4.radius c6grid1 c (0 + 1))) = true := by
    intro c hc
    obtain ⟨n, hn, rfl⟩ := List.mem_map.mp hc
    obtain ⟨hnlen, hncomp⟩ := mem_comb01 hn
    have hlen4 : n.length = 4 := hnlen
    rcases Bool.eq_false_or_eq_true (covered cfg4.D cfg4.radius c6grid1
        (vadd n (smul (cvec [1, 1, 1, 1]) 2)) (0 + 1)) with htrue | hfalse
    · exfalso
      obtain ⟨t, ht, v, hv, hcc⟩ := covered_iff.mp htrue
      obtain rfl := c6_get_single hv
      have hcorner := is_cell_covered_iff.mp hcc (combAt ([0, 1] : List ℝ) cfg4.D 15)
        (mem_eachCombination _ cfg4.D 15 (by show (15 : ℕ) < 2 ^ 4; norm_num))
      rw [c6_corner15] at hcorner
      have hc2 : sqnorm (vsub c6sample1
          (smul (vadd (vadd n (smul (cvec [1, 1, 1, 1]) 2)) ([1, 1, 1, 1] : Vec ℝ))
            (c6grid1.cell / ((2 ^ (0 + 1) : ℕ) : ℝ)))) < (2 * cfg4.radius) ^ 2 :=
        hcorner
      rw [show c6grid1.cell = (1 / 2 : ℝ) from c6_cell,
        show ((2 ^ (0 + 1) : ℕ) : ℝ) = 2 by norm_num,
        show smul (cvec [1, 1, 1, 1]) (2 : ℝ) = ([2, 2, 2, 2] : Vec ℝ) from by
          norm_num [cvec, smul],
        show (2 * cfg4.radius : ℝ) ^ 2 = 1 from by
          show (2 * (1 / 2 : ℝ)) ^ 2 = 1
          norm_num] at hc2
      have hlenX : (vadd (vadd n ([2, 2, 2, 2] : Vec ℝ)) ([1, 1, 1, 1] : Vec ℝ)).length
          = 4 := by
        simp [length_vadd, hlen4]
      have hlensm : (smul (vadd (vadd n ([2, 2, 2, 2] : Vec ℝ)) ([1, 1, 1, 1] : Vec ℝ))
          ((1 / 2 : ℝ) / 2)).length = 4 := by
        rw [length_smul, hlenX]
      have hldiff : (vsub c6sample1
          (smul (vadd (vadd n ([2, 2, 2, 2] : Vec ℝ)) ([1, 1, 1, 1] : Vec ℝ))
            ((1 / 2 : ℝ) / 2))).length = 4 := by
        rw [length_vsub, hlensm]
        rfl
      have hcomp : ∀ k, ∀ hk : k < (vsub c6sample1
          (smul (vadd (vadd n ([2, 2, 2, 2] : Vec ℝ)) ([1, 1, 1, 1] : Vec ℝ))
            ((1 / 2 : ℝ) / 2))).length,
          (49 / 100 : ℝ) ≤ (vsub c6sample1
            (smul (vadd (vadd n ([2, 2, 2, 2] : Vec ℝ)) ([1, 1, 1, 1] : Vec ℝ))
              ((1 / 2 : ℝ) / 2))).get ⟨k, hk⟩ ^ 2 := by
        intro k hk
        have hk4 : k < 4 := by rw [hldiff] at hk; exact hk
        have hks : k < c6sample1.length := by rw [c6sample1]; simpa using hk4
        have hkn : k < n.length := by omega
        have hk2 : k < ([2, 2, 2, 2] : Vec ℝ).length := by simpa using hk4
        have hk1 : k < ([1, 1, 1, 1] : Vec ℝ).length := by simpa using hk4
        have hkv1 : k < (vadd n ([2, 2, 2, 2] : Vec ℝ)).length := by
          rw [length_vadd, hlen4]
          simpa using hk4
        have hkv2 : k < (vadd (vadd n ([2, 2, 2, 2] : Vec ℝ))
            ([1, 1, 1, 1] : Vec ℝ)).length := by rw [hlenX]; exact hk4
        have hksm : k < (smul (vadd (vadd n ([2, 2, 2, 2] : Vec ℝ))
            ([1, 1, 1, 1] : Vec ℝ)) ((1 / 2 : ℝ) / 2)).length := by
          rw [hlensm]
          exact hk4
        rw [getElem_vsub _ _ k hk hks hksm,
          getElem_smul _ _ k hksm hkv2,
          getElem_vadd _ _ k hkv2 hkv1 hk1,
          getElem_vadd _ _ k hkv1 hkn hk2]
        have hg1 : c6sample1.get ⟨k, hks⟩ = 1 / 20 := by
          interval_cases k <;> rfl
        have hg2 : ([2, 2, 2, 2] : Vec ℝ).get ⟨k, hk2⟩ = 2 := by
          interval_cases k <;> rfl
        have hg3 : ([1, 1, 1, 1] : Vec ℝ).get ⟨k, hk1⟩ = 1 := by
          interval_cases k <;> rfl
        rw [hg1, hg2, hg3]
        rcases hncomp k hkn with h0 | h1
        · rw [h0]
          norm_num
        · rw [h1]
          norm_num
      have hb := sqnorm_ge_of_comp hcomp
      rw [hldiff] at hb
      have hbv : ((4 : ℕ) : ℝ) * (49 / 100) = 49 / 25 := by norm_num
      rw [hbv] at hb
      linarith
    · rw [hfalse]
      rfl
  rw [subdivChildren, List.filter_eq_self.mpr hall, List.length_map,
    length_eachCombination]
  show (2 : ℕ) ^ 4 = 16
  norm_num

end ShrinkageTrace

section SeparationTrace

/-- The configuration of a run at `D = 9`, `r = 3/8`, non-periodic:
`cell = 2*(3/8)/sqrt(9) = 1/4 < r` — above dimension 4 the cell is narrower
than the radius, so the `5^D` scan ring is too small. -/
noncomputable def cfg9 : Cfg ℝ := cfgOf 9 (3 / 8) false

/-- The sample accepted into cell `(0,...,0)`: random point `0.9` along the
first axis, scaled by `cell = 1/4`. -/
noncomputable def c1sample1 : Vec ℝ := [9 / 40, 0, 0, 0, 0, 0, 0, 0, 0]

/-- The sample accepted into cell `(3,0,...,0)`: random point `0`, i.e. the
cell's lower corner `3 * 1/4`. Distance to the first sample is
`0.75 - 0.225 = 0.525 < 2r = 0.75`. -/
noncomputable def c1sample2 : Vec ℝ := [3 / 4, 0, 0, 0, 0, 0, 0, 0, 0]

noncomputable def c1place1 : Vec ℝ := [9 / 10, 0, 0, 0, 0, 0, 0, 0, 0]

noncomputable def c1place2 : Vec ℝ := [0, 0, 0, 0, 0, 0, 0, 0, 0]

noncomputable def c1grid1 : Grid ℝ := (initSt cfg9).grid.set 0 (some c1sample1)

noncomputable def c1indices1 : List (Vec ℝ) := swapRemove (initSt cfg9).indices 0

noncomputable def c1s1 : St ℝ :=
  ⟨c1grid1, c1indices1, 0, (initSt cfg9).throws - 1⟩

noncomputable def c1grid2 : Grid ℝ := c1s1.grid.set 196608 (some c1sample2)

noncomputable def c1s2 : St ℝ :=
  ⟨c1grid2, swapRemove c1s1.indices 3, 0, c1s1.throws - 1⟩

theorem c1_cell : cfg9.cell = 1 / 4 := by
  show 2 * (3 / 8 : ℝ) / Real.sqrt ((9 : ℕ) : ℝ) = 1 / 4
  rw [show ((9 : ℕ) : ℝ) = 3 ^ 2 by norm_num,
    Real.sqrt_sq (by norm_num : (0 : ℝ) ≤ 3)]
  norm_num

theorem c1_side : cfg9.side = 4 := by
  show ⌊1 / (2 * (3 / 8 : ℝ) / Real.sqrt ((9 : ℕ) : ℝ))⌋₊ = 4
  rw [show ((9 : ℕ) : ℝ) = 3 ^ 2 by norm_num,
    Real.sqrt_sq (by norm_num : (0 : ℝ) ≤ 3),
    show 2 * (3 / 8 : ℝ) / 3 = 1 / 4 by norm_num,
    show (1 : ℝ) / (1 / 4) = 4 by norm_num]
  exact_mod_cast Nat.floor_natCast 4

theorem c1_len0 : (initIndices cfg9).length = 262144 := by
  rw [initIndices, length_eachCombination, List.length_map, List.length_range, c1_side]
  show (4 : ℕ) ^ 9 = 262144
  norm_num

theorem c1_ne0 : (initSt cfg9).indices ≠ [] := by
  apply List.ne_nil_of_length_pos
  show 0 < (initIndices cfg9).length
  rw [c1_len0]
  norm_num

theorem c1_len1 : c1indices1.length = 262143 := by
  show (swapRemove (initSt cfg9).indices 0).length = 262143
  rw [length_swapRemove _ _ c1_ne0]
  show (initIndices cfg9).length - 1 = 262143
  rw [c1_len0]

theorem c1_throws : 1 < (initSt cfg9).throws := by
  show 1 < throwsFor (K := ℝ) (initIndices cfg9).length
  rw [c1_len0, throwsFor]
  rw [Nat.lt_ceil]
  push_cast
  norm_num

theorem c1_Npos : 0 < cfg9.side ^ cfg9.D := by
  rw [c1_side]
  positivity

theorem c1_cur0 (hi : 0 < (initSt cfg9).indices.length) :
    (initSt cfg9).indices.get ⟨0, hi⟩ = cvec [0, 0, 0, 0, 0, 0, 0, 0, 0] := by
  show (initIndices cfg9).get ⟨0, hi⟩ = _
  rw [initIndices_getElem cfg9 (by rw [c1_side]; norm_num) 0 hi]
  refine congrArg cvec ?_
  rw [c1_side]
  show (List.range 9).map (fun n => 0 / 4 ^ n % 4) = [0, 0, 0, 0, 0, 0, 0, 0, 0]
  decide

theorem c1_cur3 (hi : 3 < c1s1.indices.length) :
    c1s1.indices.get ⟨3, hi⟩ = cvec [3, 0, 0, 0, 0, 0, 0, 0, 0] := by
  have hi0 : 3 < (initSt cfg9).indices.length := by
    show 3 < (initIndices cfg9).length
    rw [c1_len0]
    norm_num
  have h1 : c1indices1.get ⟨3, hi⟩ = (initSt cfg9).indices.get ⟨3, hi0⟩ :=
    get_swapRemove_ne (initSt cfg9).indices 0 3 hi c1_ne0 (by norm_num) hi0
  show c1indices1.get ⟨3, hi⟩ = _
  rw [h1]
  show (initIndices cfg9).get ⟨3, hi0⟩ = _
  rw [initIndices_getElem cfg9 (by rw [c1_side]; norm_num) 3 hi0]
  refine congrArg cvec ?_
  rw [c1_side]
  show (List.range 9).map (fun n => 3 / 4 ^ n % 4) = [3, 0, 0, 0, 0, 0, 0, 0, 0]
  decide

theorem c1_sample1_eq (hi : 0 < (initSt cfg9).indices.length) :
    chooseRandomSample (initSt cfg9).grid.cell ((initSt cfg9).indices.get ⟨0, hi⟩)
      (initSt cfg9).level c1place1 = c1sample1 := by
  rw [c1_cur0 hi, show (initSt cfg9).grid.cell = (1 / 4 : ℝ) from c1_cell]
  show chooseRandomSample (1 / 4 : ℝ) (cvec [0, 0, 0, 0, 0, 0, 0, 0, 0]) 0 c1place1 =
    c1sample1
  rw [chooseRandomSample, c1place1, c1sample1]
  norm_num [cvec, smul, vadd]

theorem c1_free1 (hi : 0 < (initSt cfg9).indices.length) :
    (initSt cfg9).grid.get (parentVec ((initSt cfg9).indices.get ⟨0, hi⟩)
      (initSt cfg9).level) = some none := by
  rw [c1_cur0 hi]
  show (initGrid cfg9).get (parentVec (cvec [0, 0, 0, 0, 0, 0, 0, 0, 0]) 0) = some none
  rw [parentVec_cvec_zero, Grid.get]
  show (encode (cvec [0, 0, 0, 0, 0, 0, 0, 0, 0]) cfg9.side false).map
    (fun t => (initGrid cfg9).data.getD t none) = some none
  rw [c1_side, encode_cvec (by decide)]
  show some ((List.replicate (cfg9.side ^ cfg9.D) (none : Option (Vec ℝ))).getD
    (natEncode [0, 0, 0, 0, 0, 0, 0, 0, 0] 4) none) = some none
  rw [getD_replicate_none]

theorem c1_enc1 (hi : 0 < (initSt cfg9).indices.length) :
    encode (parentVec ((initSt cfg9).indices.get ⟨0, hi⟩) (initSt cfg9).level)
      (initSt cfg9).grid.side (initSt cfg9).grid.periodicity = some 0 := by
  rw [c1_cur0 hi]
  show encode (parentVec (cvec [0, 0, 0, 0, 0, 0, 0, 0, 0]) 0) cfg9.side false = some 0
  rw [parentVec_cvec_zero, c1_side, encode_cvec (by decide)]
  rfl

theorem c1_df1 (hi : 0 < (initSt cfg9).indices.length) (c : Vec ℝ) :
    is_disk_free cfg9.D cfg9.radius (initSt cfg9).grid
      ((initSt cfg9).indices.get ⟨0, hi⟩) (initSt cfg9).level c = true := by
  apply is_disk_free_all_none
  intro o ho
  exact List.eq_of_mem_replicate
    (show o ∈ List.replicate (cfg9.side ^ cfg9.D) (none : Option (Vec ℝ)) from ho)

theorem c1_place1_range : ∀ x ∈ c1place1, 0 ≤ x ∧ x < 1 := by
  intro x hx
  rw [c1place1] at hx
  simp only [List.mem_cons, List.not_mem_nil, or_false] at hx
  rcases hx with rfl | rfl | rfl | rfl | rfl | rfl | rfl | rfl | rfl <;> norm_num

theorem c1_place2_range : ∀ x ∈ c1place2, 0 ≤ x ∧ x < 1 := by
  intro x hx
  rw [c1place2] at hx
  simp only [List.mem_cons, List.not_mem_nil, or_false] at hx
  rcases hx with rfl | rfl | rfl | rfl | rfl | rfl | rfl | rfl | rfl <;> norm_num

theorem c1_step1 : Step cfg9 (initSt cfg9) c1s1 := by
  have hi : 0 < (initSt cfg9).indices.length := by
    show 0 < (initIndices cfg9).length
    rw [c1_len0]
    norm_num
  have ht : 0 < (initSt cfg9).throws := lt_trans (by norm_num) c1_throws
  have h := Step.throwPlace (initSt cfg9) 0 hi ht c1place1 rfl
    c1_place1_range (c1_free1 hi) (c1_df1 hi _) 0 (c1_enc1 hi)
  rw [c1_sample1_eq hi] at h
  exact h

theorem c1_data1 : c1grid1.data =
    (List.replicate (cfg9.side ^ cfg9.D) (none : Option (Vec ℝ))).set 0
      (some c1sample1) := rfl

theorem c1_free2 : c1grid1.get (parentVec (cvec [3, 0, 0, 0, 0, 0, 0, 0, 0]) 0) =
    some none := by
  rw [parentVec_cvec_zero, Grid.get]
  show (encode (cvec [3, 0, 0, 0, 0, 0, 0, 0, 0]) cfg9.side false).map
    (fun t => c1grid1.data.getD t none) = some none
  rw [c1_side, encode_cvec (by decide)]
  show some (c1grid1.data.getD (natEncode [3, 0, 0, 0, 0, 0, 0, 0, 0] 4) none) =
    some none
  rw [c1_data1, getD_set_replicate,
    if_neg (by rintro ⟨h2, -⟩; revert h2; decide)]

theorem c1_enc2 : encode (parentVec (cvec (K := ℝ) [3, 0, 0, 0, 0, 0, 0, 0, 0]) 0)
    c1s1.grid.side c1s1.grid.periodicity = some 196608 := by
  show encode (parentVec (cvec (K := ℝ) [3, 0, 0, 0, 0, 0, 0, 0, 0]) 0) cfg9.side false =
    some 196608
  rw [parentVec_cvec_zero, c1_side, encode_cvec (by decide)]
  rfl

theorem c1_df2 (c : Vec ℝ) :
    is_disk_free cfg9.D cfg9.radius c1grid1 (cvec [3, 0, 0, 0, 0, 0, 0, 0, 0]) 0 c =
      true := by
  apply is_disk_free_iff.mpr
  intro t ht v hv
  exfalso
  obtain ⟨-, henc0, -⟩ := grid_get_single c1_data1 hv
  rw [parentVec_cvec_zero] at henc0
  obtain ⟨htlen, htcomp⟩ := mem_comb5 ht
  have htlen9 : t.length = 9 := htlen
  cases t with
  | nil => simp at htlen9
  | cons t0 ts =>
    rw [show cvec [3, 0, 0, 0, 0, 0, 0, 0, 0] =
        ((3 : ℕ) : ℝ) :: cvec [0, 0, 0, 0, 0, 0, 0, 0] from rfl, vadd_cons] at henc0
    have hgs : c1grid1.side = 4 := c1_side
    have hgp : c1grid1.periodicity = false := rfl
    rw [hgs, hgp] at henc0
    have hbound := encode_cons_zero_first (by norm_num) henc0
    obtain ⟨z, hz, hz1, hz2⟩ := htcomp 0 (by simp)
    have ht0 : t0 = (z : ℝ) := hz
    rw [ht0] at hbound
    have hzc : (-2 : ℝ) ≤ (z : ℝ) := by exact_mod_cast hz1
    have h3 : ((3 : ℕ) : ℝ) = 3 := by norm_num
    rw [h3] at hbound
    linarith [hbound.2]

theorem c1_sample2_eq :
    chooseRandomSample c1s1.grid.cell (cvec [3, 0, 0, 0, 0, 0, 0, 0, 0])
      c1s1.level c1place2 = c1sample2 := by
  rw [show c1s1.grid.cell = (1 / 4 : ℝ) from c1_cell]
  show chooseRandomSample (1 / 4 : ℝ) (cvec [3, 0, 0, 0, 0, 0, 0, 0, 0]) 0 c1place2 =
    c1sample2
  rw [chooseRandomSample, c1place2, c1sample2]
  norm_num [cvec, smul, vadd]

theorem c1_step2 : Step cfg9 c1s1 c1s2 := by
  have hi : 3 < c1s1.indices.length := by
    show 3 < c1indices1.length
    rw [c1_len1]
    norm_num
  have ht : 0 < c1s1.throws := by
    show 0 < (initSt cfg9).throws - 1
    have := c1_throws
    omega
  have hfree : c1s1.grid.get (parentVec (c1s1.indices.get ⟨3, hi⟩) c1s1.level) =
      some none := by
    rw [c1_cur3 hi]
    exact c1_free2
  have hdf : is_disk_free cfg9.D cfg9.radius c1s1.grid (c1s1.indices.get ⟨3, hi⟩)
      c1s1.level (chooseRandomSample c1s1.grid.cell (c1s1.indices.get ⟨3, hi⟩)
        c1s1.level c1place2) = true := by
    rw [c1_cur3 hi]
    exact c1_df2 _
  have henc : encode (parentVec (c1s1.indices.get ⟨3, hi⟩) c1s1.level)
      c1s1.grid.side c1s1.grid.periodicity = some 196608 := by
    rw [c1_cur3 hi]
    exact c1_enc2
  have h := Step.throwPlace c1s1 3 hi ht c1place2 rfl
    c1_place2_range hfree hdf 196608 henc
  rw [c1_cur3 hi, c1_sample2_eq] at h
  exact h

theorem c1_reach2 : Reachable cfg9 c1s2 :=
  Relation.ReflTransGen.tail
    (Relation.ReflTransGen.tail Relation.ReflTransGen.refl c1_step1) c1_step2

theorem c1_dlen : c1s2.grid.data.length = 262144 := by
  show ((((List.replicate (cfg9.side ^ cfg9.D) (none : Option (Vec ℝ))).set 0
    (some c1sample1)).set 196608 (some c1sample2))).length = 262144
  simp only [List.length_set, List.length_replicate]
  rw [c1_side]
  show (4 : ℕ) ^ 9 = 262144
  norm_num

theorem c1_slot0 (h1 : 0 < c1s2.grid.data.length) :
    c1s2.grid.data.get ⟨0, h1⟩ = some c1sample1 := by
  show ((((List.replicate (cfg9.side ^ cfg9.D) (none : Option (Vec ℝ))).set 0
    (some c1sample1)).set 196608 (some c1sample2))).get ⟨0, h1⟩ = some c1sample1
  rw [List.get_eq_getElem, List.getElem_set_ne (by norm_num : (196608 : ℕ) ≠ 0),
    List.getElem_set_self (by
      simp only [List.length_set, List.length_replicate]
      have := c1_Npos
      omega)]

theorem c1_slot196608 (h2 : 196608 < c1s2.grid.data.length) :
    c1s2.grid.data.get ⟨196608, h2⟩ = some c1sample2 := by
  show ((((List.replicate (cfg9.side ^ cfg9.D) (none : Option (Vec ℝ))).set 0
    (some c1sample1)).set 196608 (some c1sample2))).get ⟨196608, h2⟩ = some c1sample2
  rw [List.get_eq_getElem, List.getElem_set_self (by
    simp only [List.length_set, List.length_replicate]
    rw [c1_side]
    show 196608 < (4 : ℕ) ^ 9
    norm_num)]

theorem c1_sqdist : sqdist c1sample1 c1sample2 false = 441 / 1600 := by
  rw [sqdist_nonper, c1sample1, c1sample2]
  norm_num [vsub, sqnorm]

end SeparationTrace

section Projection

theorem parentVec_zero_of_cvec {w : Vec K} {c : List ℕ} (h : cvec c = w) :
    parentVec w 0 = w := by
  rw [← h, parentVec_cvec_zero]

/-- A `{0,1}`-child of an integer-valued candidate projects back to the
candidate: `⌊(t + 2m)/2⌋ = m` for `t ∈ {0,1}`. -/
theorem parentVec_child {i t : Vec K} (hlen : t.length = i.length)
    (hint : ∀ n, ∀ h : n < i.length, ∃ m : ℕ, i.get ⟨n, h⟩ = (m : K))
    (ht01 : ∀ n, ∀ h : n < t.length, t.get ⟨n, h⟩ = 0 ∨ t.get ⟨n, h⟩ = 1) :
    parentVec (vadd t (smul i 2)) 1 = i := by
  apply List.ext_get
  · simp [parentVec, length_vadd, length_smul, hlen]
  intro n h1 h2
  have hnt : n < t.length := by
    simp only [parentVec, List.length_map, length_vadd, length_smul] at h1
    omega
  have hns : n < (smul i 2).length := by
    rw [length_smul]
    omega
  have hnv : n < (vadd t (smul i 2)).length := by
    rw [length_vadd, length_smul]
    omega
  have hval : (parentVec (vadd t (smul i 2)) 1).get ⟨n, h1⟩ =
      ((⌊(vadd t (smul i 2)).get ⟨n, hnv⟩ / (2 ^ 1 : K)⌋ : ℤ) : K) := by
    simp [parentVec, List.get_eq_getElem, List.getElem_map]
  rw [hval, getElem_vadd t (smul i 2) n hnv hnt hns, getElem_smul i 2 n hns h2]
  obtain ⟨m, hm⟩ := hint n h2
  rw [hm]
  rcases ht01 n hnt with h0 | h0 <;> rw [h0]
  · rw [show ((0 : K) + (m : K) * 2) / 2 ^ 1 = ((m : ℕ) : K) by push_cast; ring,
      Int.floor_natCast]
    exact_mod_cast rfl
  · rw [show ((1 : K) + (m : K) * 2) / 2 ^ 1 = ((m : ℕ) : K) + 1 / 2 by
      push_cast; ring]
    have hfl : ⌊((m : ℕ) : K) + 1 / 2⌋ = (m : ℤ) := by
      rw [Int.floor_eq_iff]
      constructor
      · push_cast
        linarith
      · push_cast
        linarith
    rw [hfl]
    exact_mod_cast rfl

theorem step_level_le {cfg : Cfg K} {s sp : St K} (h : Step cfg s sp) :
    s.level ≤ sp.level := by
  cases h with
  | throwDead i hi ht v hocc => exact le_refl _
  | throwPlace i hi ht place hpl hp hfree hdf e henc => exact le_refl _
  | throwReject i hi ht place hpl hp hfree hdf => exact le_refl _
  | subdivideStep ht hne hlvl => exact Nat.le_succ _

theorem reach_level_le {cfg : Cfg K} {s s2 : St K}
    (h : Relation.ReflTransGen (Step cfg) s s2) : s.level ≤ s2.level := by
  induction h with
  | refl => exact le_refl _
  | tail hab hbc ih => exact le_trans ih (step_level_le hbc)

/-- One step sends every candidate of the successor state, projected one
level up when the step subdivided, back into the predecessor's list. -/
theorem step_project {cfg : Cfg K} {s sp : St K} (hreach : Reachable cfg s)
    (hstep : Step cfg s sp) :
    ∀ w ∈ sp.indices, parentVec w (sp.level - s.level) ∈ s.indices := by
  have hb := invBase_reachable hreach
  cases hstep with
  | throwDead i hi ht v hocc =>
    intro w hw
    have hw2 : w ∈ s.indices := mem_swapRemove_subset hw
    show parentVec w (s.level - s.level) ∈ s.indices
    rw [Nat.sub_self]
    obtain ⟨-, -, -, -, -, -, hcv, -⟩ := candidate_parent hb hw2
    rw [parentVec_zero_of_cvec hcv]
    exact hw2
  | throwPlace i hi ht place hpl hp hfree hdf e henc =>
    intro w hw
    have hw2 : w ∈ s.indices := mem_swapRemove_subset hw
    show parentVec w (s.level - s.level) ∈ s.indices
    rw [Nat.sub_self]
    obtain ⟨-, -, -, -, -, -, hcv, -⟩ := candidate_parent hb hw2
    rw [parentVec_zero_of_cvec hcv]
    exact hw2
  | throwReject i hi ht place hpl hp hfree hdf =>
    intro w hw
    show parentVec w (s.level - s.level) ∈ s.indices
    rw [Nat.sub_self]
    obtain ⟨-, -, -, -, -, -, hcv, -⟩ := candidate_parent hb hw
    rw [parentVec_zero_of_cvec hcv]
    exact hw
  | subdivideStep ht hne hlvl =>
    intro w hw
    have hw2 := (subdivideList_perm cfg.D cfg.radius s.grid s.level s.indices).mem_iff.mp
      (show w ∈ subdivideList cfg.D cfg.radius s.grid s.level s.indices from hw)
    obtain ⟨i, hi, hwi⟩ := List.mem_flatMap.mp hw2
    obtain ⟨hwf, -⟩ := List.mem_filter.mp hwi
    obtain ⟨t, ht2, rfl⟩ := List.mem_map.mp hwf
    obtain ⟨htlen, ht01⟩ := mem_comb01 ht2
    show parentVec (vadd t (smul i 2)) (s.level + 1 - s.level) ∈ s.indices
    rw [show s.level + 1 - s.level = 1 from by omega]
    rw [parentVec_child (by rw [htlen, hb.ilen i hi])
      (fun n h => ⟨(hb.irange i hi n h).choose, (hb.irange i hi n h).choose_spec.1⟩)
      ht01]
    exact hi

/-- Along any run segment, every candidate of the later state projects (by
the level difference) to a candidate of the earlier state. -/
theorem reach_project {cfg : Cfg K} {s s2 : St K} (hreach : Reachable cfg s)
    (hsteps : Relation.ReflTransGen (Step cfg) s s2) :
    ∀ w ∈ s2.indices, parentVec w (s2.level - s.level) ∈ s.indices := by
  induction hsteps with
  | refl =>
    intro w hw
    have hb := invBase_reachable hreach
    rw [Nat.sub_self]
    obtain ⟨-, -, -, -, -, -, hcv, -⟩ := candidate_parent hb hw
    rw [parentVec_zero_of_cvec hcv]
    exact hw
  | tail hab hbc ih =>
    intro w hw
    rename_i b c
    have hreachb : Reachable cfg b := Relation.ReflTransGen.trans hreach hab
    have h1 := step_project hreachb hbc w hw
    have h2 := ih _ h1
    rw [parentVec_comp] at h2
    have hl1 : s.level ≤ b.level := reach_level_le hab
    have hl2 : b.level ≤ c.level := step_level_le hbc
    rw [show c.level - b.level + (b.level - s.level) = c.level - s.level from by
      omega] at h2
    exact h2

/-- Every candidate produced by a subdivision step passed the `covered`
filter, so no cell `covered` at the new level is among them. -/
theorem covered_child_excluded {cfg : Cfg K} {s sp : St K} (hstep : Step cfg s sp)
    (hlvl : sp.level = s.level + 1) {c : Vec K}
    (hcov : covered cfg.D cfg.radius s.grid c (s.level + 1) = true) :
    c ∉ sp.indices := by
  cases hstep with
  | throwDead i hi ht v hocc => exact absurd hlvl (by show s.level ≠ s.level + 1; omega)
  | throwPlace i hi ht place hpl hp hfree hdf e henc =>
    exact absurd hlvl (by show s.level ≠ s.level + 1; omega)
  | throwReject i hi ht place hpl hp hfree hdf =>
    exact absurd hlvl (by show s.level ≠ s.level + 1; omega)
  | subdivideStep ht hne hlvl2 =>
    intro hmem
    have hw2 := (subdivideList_perm cfg.D cfg.radius s.grid s.level s.indices).mem_iff.mp
      (show c ∈ subdivideList cfg.D cfg.radius s.grid s.level s.indices from hmem)
    obtain ⟨i, hi, hci⟩ := List.mem_flatMap.mp hw2
    obtain ⟨-, hpred⟩ := List.mem_filter.mp hci
    rw [hcov] at hpred
    exact absurd hpred (by simp)

end Projection

/-! ## Claim theorems -/

/-- C1 counterexample: the minimum-separation invariant as claimed — for
every valid configuration, in every reachable state all pairs of stored
samples are `(2r)^2`-separated — is false. At `D = 9`, `r = 3/8` (valid:
`0 < 3/8 ≤ sqrt(2)/2`), `cell = 1/4 < r`, so the `5^9` scan ring around a
candidate's top-level cell misses occupied cells three columns away: the run
accepts `(0.225, 0, ..., 0)` into cell `(0,...,0)` and then accepts
`(0.75, 0, ..., 0)` into cell `(3,0,...,0)` — `is_disk_free` sees an empty
ring — yet their squared distance is `0.525^2 = 441/1600 < 9/16 = (2r)^2`. -/
theorem min_separation_counterexample :
    ¬ (∀ (D : ℕ) (r : ℝ) (p : Bool), 2 ≤ D → 0 < r → r ≤ Real.sqrt 2 / 2 →
        ∀ s : St ℝ, Reachable (cfgOf D r p) s →
          (∀ e1 e2, ∀ h1 : e1 < s.grid.data.length, ∀ h2 : e2 < s.grid.data.length,
            e1 ≠ e2 → ∀ v1 v2, s.grid.data.get ⟨e1, h1⟩ = some v1 →
            s.grid.data.get ⟨e2, h2⟩ = some v2 →
            (2 * r) ^ 2 ≤ sqdist v1 v2 p) ∧
          List.Pairwise (fun a b : Sample ℝ => (2 * r) ^ 2 ≤ sqdist a.pos b.pos p)
            (s.grid.into_extended_samples [] r)) := by
  intro hclaim
  have hr38 : (3 / 8 : ℝ) ≤ Real.sqrt 2 / 2 := by
    have h := Real.sq_sqrt (by norm_num : (0 : ℝ) ≤ 2)
    nlinarith [Real.sqrt_nonneg 2]
  have h1 : (0 : ℕ) < c1s2.grid.data.length := by rw [c1_dlen]; norm_num
  have h2 : 196608 < c1s2.grid.data.length := by rw [c1_dlen]; norm_num
  have hsep := (hclaim 9 (3 / 8) false (by norm_num) (by norm_num) hr38 c1s2
    c1_reach2).1 0 196608 h1 h2 (by norm_num) c1sample1 c1sample2
    (c1_slot0 h1) (c1_slot196608 h2)
  rw [c1_sqdist] at hsep
  norm_num at hsep

/-- C1 amended: the minimum-separation invariant holds for dimensions
`2 ≤ D ≤ 4` (where `cell = 2r/sqrt(D) ≥ r`, so the `5^D` ring suffices):
in every reachable state, samples in distinct grid slots are at squared
distance (plain, or toroidal-minimum when periodic) at least `(2r)^2`, and
hence the final output collection is pairwise `(2r)^2`-separated. -/
theorem min_separation_amended (D : ℕ) (r : ℝ) (p : Bool) (hD2 : 2 ≤ D) (hD4 : D ≤ 4)
    (h1 : 0 < r) (h2 : r ≤ Real.sqrt 2 / 2) :
    ∀ s : St ℝ, Reachable (cfgOf D r p) s →
      (∀ e1 e2, ∀ he1 : e1 < s.grid.data.length, ∀ he2 : e2 < s.grid.data.length,
        e1 ≠ e2 → ∀ v1 v2, s.grid.data.get ⟨e1, he1⟩ = some v1 →
        s.grid.data.get ⟨e2, he2⟩ = some v2 →
        (2 * r) ^ 2 ≤ sqdist v1 v2 p) ∧
      List.Pairwise (fun a b : Sample ℝ => (2 * r) ^ 2 ≤ sqdist a.pos b.pos p)
        (s.grid.into_extended_samples [] r) := by
  intro s hs
  have hDpos : (0 : ℝ) < (D : ℝ) := by exact_mod_cast (by omega : 0 < D)
  have hsqpos : 0 < Real.sqrt D := Real.sqrt_pos.mpr hDpos
  have hcell : (cfgOf D r p).cell = 2 * r / Real.sqrt D := rfl
  have hc : 0 < (cfgOf D r p).cell := by
    rw [hcell]
    positivity
  have hsqle : Real.sqrt D ≤ 2 := by
    have h4 : ((D : ℝ)) ≤ 4 := by exact_mod_cast hD4
    calc Real.sqrt D ≤ Real.sqrt 4 := Real.sqrt_le_sqrt h4
      _ = 2 := by
          rw [show (4 : ℝ) = 2 ^ 2 by norm_num,
            Real.sqrt_sq (by norm_num : (0 : ℝ) ≤ 2)]
  have hrc : r ≤ (cfgOf D r p).cell := by
    rw [hcell, le_div_iff₀ hsqpos]
    nlinarith
  have hsc : ((cfgOf D r p).side : ℝ) * (cfgOf D r p).cell ≤ 1 := by
    have hfl : ((cfgOf D r p).side : ℝ) ≤ 1 / (cfgOf D r p).cell := by
      have hdef : (cfgOf D r p).side = ⌊1 / (cfgOf D r p).cell⌋₊ := rfl
      rw [hdef]
      exact Nat.floor_le (by positivity)
    calc ((cfgOf D r p).side : ℝ) * (cfgOf D r p).cell
        ≤ (1 / (cfgOf D r p).cell) * (cfgOf D r p).cell :=
          mul_le_mul_of_nonneg_right hfl (le_of_lt hc)
      _ = 1 := by field_simp
  have hsm := invSamples_reachable hc (le_of_lt h1) hrc hsc hs
  constructor
  · intro e1 e2 he1 he2 hne v1 v2 hv1 hv2
    exact hsm.sep e1 e2 he1 he2 hne v1 v2 hv1 hv2
  · show List.Pairwise _ ([] ++ (s.grid.data.filterMap id).map
      (fun v => (⟨v, r⟩ : Sample ℝ)))
    rw [List.nil_append]
    apply List.pairwise_map.mpr
    apply pairwise_filterMap_slots
    intro e1 e2 hh1 hh2 hlt v1 v2 hv1 hv2
    exact hsm.sep e1 e2 hh1 hh2 (by omega) v1 v2 hv1 hv2

/-- Witness for the amended C1 at `D = 2`, `r = 1/2`, non-periodic. -/
theorem min_separation_amended_witness :
    (2 ≤ 2 ∧ 2 ≤ 4 ∧ (0 : ℝ) < 1 / 2 ∧ (1 / 2 : ℝ) ≤ Real.sqrt 2 / 2) ∧
    (∀ s : St ℝ, Reachable (cfgOf 2 (1 / 2) false) s →
      (∀ e1 e2, ∀ he1 : e1 < s.grid.data.length, ∀ he2 : e2 < s.grid.data.length,
        e1 ≠ e2 → ∀ v1 v2, s.grid.data.get ⟨e1, he1⟩ = some v1 →
        s.grid.data.get ⟨e2, he2⟩ = some v2 →
        (2 * (1 / 2 : ℝ)) ^ 2 ≤ sqdist v1 v2 false) ∧
      List.Pairwise (fun a b : Sample ℝ =>
        (2 * (1 / 2 : ℝ)) ^ 2 ≤ sqdist a.pos b.pos false)
        (s.grid.into_extended_samples [] (1 / 2))) := by
  have hr2 : (1 / 2 : ℝ) ≤ Real.sqrt 2 / 2 := by
    have h := Real.sq_sqrt (by norm_num : (0 : ℝ) ≤ 2)
    nlinarith [Real.sqrt_nonneg 2]
  exact ⟨⟨le_refl 2, by norm_num, by norm_num, hr2⟩,
    min_separation_amended 2 (1 / 2) false (le_refl 2) (by norm_num) (by norm_num) hr2⟩

/-- C2: for every valid configuration (radius in `(0, sqrt(2)/2]`, dimension
`D ≥ 2`, periodic or not) and every random source, `generate` terminates:
the step relation of the driver loop is well-founded from every state (so no
infinite run exists, whatever the RNG draws), and every reachable state's
level respects the `f64::MANTISSA_DIGITS = 53` bound. -/
theorem generate_terminates (D : ℕ) (r : ℝ) (p : Bool) (hD : 2 ≤ D)
    (h1 : 0 < r) (h2 : r ≤ Real.sqrt 2 / 2) :
    (∀ s : St ℝ, Acc (fun a b : St ℝ => Step (cfgOf D r p) b a) s) ∧
    (∀ s : St ℝ, Reachable (cfgOf D r p) s → s.level ≤ mantissaDigits) :=
  ⟨step_acc (cfgOf D r p), fun s hs => (invBase_reachable hs).lvl⟩

/-- Witness for C2 at the concrete configuration `D = 2`,
`r = sqrt(2)/2`, non-periodic. -/
theorem generate_terminates_witness :
    (2 ≤ 2 ∧ (0 : ℝ) < Real.sqrt 2 / 2 ∧ Real.sqrt 2 / 2 ≤ Real.sqrt 2 / 2) ∧
    ((∀ s : St ℝ, Acc (fun a b : St ℝ => Step (cfgOf 2 (Real.sqrt 2 / 2) false) b a) s) ∧
     (∀ s : St ℝ, Reachable (cfgOf 2 (Real.sqrt 2 / 2) false) s →
        s.level ≤ mantissaDigits)) :=
  ⟨⟨le_refl 2, by positivity, le_refl _⟩,
    generate_terminates 2 (Real.sqrt 2 / 2) false (le_refl 2) (by positivity) (le_refl _)⟩

/-- C3: for every dimension `D`, every side `s ≥ 1`, and every integer
coordinate vector `c` with each component in `[0, s)`, encoding `c`
non-periodically with side `s` yields `Some` flat index, and decoding that
flat index with side `s` yields exactly `c` back. -/
theorem coordinate_roundtrip {c : List ℕ} {s : ℕ} (hs : 1 ≤ s)
    (hc : ∀ m ∈ c, m < s) :
    ∃ idx, encode (cvec (K := ℝ) c) s false = some idx ∧
      decode (K := ℝ) c.length idx s = some (cvec c) :=
  ⟨natEncode c s, encode_cvec hc, decode_natEncode hs hc⟩

/-- Witness for C3 at the concrete input `c = [1, 0]`, `s = 2`. -/
theorem coordinate_roundtrip_witness :
    (1 ≤ 2 ∧ ∀ m ∈ [1, 0], m < 2) ∧
      ∃ idx, encode (cvec (K := ℝ) [1, 0]) 2 false = some idx ∧
        decode (K := ℝ) ([1, 0] : List ℕ).length idx 2 = some (cvec [1, 0]) :=
  ⟨⟨by norm_num, by decide⟩, coordinate_roundtrip (by norm_num) (by decide)⟩

/-- C4: in non-periodic mode `encode` returns `None` exactly when some
component of the coordinate vector is `< 0` or `>= side`; in periodic mode
`encode` never returns `None` (each integer component, negative values
included, is wrapped by true mathematical modulo `side`, here `Int.emod`)
and the returned flat index is always below `side ^ D`, hence a valid index
into the `side^D`-element data array. -/
theorem encode_range_behaviour (s : ℕ) (hs : 1 ≤ s) :
    (∀ v : Vec ℝ, (encode v s false = none ↔ ∃ x ∈ v, x < 0 ∨ (s : ℝ) ≤ x)) ∧
    (∀ v : Vec ℝ, ∃ idx, encode v s true = some idx ∧ idx < s ^ v.length) ∧
    (∀ c : List ℤ, encode (zvec (K := ℝ) c) s true =
      some (natEncode (c.map (fun z => (z.emod s).toNat)) s)) := by
  refine ⟨fun v => encode_none_iff v s, fun v => encode_per_lt v hs, fun c => ?_⟩
  rw [encode_per_eq _ hs]
  congr 2
  rw [zvec, List.map_map]
  apply List.map_congr_left
  intro z hz
  simp only [Function.comp_apply, trunc_intCast]

/-- Witness for C4 at the concrete side `s = 3`. -/
theorem encode_range_behaviour_witness :
    1 ≤ 3 ∧
    ((∀ v : Vec ℝ, (encode v 3 false = none ↔ ∃ x ∈ v, x < 0 ∨ (3 : ℝ) ≤ x)) ∧
    (∀ v : Vec ℝ, ∃ idx, encode v 3 true = some idx ∧ idx < 3 ^ v.length) ∧
    (∀ c : List ℤ, encode (zvec (K := ℝ) c) 3 true =
      some (natEncode (c.map (fun z => (z.emod 3).toNat)) 3))) :=
  ⟨by norm_num, encode_range_behaviour 3 (by norm_num)⟩

/-- C7: applying `get_parent` at level `k1` and then at level `k2` yields the
same result as applying it once at level `k1 + k2`: coarsening twice by
floor-division equals coarsening by the sum of the levels. -/
theorem parent_projection_composition (c : Vec ℝ) (k1 k2 s : ℕ) :
    (get_parent c k1 s).bind (fun w => get_parent w k2 s) = get_parent c (k1 + k2) s := by
  rw [get_parent_eq, Option.some_bind, get_parent_eq, get_parent_eq, parentVec_comp]

/-- C8: `Grid::new(r, periodic)` produces a grid with
`cell = 2*r / sqrt(D)`, `side = floor(1/cell)`, and a data array of exactly
`side^D` slots, all initially empty. -/
theorem grid_construction (D : ℕ) (r : ℝ) (p : Bool) (h1 : 0 < r)
    (h2 : r ≤ Real.sqrt 2 / 2) :
    (Grid.new D r p).cell = 2 * r / Real.sqrt D ∧
    (Grid.new D r p).side = ⌊1 / (Grid.new D r p).cell⌋₊ ∧
    (Grid.new D r p).cells = (Grid.new D r p).side ^ D ∧
    (Grid.new D r p).periodicity = p ∧
    ∀ e, e < (Grid.new D r p).cells → (Grid.new D r p).data.getD e none = none := by
  refine ⟨rfl, rfl, by simp [Grid.new, Grid.cells], rfl, ?_⟩
  intro e he
  simp only [Grid.new, Grid.cells, List.length_replicate] at he
  rw [List.getD_eq_getElem _ _ (by simpa [Grid.new] using he)]
  simp [Grid.new]

/-- Witness for C8 at the concrete input `D = 2`, `r = 1/2`, non-periodic. -/
theorem grid_construction_witness :
    ((0 : ℝ) < 1 / 2 ∧ (1 / 2 : ℝ) ≤ Real.sqrt 2 / 2) ∧
    ((Grid.new 2 (1 / 2) false).cell = 2 * (1 / 2) / Real.sqrt 2 ∧
    (Grid.new 2 (1 / 2) false).side = ⌊1 / (Grid.new 2 (1 / 2) false).cell⌋₊ ∧
    (Grid.new 2 (1 / 2) false).cells = (Grid.new 2 (1 / 2) false).side ^ 2 ∧
    (Grid.new 2 (1 / 2) false).periodicity = false ∧
    ∀ e, e < (Grid.new 2 (1 / 2) false).cells →
      (Grid.new 2 (1 / 2) false).data.getD e none = none) := by
  have hs : (1 / 2 : ℝ) ≤ Real.sqrt 2 / 2 := by
    have h := Real.sq_sqrt (by norm_num : (0 : ℝ) ≤ 2)
    nlinarith [Real.sqrt_nonneg 2]
  exact ⟨⟨by norm_num, hs⟩, by
    have := grid_construction 2 (1 / 2) false (by norm_num) hs
    simpa using this⟩

/-- C9 counterexample: the claim considers a relative radius of `0` a valid
configuration for `build_relative_radius` (inside `[0,1]`), but the source
asserts `0 < radius`, so the configuration is rejected: the claim as stated
— the listed configurations are the invalid ones and all others pass — is
false at relative radius `0`. -/
theorem fail_fast_counterexample :
    ¬ ((∀ p D (r : ℝ), r ≤ 0 ∨ Real.sqrt 2 / 2 < r → build_radius p D r = none) ∧
       (∀ g (r : ℝ), r ≤ 0 ∨ Real.sqrt 2 / 2 < r → set_radius g r = none) ∧
       (∀ p D (r : ℝ), r < 0 ∨ 1 < r → build_relative_radius p D r = none) ∧
       (∀ p D n (rr c : ℝ), rr < 0 ∨ 1 < rr ∨ n = 0 ∨ (p = false ∧ 5 ≤ D) →
         build_samples p D n rr c = none) ∧
       (∀ p D (r : ℝ), 0 < r ∧ r ≤ Real.sqrt 2 / 2 → ∃ g, build_radius p D r = some g) ∧
       (∀ g (r : ℝ), 0 < r ∧ r ≤ Real.sqrt 2 / 2 → ∃ g2, set_radius g r = some g2) ∧
       (∀ p D (r : ℝ), 0 ≤ r ∧ r ≤ 1 → ∃ g, build_relative_radius p D r = some g) ∧
       (∀ p D n (rr c : ℝ), (p = true ∨ D < 5) ∧ 0 < n ∧ 0 ≤ rr ∧ rr ≤ 1 →
         ∃ g, build_samples p D n rr c = some g)) := by
  intro h
  obtain ⟨g, hg⟩ := h.2.2.2.2.2.2.1 false 2 0 ⟨le_refl 0, by norm_num⟩
  rw [build_relative_radius, if_neg (by simp)] at hg
  exact Option.noConfusion hg

/-- C9 amended: each builder accepts exactly its asserted range — absolute
radius in `(0, sqrt(2)/2]` for `build_radius` and `set_radius`, relative
radius in `(0, 1]` (not `[0, 1]`) for `build_relative_radius`, and for
`build_samples` a positive sample count, relative radius in `[0, 1]`, and
periodicity or dimension below 5; outside these ranges the assertions fail
before any generator state is constructed. -/
theorem builder_assertion_guards :
    (∀ p D (r : ℝ), (∃ g, build_radius p D r = some g) ↔
      0 < r ∧ r ≤ Real.sqrt 2 / 2) ∧
    (∀ g (r : ℝ), (∃ g2, set_radius g r = some g2) ↔
      0 < r ∧ r ≤ Real.sqrt 2 / 2) ∧
    (∀ p D (r : ℝ), (∃ g, build_relative_radius p D r = some g) ↔ 0 < r ∧ r ≤ 1) ∧
    (∀ p D n (rr c : ℝ), (∃ g, build_samples p D n rr c = some g) ↔
      ((p = true ∨ D < 5) ∧ 0 < n ∧ 0 ≤ rr ∧ rr ≤ 1)) := by
  refine ⟨fun p D r => ?_, fun g r => ?_, fun p D r => ?_, fun p D n rr c => ?_⟩ <;>
    first
    | (unfold build_radius
       by_cases h : 0 < r ∧ r ≤ Real.sqrt 2 / 2
       · simpa [if_pos h] using h
       · simpa [if_neg h] using h)
    | (unfold set_radius
       by_cases h : 0 < r ∧ r ≤ Real.sqrt 2 / 2
       · simpa [if_pos h] using h
       · simpa [if_neg h] using h)
    | (unfold build_relative_radius
       by_cases h : 0 < r ∧ r ≤ 1
       · simpa [if_pos h] using h
       · simpa [if_neg h] using h)
    | (unfold build_samples
       by_cases h : (p = true ∨ D < 5) ∧ 0 < n ∧ 0 ≤ rr ∧ rr ≤ 1
       · simpa [if_pos h] using h
       · simpa [if_neg h] using h)

/-- C5: (i) one `subdivide` call at level `k` turns the candidate list, up to
order, into exactly the children `i*2 + t` (`t ∈ {0,1}^D`) of the previous
candidates `i`, minus the children `covered` at level `k+1`; (ii) a cell
`covered` at the new level is never among the produced candidates; and
(iii) it is never re-inserted at any later point of the run: no candidate of
any later state projects back (by the level difference) onto it. -/
theorem subdivision_pass (D : ℕ) (r : ℝ) (p : Bool) :
    (∀ (g : Grid ℝ) (level : ℕ) (idx : List (Vec ℝ)),
      List.Perm (subdivideList D r g level idx)
        (idx.flatMap (fun i =>
          ((eachCombination ([0, 1] : List ℝ) D).map
            (fun t => vadd t (smul i 2))).filter
              (fun c => !(covered D r g c (level + 1)))))) ∧
    (∀ s sp : St ℝ, Step (cfgOf D r p) s sp → sp.level = s.level + 1 →
      ∀ c, covered (cfgOf D r p).D (cfgOf D r p).radius s.grid c (s.level + 1) = true →
        c ∉ sp.indices) ∧
    (∀ s sp s2 : St ℝ, Reachable (cfgOf D r p) s → Step (cfgOf D r p) s sp →
      sp.level = s.level + 1 →
      Relation.ReflTransGen (Step (cfgOf D r p)) sp s2 →
      ∀ c, covered (cfgOf D r p).D (cfgOf D r p).radius s.grid c (s.level + 1) = true →
        ∀ w ∈ s2.indices, parentVec w (s2.level - sp.level) ≠ c) := by
  refine ⟨fun g level idx => subdivideList_perm D r g level idx, ?_, ?_⟩
  · intro s sp hstep hlvl c hcov
    exact covered_child_excluded hstep hlvl hcov
  · intro s sp s2 hreach hstep hlvl hsteps c hcov w hw heq
    have hreachp : Reachable (cfgOf D r p) sp := Relation.ReflTransGen.tail hreach hstep
    have hproj := reach_project hreachp hsteps w hw
    rw [heq] at hproj
    exact covered_child_excluded hstep hlvl hcov hproj

/-- C6 counterexample: the claim that the candidate list length never
increases at any step is false. At `D = 4`, `r = 1/2` (valid: `2 ≤ 4`,
`0 < 1/2 ≤ sqrt(2)/2`), after one accepted throw and four rejected throws the
budget is exhausted with 15 candidates left; the subdivision step then
replaces candidate `(1,1,1,1)` alone by all `2^4 = 16` of its children (the
single stored sample `(0.05,0.05,0.05,0.05)` covers none of them, their far
corners lying at squared distance `≥ 1.96 ≥ (2r)^2 = 1`), so the list grows
from 15 to at least 16. -/
theorem candidate_shrinkage_counterexample :
    ¬ (∀ (D : ℕ) (r : ℝ) (p : Bool), 2 ≤ D → 0 < r → r ≤ Real.sqrt 2 / 2 →
        (initSt (cfgOf D r p)).indices.length = (cfgOf D r p).side ^ D ∧
        ∀ s sp : St ℝ, Reachable (cfgOf D r p) s → Step (cfgOf D r p) s sp →
          sp.indices.length ≤ s.indices.length) := by
  intro hclaim
  have hr2 : (1 / 2 : ℝ) ≤ Real.sqrt 2 / 2 := by
    have h := Real.sq_sqrt (by norm_num : (0 : ℝ) ≤ 2)
    nlinarith [Real.sqrt_nonneg 2]
  obtain ⟨-, hmono⟩ := hclaim 4 (1 / 2) false (by norm_num) (by norm_num) hr2
  have hstep6 : Step cfg4 (⟨c6grid1, c6indices1, 0, 0⟩ : St ℝ)
      ⟨c6grid1, subdivideList cfg4.D cfg4.radius c6grid1 0 c6indices1, 0 + 1,
        if 0 + 1 < mantissaDigits then
          throwsFor (K := ℝ)
            (subdivideList cfg4.D cfg4.radius c6grid1 0 c6indices1).length
        else 0⟩ :=
    Step.subdivideStep _ rfl c6_ne1 (by decide)
  have hle := hmono _ _ c6_reach5 hstep6
  have hle2 : (subdivideList cfg4.D cfg4.radius c6grid1 0 c6indices1).length ≤
      c6indices1.length := hle
  have hge : 16 ≤ (subdivideList cfg4.D cfg4.radius c6grid1 0 c6indices1).length := by
    rw [(subdivideList_perm cfg4.D cfg4.radius c6grid1 0 c6indices1).length_eq]
    calc (16 : ℕ)
        = (subdivChildren cfg4.D cfg4.radius c6grid1 0 (cvec [1, 1, 1, 1])).length :=
          c6_children16.symm
      _ ≤ _ := le_length_flatMap_of_mem c6_mem15 _
  rw [c6_len1] at hle2
  omega

/-- C6 amended: the candidate list is created exactly once with `side^D`
top-level cells; a throw step at the same level never lengthens it, while a
subdivision step may lengthen it by at most the factor `2^D` (each surviving
candidate is replaced by at most `2^D` children) — it need not shrink. -/
theorem candidate_list_evolution (D : ℕ) (r : ℝ) (p : Bool) :
    (initSt (cfgOf D r p)).indices.length = (cfgOf D r p).side ^ D ∧
    ∀ s sp : St ℝ, Step (cfgOf D r p) s sp →
      (sp.level = s.level → sp.indices.length ≤ s.indices.length) ∧
      sp.indices.length ≤ 2 ^ D * s.indices.length := by
  constructor
  · show (initIndices (cfgOf D r p)).length = _
    rw [initIndices, length_eachCombination, List.length_map, List.length_range]
    rfl
  · intro s sp hstep
    have hself : s.indices.length ≤ 2 ^ D * s.indices.length :=
      Nat.le_mul_of_pos_left _ (pow_pos (by norm_num) D)
    cases hstep with
    | throwDead i hi ht v hocc =>
      have hne : s.indices ≠ [] := List.ne_nil_of_length_pos (by omega)
      have hlen := length_swapRemove s.indices i hne
      exact ⟨fun h => by show (swapRemove s.indices i).length ≤ _; omega,
        by show (swapRemove s.indices i).length ≤ _; omega⟩
    | throwPlace i hi ht place hpl hp hfree hdf e henc =>
      have hne : s.indices ≠ [] := List.ne_nil_of_length_pos (by omega)
      have hlen := length_swapRemove s.indices i hne
      exact ⟨fun h => by show (swapRemove s.indices i).length ≤ _; omega,
        by show (swapRemove s.indices i).length ≤ _; omega⟩
    | throwReject i hi ht place hpl hp hfree hdf =>
      exact ⟨fun h => le_refl _, hself⟩
    | subdivideStep ht hne hlvl =>
      constructor
      · intro h
        exact absurd h (by show s.level + 1 ≠ s.level; omega)
      · show (subdivideList (cfgOf D r p).D (cfgOf D r p).radius s.grid s.level
          s.indices).length ≤ 2 ^ D * s.indices.length
        rw [(subdivideList_perm _ _ _ _ _).length_eq]
        apply length_flatMap_le
        intro a ha
        calc (subdivChildren (cfgOf D r p).D (cfgOf D r p).radius s.grid s.level a).length
            ≤ ((eachCombination ([0, 1] : List ℝ) (cfgOf D r p).D).map
                (fun nn => vadd nn (smul a 2))).length :=
              List.length_filter_le _ _
          _ = 2 ^ D := by
              rw [List.length_map, length_eachCombination]
              rfl

/-- C10: in every reachable state of a `generate` run, every candidate in
the list has all components integer-valued floats in `[0, side * 2^level)`;
the free `get_parent` returns `Some` (its out-of-area rejection being
disabled); and the parent projects into `[0, side)^D`, `encode` accepts it in
the grid's addressing mode, and the resulting flat index is within the data
array — so the `.unwrap()`s on `Grid::get_parent`, `grid.get(parent)` and
`grid.get_mut(parent)` inside `throw_samples` all succeed. -/
theorem driver_unwrap_safety (D : ℕ) (r : ℝ) (p : Bool)
    (s : St ℝ) (hs : Reachable (cfgOf D r p) s) (v : Vec ℝ) (hv : v ∈ s.indices) :
    (∀ n, ∀ h : n < v.length, ∃ m : ℕ, v.get ⟨n, h⟩ = (m : ℝ) ∧
      m < (cfgOf D r p).side * 2 ^ s.level) ∧
    get_parent v s.level s.grid.side = some (parentVec v s.level) ∧
    ∃ q : List ℕ, parentVec v s.level = cvec q ∧
      (∀ m ∈ q, m < (cfgOf D r p).side) ∧
      encode (parentVec v s.level) s.grid.side s.grid.periodicity =
        some (natEncode q (cfgOf D r p).side) ∧
      natEncode q (cfgOf D r p).side < s.grid.data.length := by
  have hb := invBase_reachable hs
  refine ⟨hb.irange v hv, get_parent_eq _ _ _, ?_⟩
  obtain ⟨q, hqv, hqlen, hqb, hqenc, hqlt, _, _⟩ := candidate_parent hb hv
  refine ⟨q, hqv, hqb, ?_, ?_⟩
  · rw [hb.gside, hb.gper]
    exact hqenc (cfgOf D r p).periodic
  · rw [hb.glen]
    exact hqlt

/-- Witness for C10 at the configuration `D = 2`, `r = sqrt(2)/2`,
non-periodic, in the initial state, at the candidate `[0, 0]`. -/
theorem driver_unwrap_safety_witness :
    (Reachable (cfgOf 2 (Real.sqrt 2 / 2) false)
        (initSt (cfgOf 2 (Real.sqrt 2 / 2) false)) ∧
      ([0, 0] : Vec ℝ) ∈ (initSt (cfgOf 2 (Real.sqrt 2 / 2) false)).indices) ∧
    ((∀ n, ∀ h : n < ([0, 0] : Vec ℝ).length, ∃ m : ℕ,
        ([0, 0] : Vec ℝ).get ⟨n, h⟩ = (m : ℝ) ∧
        m < (cfgOf 2 (Real.sqrt 2 / 2) false).side *
          2 ^ (initSt (cfgOf 2 (Real.sqrt 2 / 2) false)).level) ∧
      get_parent ([0, 0] : Vec ℝ) (initSt (cfgOf 2 (Real.sqrt 2 / 2) false)).level
          (initSt (cfgOf 2 (Real.sqrt 2 / 2) false)).grid.side =
        some (parentVec ([0, 0] : Vec ℝ)
          (initSt (cfgOf 2 (Real.sqrt 2 / 2) false)).level) ∧
      ∃ q : List ℕ,
        parentVec ([0, 0] : Vec ℝ) (initSt (cfgOf 2 (Real.sqrt 2 / 2) false)).level =
          cvec q ∧
        (∀ m ∈ q, m < (cfgOf 2 (Real.sqrt 2 / 2) false).side) ∧
        encode (parentVec ([0, 0] : Vec ℝ)
            (initSt (cfgOf 2 (Real.sqrt 2 / 2) false)).level)
            (initSt (cfgOf 2 (Real.sqrt 2 / 2) false)).grid.side
            (initSt (cfgOf 2 (Real.sqrt 2 / 2) false)).grid.periodicity =
          some (natEncode q (cfgOf 2 (Real.sqrt 2 / 2) false).side) ∧
        natEncode q (cfgOf 2 (Real.sqrt 2 / 2) false).side <
          (initSt (cfgOf 2 (Real.sqrt 2 / 2) false)).grid.data.length) := by
  have hcell : (cfgOf 2 (Real.sqrt 2 / 2) false).cell = 1 := by
    show 2 * (Real.sqrt 2 / 2) / Real.sqrt (2 : ℕ) = 1
    have h2 : Real.sqrt 2 ≠ 0 := by positivity
    rw [show ((2 : ℕ) : ℝ) = 2 by norm_num]
    field_simp
  have hside : (cfgOf 2 (Real.sqrt 2 / 2) false).side = 1 := by
    show ⌊1 / (2 * (Real.sqrt 2 / 2) / Real.sqrt (2 : ℕ))⌋₊ = 1
    have h2 : Real.sqrt 2 ≠ 0 := by positivity
    rw [show ((2 : ℕ) : ℝ) = 2 by norm_num,
      show 2 * (Real.sqrt 2 / 2) / Real.sqrt 2 = 1 by field_simp]
    norm_num
  have hmem : ([0, 0] : Vec ℝ) ∈ (initSt (cfgOf 2 (Real.sqrt 2 / 2) false)).indices := by
    show _ ∈ initIndices (cfgOf 2 (Real.sqrt 2 / 2) false)
    have hchoices : initIndices (cfgOf 2 (Real.sqrt 2 / 2) false) =
        eachCombination ((List.range 1).map (fun i : ℕ => (i : ℝ))) 2 := by
      rw [initIndices, hside]
      rfl
    rw [hchoices]
    rw [eachCombination]
    apply List.mem_map.mpr
    refine ⟨0, List.mem_range.mpr (by norm_num), ?_⟩
    rw [combAt]
    simp [List.range_succ]
  exact ⟨⟨Relation.ReflTransGen.refl, hmem⟩,
    driver_unwrap_safety 2 (Real.sqrt 2 / 2) false
      (initSt (cfgOf 2 (Real.sqrt 2 / 2) false)) Relation.ReflTransGen.refl
      ([0, 0] : Vec ℝ) hmem⟩

end Poisson
